import Mathlib

/-!
A shallow embedding of `queue.c`.

The queue of `queue.c` is an intrusive circular doubly-linked list: a sentinel
`struct list_head` followed by `element_t` records, each holding an owned string.

The embedding keeps the C memory explicit.  A pointer is `Option Ptr` (`none` is `NULL`),
the heap is split by field (`next`, `prev`, `value` and a liveness bit per address), every
dereference of `NULL` or of a block that is not live is an error (`none` in the `Option`
monad), and every C loop is a structurally recursive function bounded by a fuel argument
(running out of fuel is an error as well).

The `char *value` buffer owned by an element is stored by content: the list of bytes of the
allocation, terminating NUL included, so that its length is the allocation size.  A read that
runs past the end of that buffer is undefined behaviour which the compiled code performs: it
finds the bytes that follow the buffer in memory, or faults when that memory cannot be read.
The heap records both (`past`): such a read is visible in the embedding as a read of `past`
bytes, the theorems hold whatever these bytes are, and a fault is an error.  A write outside a
buffer is an error.

`size_t` is 64 bits wide.  The `int` counters of the source (`len`, `s_size`) are unbounded
naturals.  For `int s_size = strlen(s)` this agrees with the code when `strlen(s) + 1` fits
`int` (at most `2^31 - 1`); the theorems about the strings stored by an insertion carry this
bound (`strOk`).
-/

namespace LabQueue

/-! ## Memory -/

/-- An address of a live or dead block; `Option Ptr` is a C pointer, `none` being `NULL`. -/
abbrev Ptr := Nat

/-- The heap, split by field.  A block is an `element_t` (the sentinel made by `q_new` is one
too): its `list.next`, its `list.prev`, and the bytes of the buffer its `value` points to. -/
structure Heap where
  alive : Ptr → Bool
  next : Ptr → Option Ptr
  prev : Ptr → Option Ptr
  value : Ptr → List Nat
  /-- The memory after the buffer of `value`, as a read that runs past the buffer finds it:
  `some j` when it can be read, `j i` being the byte at offset `i` past the end of the buffer,
  `none` when such a read faults.  The program does not own this memory and never writes
  it. -/
  past : Ptr → Option (Nat → Nat)

/-- The heap with no live block; the memory after every buffer can be read there and holds
the byte 170. -/
def Heap.empty : Heap :=
  ⟨fun _ => false, fun _ => none, fun _ => none, fun _ => [], fun _ => some (fun _ => 170)⟩

/-- Read `p->next`. -/
@[noinline]
def getNext (h : Heap) : Option Ptr → Option (Option Ptr)
  | none => none
  | some p => if h.alive p then some (h.next p) else none

/-- Read `p->prev`. -/
@[noinline]
def getPrev (h : Heap) : Option Ptr → Option (Option Ptr)
  | none => none
  | some p => if h.alive p then some (h.prev p) else none

/-- Read the buffer behind `container_of(p, element_t, list)->value`. -/
@[noinline]
def getValue (h : Heap) : Option Ptr → Option (List Nat)
  | none => none
  | some p => if h.alive p then some (h.value p) else none

/-- The memory a read of `n` bytes at `container_of(p, element_t, list)->value` goes through:
the buffer, followed, when `n` is more than its size, by the bytes after it.  Reading those is
an out-of-bounds read; the compiled code performs it and goes on, unless the read faults. -/
@[noinline]
def getMemory (h : Heap) (p : Option Ptr) (n : Nat) : Option (List Nat) :=
  match p with
  | none => none
  | some a =>
    if h.alive a then
      if n ≤ (h.value a).length then some (h.value a)
      else
        match h.past a with
        | none => none
        | some j => some (h.value a ++ (List.range (n - (h.value a).length)).map j)
    else none

/-- Write `p->next = v`. -/
@[noinline]
def setNext (h : Heap) (p : Option Ptr) (v : Option Ptr) : Option Heap :=
  match p with
  | none => none
  | some a => if h.alive a then some { h with next := Function.update h.next a v } else none

/-- Write `p->prev = v`. -/
@[noinline]
def setPrev (h : Heap) (p : Option Ptr) (v : Option Ptr) : Option Heap :=
  match p with
  | none => none
  | some a => if h.alive a then some { h with prev := Function.update h.prev a v } else none

/-- Write `p->value = buf`, the element taking ownership of the buffer. -/
@[noinline]
def setValue (h : Heap) (p : Option Ptr) (buf : List Nat) : Option Heap :=
  match p with
  | none => none
  | some a => if h.alive a then some { h with value := Function.update h.value a buf } else none

/-- The call `malloc(sizeof(element_t))`.  The allocator is outside the program: its answer `r`
is an argument, `none` for failure.  A fresh block has unset fields; an answer that names a
live block is not a behaviour of `malloc`. -/
@[noinline]
def malloc (h : Heap) : Option Ptr → Option (Heap × Option Ptr)
  | none => some (h, none)
  | some p =>
    if h.alive p then none
    else some ({ alive := Function.update h.alive p true,
                 next := Function.update h.next p none,
                 prev := Function.update h.prev p none,
                 value := Function.update h.value p [],
                 past := h.past }, some p)

/-- The call `free(p)`: a no-op on `NULL`, an error on a block that is not live. -/
@[noinline]
def free (h : Heap) : Option Ptr → Option Heap
  | none => some h
  | some p => if h.alive p then some { h with alive := Function.update h.alive p false } else none

/-! ## Byte buffers and the C string functions -/

/-- The byte an uninitialised buffer is filled with (any value but the terminator). -/
def garbage : Nat := 170

/-- The libc `strlen`: the index of the first NUL, an error if the buffer holds none. -/
def strlen : List Nat → Option Nat
  | [] => none
  | c :: cs => if c = 0 then some 0 else (strlen cs).map (fun n => n + 1)

/-- The libc `strcmp` on two buffers: the difference of the first two bytes that differ, `0` if
both strings end together, an error if a buffer is left before a NUL is met. -/
def strcmp : List Nat → List Nat → Option Int
  | a :: as, b :: bs =>
    if a ≠ b then some ((a : Int) - (b : Int))
    else if a = 0 then some 0
    else strcmp as bs
  | _, _ => none

/-- The libc `memcpy(dst, src, n)` on the memory `src` and the buffer `dst`: an error if `n`
bytes cannot be read from `src` or cannot be written to `dst`. -/
def memcpy (dst src : List Nat) (n : Nat) : Option (List Nat) :=
  if n ≤ src.length ∧ n ≤ dst.length then some (src.take n ++ dst.drop n) else none

/-- The store `buf[i] = c`: an error outside the buffer. -/
def bufSet (buf : List Nat) (i : Nat) (c : Nat) : Option (List Nat) :=
  if i < buf.length then some (buf.set i c) else none

/-- A buffer read as a NUL-terminated string: the bytes before the first NUL. -/
def cstr (buf : List Nat) : List Nat := buf.takeWhile (fun c => c ≠ 0)

/-- Subtraction of `size_t` values: `a - b` modulo `2^64`. -/
def size_sub (a b : Nat) : Nat := (2 ^ 64 - b % 2 ^ 64 + a) % 2 ^ 64

/-! ## The primitives of `list.h` -/

/-- Modelled from the spec: `INIT_LIST_HEAD` of `list.h`, which is not part of the sources at
hand.  A standalone sentinel has `next == prev == self`. -/
def INIT_LIST_HEAD (h : Heap) (head : Option Ptr) : Option Heap := do
  let h ← setNext h head head
  setPrev h head head

/-- Modelled from the spec: `list_empty` of `list.h`; `isEmpty(sentinel)` is true iff
`sentinel.next == sentinel`. -/
def list_empty (h : Heap) (head : Option Ptr) : Option Bool := do
  let n ← getNext h head
  pure (decide (n = head))

/-- Modelled from the spec: `list_add` of `list.h`; links `node` between the sentinel and its
former first element, updating the four cross-references. -/
def list_add (h : Heap) (node head : Option Ptr) : Option Heap := do
  let next ← getNext h head
  let h ← setPrev h next node
  let h ← setNext h node next
  let h ← setPrev h node head
  setNext h head node

/-- Modelled from the spec: `list_add_tail` of `list.h`; links `node` between the former last
element and the sentinel, updating the four cross-references. -/
def list_add_tail (h : Heap) (node head : Option Ptr) : Option Heap := do
  let prev ← getPrev h head
  let h ← setNext h prev node
  let h ← setPrev h node prev
  let h ← setNext h node head
  setPrev h head node

/-- Modelled from the spec: `list_del` of `list.h`; splices `node` out by connecting its former
neighbours directly.  The fields of `node` itself are left as they are. -/
def list_del (h : Heap) (node : Option Ptr) : Option Heap := do
  let next ← getNext h node
  let prev ← getPrev h node
  let h ← setPrev h next prev
  setNext h prev next

/-! ## The functions of `queue.c` -/

/-- The function `q_new`. -/
def q_new (h : Heap) (r : Option Ptr) : Option (Heap × Option Ptr) := do
  let (h, new) ← malloc h r
  match new with
  | none => pure (h, none)
  | some _ =>
    let h ← INIT_LIST_HEAD h new
    pure (h, new)

/-- The function `q_release_element`: the buffer and the record are freed together. -/
def q_release_element (h : Heap) (e : Option Ptr) : Option Heap :=
  match e with
  | none => none
  | some _ => free h e

/-- The loop of `q_free`. -/
def q_free_loop : Nat → Heap → Option Ptr → Option Ptr → Option Heap
  | 0, _, _, _ => none
  | fuel + 1, h, l, ptr =>
    if ptr = l then some h
    else do
      let node := ptr
      let ptr ← getNext h ptr
      let h ← q_release_element h node
      q_free_loop fuel h l ptr

/-- The function `q_free`. -/
def q_free (fuel : Nat) (h : Heap) (l : Option Ptr) : Option Heap :=
  match l with
  | none => some h
  | some _ => do
    let ptr ← getNext h l
    let h ← q_free_loop fuel h l ptr
    free h l

/-- The common body of `q_insert_head` and `q_insert_tail` up to the link step: `r` is the
answer of the first `malloc`, `ok` tells whether the second one (the string copy) succeeds.
Returns the heap and the new node, `none` for the node when `false` is to be returned. -/
def q_insert_alloc (h : Heap) (s : List Nat) (r : Option Ptr) (ok : Bool) :
    Option (Heap × Option Ptr) := do
  let (h, node) ← malloc h r
  match node with
  | none => pure (h, none)
  | some _ =>
    let s_size ← strlen s
    if ok = false then
      let h ← free h node
      pure (h, none)
    else
      let s_copy ← memcpy (List.replicate (s_size + 1) garbage) s s_size
      let s_copy ← bufSet s_copy s_size 0
      let h ← setValue h node s_copy
      pure (h, node)

/-- The function `q_insert_head`. -/
def q_insert_head (h : Heap) (head : Option Ptr) (s : List Nat) (r : Option Ptr) (ok : Bool) :
    Option (Heap × Bool) :=
  match head with
  | none => some (h, false)
  | some _ => do
    let (h, node) ← q_insert_alloc h s r ok
    match node with
    | none => pure (h, false)
    | some _ =>
      let h ← list_add h node head
      pure (h, true)

/-- The function `q_insert_tail`. -/
def q_insert_tail (h : Heap) (head : Option Ptr) (s : List Nat) (r : Option Ptr) (ok : Bool) :
    Option (Heap × Bool) :=
  match head with
  | none => some (h, false)
  | some _ => do
    let (h, node) ← q_insert_alloc h s r ok
    match node with
    | none => pure (h, false)
    | some _ =>
      let h ← list_add_tail h node head
      pure (h, true)

/-- The result of a remove: the heap, the returned element and the caller's buffer. -/
structure Removed where
  heap : Heap
  node : Option Ptr
  sp : Option (List Nat)

/-- The function `q_remove_head`; `sp` is the caller's buffer (`none` for `NULL`).  The source
of the `memcpy` is the memory at `node->value`: the copy of `bufsize - 1` bytes reads past the
string buffer when that is shorter. -/
def q_remove_head (h : Heap) (head : Option Ptr) (sp : Option (List Nat)) (bufsize : Nat) :
    Option Removed :=
  match head with
  | none => some ⟨h, none, sp⟩
  | some _ => do
    if (← list_empty h head) then pure ⟨h, none, sp⟩
    else
      let node ← getNext h head
      match sp with
      | none =>
        let h ← list_del h (← getNext h head)
        pure ⟨h, node, none⟩
      | some buf =>
        let buf ← memcpy buf (← getMemory h node (size_sub bufsize 1)) (size_sub bufsize 1)
        let h ← list_del h (← getNext h head)
        let buf ← bufSet buf (size_sub bufsize 1) 0
        pure ⟨h, node, some buf⟩

/-- The function `q_remove_tail`. -/
def q_remove_tail (h : Heap) (head : Option Ptr) (sp : Option (List Nat)) (bufsize : Nat) :
    Option Removed :=
  match head with
  | none => some ⟨h, none, sp⟩
  | some _ => do
    if (← list_empty h head) then pure ⟨h, none, sp⟩
    else
      let node ← getPrev h head
      match sp with
      | none =>
        let h ← list_del h (← getPrev h head)
        pure ⟨h, node, none⟩
      | some buf =>
        let buf ← memcpy buf (← getMemory h node (size_sub bufsize 1)) (size_sub bufsize 1)
        let h ← list_del h (← getPrev h head)
        let buf ← bufSet buf (size_sub bufsize 1) 0
        pure ⟨h, node, some buf⟩

/-- The loop `list_for_each (li, head) len++` of `q_size`. -/
def q_size_loop : Nat → Heap → Option Ptr → Option Ptr → Nat → Option Nat
  | 0, _, _, _, _ => none
  | fuel + 1, h, head, li, len =>
    if li = head then some len
    else do
      let li ← getNext h li
      q_size_loop fuel h head li (len + 1)

/-- The function `q_size`. -/
def q_size (fuel : Nat) (h : Heap) (head : Option Ptr) : Option Nat :=
  match head with
  | none => some 0
  | some _ => do
    let li ← getNext h head
    q_size_loop fuel h head li 0

/-- The address of a pointer variable: the local `head` of `mergeTwoLists`, or the `next` field
of a node (`&p->next`). -/
inductive Loc where
  | headVar : Loc
  | nextOf : Option Ptr → Loc
  deriving DecidableEq

/-- Read `*loc`, the local variable holding `head`. -/
def loadLoc (h : Heap) (head : Option Ptr) : Loc → Option (Option Ptr)
  | Loc.headVar => some head
  | Loc.nextOf p => getNext h p

/-- Write `*loc = v`; returns the heap and the local variable. -/
def storeLoc (h : Heap) (head : Option Ptr) (loc : Loc) (v : Option Ptr) :
    Option (Heap × Option Ptr) :=
  match loc with
  | Loc.headVar => some (h, v)
  | Loc.nextOf p => (setNext h p v).map (fun h1 => (h1, head))

/-- The loop of `q_delete_mid`: returns `indir_slow`. -/
def q_delete_mid_loop : Nat → Heap → Option Ptr → Loc → Option Ptr → Option Loc
  | 0, _, _, _, _ => none
  | fuel + 1, h, head, indir_slow, fast =>
    if head = fast then some indir_slow
    else do
      let fn ← getNext h fast
      if head = fn then pure indir_slow
      else
        let s ← loadLoc h none indir_slow
        let fast ← getNext h fn
        q_delete_mid_loop fuel h head (Loc.nextOf s) fast

/-- The function `q_delete_mid`. -/
def q_delete_mid (fuel : Nat) (h : Heap) (head : Option Ptr) : Option (Heap × Bool) :=
  match head with
  | none => some (h, false)
  | some _ => do
    if (← list_empty h head) then pure (h, false)
    else
      let fast ← getNext h head
      let indir_slow ← q_delete_mid_loop fuel h head (Loc.nextOf head) fast
      let remove_point ← loadLoc h none indir_slow
      let h ← list_del h (← loadLoc h none indir_slow)
      let h ← q_release_element h remove_point
      pure (h, true)

/-- The loop of `q_delete_dup`: returns the heap, `ptr1` and `dup_flag` at loop exit. -/
def q_delete_dup_loop : Nat → Heap → Option Ptr → Option Ptr → Option Ptr → Bool →
    Option (Heap × Option Ptr × Bool)
  | 0, _, _, _, _, _ => none
  | fuel + 1, h, head, ptr1, ptr2, dup_flag =>
    if ptr2 = head then some (h, ptr1, dup_flag)
    else do
      let c ← strcmp (← getValue h ptr1) (← getValue h ptr2)
      if c = 0 then
        let h ← list_del h ptr2
        let h ← q_release_element h ptr2
        let ptr2 ← getNext h ptr1
        q_delete_dup_loop fuel h head ptr1 ptr2 true
      else
        let h ← (if dup_flag then do
                    let h ← list_del h ptr1
                    q_release_element h ptr1
                  else pure h)
        let ptr1 := ptr2
        let ptr2 ← getNext h ptr1
        q_delete_dup_loop fuel h head ptr1 ptr2 false

/-- The function `q_delete_dup`. -/
def q_delete_dup (fuel : Nat) (h : Heap) (head : Option Ptr) : Option (Heap × Bool) :=
  match head with
  | none => some (h, false)
  | some _ => do
    let ptr1 ← getNext h head
    let ptr2 ← getNext h ptr1
    let (h, ptr1, dup_flag) ← q_delete_dup_loop fuel h head ptr1 ptr2 false
    if dup_flag then
      let h ← list_del h ptr1
      let h ← q_release_element h ptr1
      pure (h, true)
    else pure (h, true)

/-- The read `p->next->next`. -/
def getNext2 (h : Heap) (p : Option Ptr) : Option (Option Ptr) := do
  getNext h (← getNext h p)

/-- The read `p->next->next->next`. -/
def getNext3 (h : Heap) (p : Option Ptr) : Option (Option Ptr) := do
  getNext h (← getNext2 h p)

/-- The assignment `ptr->next->next->next = ptr->next` of `q_swap`. -/
def q_swap_s1 (h : Heap) (ptr : Option Ptr) : Option Heap := do
  setNext h (← getNext2 h ptr) (← getNext h ptr)

/-- The assignment `ptr->next = ptr->next->next` of `q_swap`. -/
def q_swap_s2 (h : Heap) (ptr : Option Ptr) : Option Heap := do
  setNext h ptr (← getNext2 h ptr)

/-- The assignment `ptr->next->next->next = tmp` of `q_swap`. -/
def q_swap_s3 (h : Heap) (ptr tmp : Option Ptr) : Option Heap := do
  setNext h (← getNext2 h ptr) tmp

/-- The assignment `ptr->next->next->next->prev = ptr->next->next` of `q_swap`. -/
def q_swap_s4 (h : Heap) (ptr : Option Ptr) : Option Heap := do
  setPrev h (← getNext3 h ptr) (← getNext2 h ptr)

/-- The assignment `ptr->next->next->prev = ptr->next` of `q_swap`. -/
def q_swap_s5 (h : Heap) (ptr : Option Ptr) : Option Heap := do
  setPrev h (← getNext2 h ptr) (← getNext h ptr)

/-- The assignment `ptr->next->prev = ptr` of `q_swap`. -/
def q_swap_s6 (h : Heap) (ptr : Option Ptr) : Option Heap := do
  setPrev h (← getNext h ptr) ptr

/-- The body of the loop of `q_swap`: `tmp = ptr->next->next->next`, the six assignments, and
`ptr = ptr->next->next`; returns the heap and the new `ptr`. -/
def q_swap_body (h : Heap) (ptr : Option Ptr) : Option (Heap × Option Ptr) := do
  let tmp ← getNext3 h ptr
  let h ← q_swap_s1 h ptr
  let h ← q_swap_s2 h ptr
  let h ← q_swap_s3 h ptr tmp
  let h ← q_swap_s4 h ptr
  let h ← q_swap_s5 h ptr
  let h ← q_swap_s6 h ptr
  let ptr ← getNext2 h ptr
  pure (h, ptr)

/-- The loop of `q_swap`. -/
def q_swap_loop : Nat → Heap → Option Ptr → Option Ptr → Option Heap
  | 0, _, _, _ => none
  | fuel + 1, h, head, ptr => do
    let n ← getNext h ptr
    if n = head then pure h
    else
      let nn ← getNext h n
      if nn = head then pure h
      else
        let (h, ptr) ← q_swap_body h ptr
        q_swap_loop fuel h head ptr

/-- The function `q_swap`. -/
def q_swap (fuel : Nat) (h : Heap) (head : Option Ptr) : Option Heap :=
  match head with
  | none => some h
  | some _ => do
    if (← list_empty h head) then pure h
    else q_swap_loop fuel h head head

/-- The exchange `tmp = ptr->next; ptr->next = ptr->prev; ptr->prev = tmp` of `q_reverse`. -/
def q_reverse_flip (h : Heap) (ptr : Option Ptr) : Option Heap := do
  let tmp ← getNext h ptr
  let h ← setNext h ptr (← getPrev h ptr)
  setPrev h ptr tmp

/-- The loop of `q_reverse`: returns the heap and `ptr` at loop exit. -/
def q_reverse_loop : Nat → Heap → Option Ptr → Option Ptr → Option (Heap × Option Ptr)
  | 0, _, _, _ => none
  | fuel + 1, h, head, ptr =>
    if ptr = head then some (h, ptr)
    else do
      let h ← q_reverse_flip h ptr
      let ptr ← getPrev h ptr
      q_reverse_loop fuel h head ptr

/-- The function `q_reverse`. -/
def q_reverse (fuel : Nat) (h : Heap) (head : Option Ptr) : Option Heap :=
  match head with
  | none => some h
  | some _ => do
    if (← list_empty h head) then pure h
    else
      let ptr ← getNext h head
      let (h, ptr) ← q_reverse_loop fuel h head ptr
      q_reverse_flip h ptr

/-- The expression `(uintptr_t) L1 | (uintptr_t) L2` cast back to a pointer; `NULL` is the
all-zero word. -/
def ptrOr : Option Ptr → Option Ptr → Option Ptr
  | none, b => b
  | a, none => a
  | some a, some b => some (a ||| b)

/-- The loop of `mergeTwoLists`: returns the heap, the local `head` and `ptr`, `L1`, `L2` at
loop exit. -/
def mergeTwoLists_loop : Nat → Heap → Option Ptr → Loc → Option Ptr → Option Ptr →
    Option (Heap × Option Ptr × Loc × Option Ptr × Option Ptr)
  | 0, _, _, _, _, _ => none
  | fuel + 1, h, head, ptr, L1, L2 =>
    if L1 = none ∨ L2 = none then some (h, head, ptr, L1, L2)
    else do
      let c ← strcmp (← getValue h L1) (← getValue h L2)
      if c ≤ 0 then
        -- node = &L1
        let (h, head) ← storeLoc h head ptr L1
        let ptr := Loc.nextOf (← loadLoc h head ptr)
        let L1 ← getNext h L1
        mergeTwoLists_loop fuel h head ptr L1 L2
      else
        -- node = &L2
        let (h, head) ← storeLoc h head ptr L2
        let ptr := Loc.nextOf (← loadLoc h head ptr)
        let L2 ← getNext h L2
        mergeTwoLists_loop fuel h head ptr L1 L2

/-- The function `mergeTwoLists`. -/
def mergeTwoLists (fuel : Nat) (h : Heap) (L1 L2 : Option Ptr) : Option (Heap × Option Ptr) := do
  let (h, head, ptr, L1, L2) ← mergeTwoLists_loop fuel h none Loc.headVar L1 L2
  let (h, head) ← storeLoc h head ptr (ptrOr L1 L2)
  pure (h, head)

/-- The fast/slow loop of `mergesort_list`: returns `slow`. -/
def mergesort_split : Nat → Heap → Option Ptr → Option Ptr → Option (Option Ptr)
  | 0, _, _, _ => none
  | fuel + 1, h, slow, fast =>
    match fast with
    | none => some slow
    | some _ => do
      let fn ← getNext h fast
      match fn with
      | none => pure slow
      | some _ =>
        let slow ← getNext h slow
        let fast ← getNext h fn
        mergesort_split fuel h slow fast

/-- The function `mergesort_list`; the fuel bounds the recursion depth and every loop. -/
def mergesort_list : Nat → Heap → Option Ptr → Option (Heap × Option Ptr)
  | 0, _, _ => none
  | fuel + 1, h, head => do
    let n ← getNext h head
    match n with
    | none => pure (h, head)
    | some _ =>
      let slow ← mergesort_split (fuel + 1) h head n
      let mid ← getNext h slow
      let h ← setNext h slow none
      let (h, left) ← mergesort_list fuel h head
      let (h, right) ← mergesort_list fuel h mid
      mergeTwoLists (fuel + 1) h left right

/-- The loop of `q_sort` that rebuilds the `prev` fields: returns the heap and `ptr`. -/
def q_sort_relink : Nat → Heap → Option Ptr → Option (Heap × Option Ptr)
  | 0, _, _ => none
  | fuel + 1, h, ptr => do
    let n ← getNext h ptr
    match n with
    | none => pure (h, ptr)
    | some _ =>
      let h ← setPrev h n ptr
      q_sort_relink fuel h n

/-- The function `q_sort`. -/
def q_sort (fuel : Nat) (h : Heap) (head : Option Ptr) : Option Heap :=
  match head with
  | none => some h
  | some _ => do
    if (← list_empty h head) then pure h
    else
      let h ← setNext h (← getPrev h head) none
      let (h, sorted) ← mergesort_list fuel h (← getNext h head)
      let h ← setNext h head sorted
      let (h, ptr) ← q_sort_relink fuel h head
      let h ← setNext h ptr head
      setPrev h head ptr

/-! ## Traversals, well-formedness and the order on strings -/

/-- The walk of a traversal: follow `step` from `li` until `head` is met again, collecting the
nodes met. -/
def walk (step : Option Ptr → Option (Option Ptr)) :
    Nat → Option Ptr → Option Ptr → Option (List Ptr)
  | 0, _, _ => none
  | fuel + 1, head, li =>
    if li = head then some []
    else
      match li with
      | none => none
      | some p => do
        let n ← step li
        let rest ← walk step fuel head n
        pure (p :: rest)

/-- The forward traversal of a queue: the elements met from `head->next` along `next`. -/
def forward (fuel : Nat) (h : Heap) (head : Ptr) : Option (List Ptr) := do
  let li ← getNext h (some head)
  walk (getNext h) fuel (some head) li

/-- The backward traversal of a queue: the elements met from `head->prev` along `prev`. -/
def backward (fuel : Nat) (h : Heap) (head : Ptr) : Option (List Ptr) := do
  let li ← getPrev h (some head)
  walk (getPrev h) fuel (some head) li

/-- A chain through the field `nx`: from the pointer `p` exactly the nodes `l` are met, in
order, and the pointer after the last of them is `q`. -/
def Chain (nx : Ptr → Option Ptr) : Option Ptr → List Ptr → Option Ptr → Prop
  | p, [], q => p = q
  | p, x :: xs, q => p = some x ∧ Chain nx (nx x) xs q

/-- A doubly-linked segment: in the sequence `a, l, b` every node has its successor as `next`
and every successor has that node as `prev` (`n.next.prev == n` and `n.prev.next == n`). -/
def DSeg (nx pv : Ptr → Option Ptr) : Ptr → List Ptr → Ptr → Prop
  | a, [], b => nx a = some b ∧ pv b = some a
  | a, x :: xs, b => nx a = some x ∧ pv x = some a ∧ DSeg nx pv x xs b

/-- A well-formed queue with sentinel `head` and elements `ps` (in forward order): the sentinel
and the elements are distinct live blocks, circular through the sentinel and consistently
doubly linked. -/
structure WF (h : Heap) (head : Ptr) (ps : List Ptr) : Prop where
  nodup : (head :: ps).Nodup
  alive : ∀ p ∈ head :: ps, h.alive p = true
  links : DSeg h.next h.prev head ps head

/-- Every node of `ps` owns a NUL-terminated string. -/
def Strs (h : Heap) (ps : List Ptr) : Prop :=
  ∀ p ∈ ps, (strlen (h.value p)).isSome = true

/-- The strings held by the nodes `ps`, in order. -/
def values (h : Heap) (ps : List Ptr) : List (List Nat) :=
  ps.map (fun p => cstr (h.value p))

/-- The test `strcmp(a, b) <= 0`, false when `strcmp` fails. -/
def strcmpLe (a b : List Nat) : Bool :=
  match strcmp a b with
  | some c => decide (c ≤ 0)
  | none => false

/-- The test `strcmp(a, b) == 0`, false when `strcmp` fails. -/
def strcmpEq (a b : List Nat) : Bool :=
  match strcmp a b with
  | some c => decide (c = 0)
  | none => false

/-- Byte-wise lexicographic order on strings, a proper prefix coming first. -/
def lexLe : List Nat → List Nat → Bool
  | [], _ => true
  | _ :: _, [] => false
  | a :: as, b :: bs => decide (a < b) || (decide (a = b) && lexLe as bs)

/-- The order the sort compares nodes by: the lexicographic order of their strings. -/
def nodeLe (val : Ptr → List Nat) (p q : Ptr) : Bool :=
  lexLe (cstr (val p)) (cstr (val q))

/-- The address held by `ptr` in `mergeTwoLists`: the local `head` before the first node is
placed, the `next` field of the last node placed afterwards. -/
def slot : Option Ptr → Loc
  | none => Loc.headVar
  | some t => Loc.nextOf (some t)

/-- The loop of `mergeTwoLists` followed by the final store `*ptr = L1 | L2`. -/
def mergeRun (fuel : Nat) (h : Heap) (head : Option Ptr) (ptr : Loc) (L1 L2 : Option Ptr) :
    Option (Heap × Option Ptr) :=
  (mergeTwoLists_loop fuel h head ptr L1 L2).bind
    (fun r => storeLoc r.1 r.2.1 r.2.2.1 (ptrOr r.2.2.2.1 r.2.2.2.2))

/-- A doubly-linked segment left open at its end: in the sequence `a, l` every node has its
successor as `next` and every successor has that node as `prev`. -/
def DOpen (nx pv : Ptr → Option Ptr) : Ptr → List Ptr → Prop
  | _, [] => True
  | a, x :: xs => nx a = some x ∧ pv x = some a ∧ DOpen nx pv x xs

instance DSeg.instDecidable (nx pv : Ptr → Option Ptr) :
    ∀ (l : List Ptr) (a b : Ptr), Decidable (DSeg nx pv a l b)
  | [], a, b => inferInstanceAs (Decidable (nx a = some b ∧ pv b = some a))
  | x :: xs, a, b =>
    have := DSeg.instDecidable nx pv xs x b
    inferInstanceAs (Decidable (nx a = some x ∧ pv x = some a ∧ DSeg nx pv x xs b))

instance WF.instDecidable (h : Heap) (head : Ptr) (ps : List Ptr) : Decidable (WF h head ps) :=
  decidable_of_iff ((head :: ps).Nodup ∧ (∀ p ∈ head :: ps, h.alive p = true) ∧
      DSeg h.next h.prev head ps head)
    ⟨fun c => ⟨c.1, c.2.1, c.2.2⟩, fun w => ⟨w.nodup, w.alive, w.links⟩⟩

instance Strs.instDecidable (h : Heap) (ps : List Ptr) : Decidable (Strs h ps) :=
  inferInstanceAs (Decidable (∀ p ∈ ps, (strlen (h.value p)).isSome = true))

/-- The heap reached from `h` by inserting the strings of `ss` at the tail of the queue `0`, in
order, the allocator answering `k`, `k + 1`, ... -/
def build : Heap → Nat → List (List Nat) → Option Heap
  | h, _, [] => some h
  | h, k, s :: ss => do
    let (h, _) ← q_insert_tail h (some 0) (s ++ [0]) (some k) true
    build h (k + 1) ss

/-- The heap that holds the queue of the strings `ss`: sentinel `0`, elements `1`, `2`, ... -/
def queueOf (ss : List (List Nat)) : Heap :=
  ((q_new Heap.empty (some 0)).bind (fun r => build r.1 1 ss)).getD Heap.empty

/-- The pass of `q_delete_dup` on the list of elements: `c` is the candidate (`ptr1`), `dup`
the flag, the list what is ahead of `ptr2`; `key` gives the string of a node. -/
def dedupGo (key : Ptr → List Nat) : Ptr → Bool → List Ptr → List Ptr
  | c, dup, [] => if dup then [] else [c]
  | c, dup, x :: r =>
    if key c = key x then dedupGo key c true r
    else (if dup then [] else [c]) ++ dedupGo key x false r

/-- The elements `q_delete_dup` keeps. -/
def dedup (key : Ptr → List Nat) : List Ptr → List Ptr
  | [] => []
  | c :: r => dedupGo key c false r

/-- The loop of `q_delete_dup` followed by the flush `if (dup_flag) ...` and `return true`. -/
def dupRun (fuel : Nat) (h : Heap) (head ptr1 ptr2 : Option Ptr) (dup_flag : Bool) :
    Option (Heap × Bool) :=
  (q_delete_dup_loop fuel h head ptr1 ptr2 dup_flag).bind (fun r =>
    if r.2.2 then (list_del r.1 r.2.1).bind (fun h1 =>
      (q_release_element h1 r.2.1).bind (fun h2 => some (h2, true)))
    else some (r.1, true))

/-- The exchange of adjacent pairs on a list: `a0 a1 a2 a3 ...` becomes `a1 a0 a3 a2 ...`, an
unpaired last element staying in place. -/
def swapPairs : List Ptr → List Ptr
  | a :: b :: rest => b :: a :: swapPairs rest
  | l => l

/-- The heap after the store `p->next = v`. -/
def Heap.setN (h : Heap) (p : Ptr) (v : Option Ptr) : Heap :=
  { h with next := Function.update h.next p v }

/-- The heap after the store `p->prev = v`. -/
def Heap.setP (h : Heap) (p : Ptr) (v : Option Ptr) : Heap :=
  { h with prev := Function.update h.prev p v }

/-- The heap after the exchange of the `next` and `prev` fields of the node `p`. -/
def Heap.flip (h : Heap) (p : Ptr) : Heap :=
  (h.setN p (h.prev p)).setP p (h.next p)

/-- The heap after the exchange of the `next` and `prev` fields of the nodes `l`, in order. -/
def flipAll : Heap → List Ptr → Heap
  | h, [] => h
  | h, x :: xs => flipAll (h.flip x) xs

/-- The heap after a successful `malloc` of the block `p` whose `value` is then set to `buf`;
the link fields of the new block are unset. -/
def Heap.alloc (h : Heap) (p : Ptr) (buf : List Nat) : Heap :=
  { alive := Function.update h.alive p true,
    next := Function.update h.next p none,
    prev := Function.update h.prev p none,
    value := Function.update h.value p buf,
    past := h.past }

/-! ## Sequences of calls and the abstract list -/

/-- A call of the insert/remove interface.  An insertion carries the caller's buffer `s` and
the block `r` the allocator answers with (both allocations succeed); a removal carries the
output buffer `sp` (`none` for `NULL`) and `bufsize`. -/
inductive Op where
  | insertHead (s : List Nat) (r : Ptr) : Op
  | insertTail (s : List Nat) (r : Ptr) : Op
  | removeHead (sp : Option (List Nat)) (bufsize : Nat) : Op
  | removeTail (sp : Option (List Nat)) (bufsize : Nat) : Op

/-- What a call returns: the boolean of an insertion, or, for a removal, the string of the
element it returns (`none` when it returns no element) and what the output buffer reads as
afterwards (`none` when there is no buffer). -/
inductive Out where
  | inserted (ok : Bool) : Out
  | removed (s : Option (List Nat)) (buf : Option (List Nat)) : Out
  deriving DecidableEq

/-- The blocks the allocator answers with along a sequence of calls. -/
def allocs : List Op → List Ptr
  | [] => []
  | Op.insertHead _ r :: ops => r :: allocs ops
  | Op.insertTail _ r :: ops => r :: allocs ops
  | _ :: ops => allocs ops

/-- The buffers passed to the insertions of a sequence of calls. -/
def args : List Op → List (List Nat)
  | [] => []
  | Op.insertHead s _ :: ops => s :: args ops
  | Op.insertTail s _ :: ops => s :: args ops
  | _ :: ops => args ops

/-- The number of insertions in a sequence of calls. -/
def insertions : List Op → Nat
  | [] => 0
  | Op.insertHead _ _ :: ops => insertions ops + 1
  | Op.insertTail _ _ :: ops => insertions ops + 1
  | _ :: ops => insertions ops

/-- The number of removals that returned an element. -/
def removals : List Out → Nat
  | [] => 0
  | Out.removed (some _) _ :: outs => removals outs + 1
  | _ :: outs => removals outs

/-- What a removal reports: the string of the returned element, read from the element (an
error if the element has been freed), and the reading of the output buffer. -/
def removedOut (r : Removed) : Option Out :=
  match r.node with
  | none => some (Out.removed none (r.sp.map cstr))
  | some _ => do
    let v ← getValue r.heap r.node
    pure (Out.removed (some (cstr v)) (r.sp.map cstr))

/-- One call on the queue with sentinel `head`. -/
def stepOp (h : Heap) (head : Ptr) : Op → Option (Heap × Out)
  | Op.insertHead s r => do
    let (h, ok) ← q_insert_head h (some head) s (some r) true
    pure (h, Out.inserted ok)
  | Op.insertTail s r => do
    let (h, ok) ← q_insert_tail h (some head) s (some r) true
    pure (h, Out.inserted ok)
  | Op.removeHead sp bufsize => do
    let r ← q_remove_head h (some head) sp bufsize
    let out ← removedOut r
    pure (r.heap, out)
  | Op.removeTail sp bufsize => do
    let r ← q_remove_tail h (some head) sp bufsize
    let out ← removedOut r
    pure (r.heap, out)

/-- A sequence of calls on the queue with sentinel `head`: the final heap and what the calls
returned. -/
def runOps (h : Heap) (head : Ptr) : List Op → Option (Heap × List Out)
  | [] => some (h, [])
  | op :: ops => do
    let (h, out) ← stepOp h head op
    let (h, outs) ← runOps h head ops
    pure (h, out :: outs)

/-- The reading of the output buffer after a removal on the abstract list: at most
`bufsize - 1` bytes of the removed string `v`; the buffer as it was when nothing is removed. -/
def absCopy (sp : Option (List Nat)) (bufsize : Nat) (v : Option (List Nat)) :
    Option (List Nat) :=
  match sp, v with
  | none, _ => none
  | some buf, none => some (cstr buf)
  | some _, some v => some (v.take (bufsize - 1))

/-- One call on the abstract list: `insertHead` prepends, `insertTail` appends, `removeHead`
drops and returns the first element, `removeTail` drops and returns the last element, and a
remove on the empty list fails and changes nothing. -/
def absStep (l : List (List Nat)) : Op → List (List Nat) × Out
  | Op.insertHead s _ => (cstr s :: l, Out.inserted true)
  | Op.insertTail s _ => (l ++ [cstr s], Out.inserted true)
  | Op.removeHead sp bufsize => (l.tail, Out.removed l.head? (absCopy sp bufsize l.head?))
  | Op.removeTail sp bufsize =>
    (l.dropLast, Out.removed l.getLast? (absCopy sp bufsize l.getLast?))

/-- A sequence of calls on the abstract list. -/
def absRun (l : List (List Nat)) : List Op → List (List Nat) × List Out
  | [] => (l, [])
  | op :: ops =>
    ((absRun (absStep l op).1 ops).1, (absStep l op).2 :: (absRun (absStep l op).1 ops).2)

/-- An argument the insertions handle: a NUL-terminated string such that its length plus one
fits `int` (`int s_size = strlen(s)`, `malloc(s_size + 1)`). -/
def strOk (s : List Nat) : Bool :=
  match strlen s with
  | some n => decide (n + 1 < 2 ^ 31)
  | none => false

/-- An output buffer the removals may be given: `NULL`, or a buffer of at least `bufsize` bytes
with `bufsize >= 1` (a `size_t`); the removal writes `sp[0 .. bufsize - 1]`. -/
def spOk (sp : Option (List Nat)) (bufsize : Nat) : Bool :=
  match sp with
  | none => true
  | some buf => decide (1 ≤ bufsize ∧ bufsize ≤ buf.length ∧ bufsize < 2 ^ 64)

/-- The arguments of a call are as the interface asks. -/
def opOk : Op → Bool
  | Op.insertHead s _ => strOk s
  | Op.insertTail s _ => strOk s
  | Op.removeHead sp bufsize => spOk sp bufsize
  | Op.removeTail sp bufsize => spOk sp bufsize

/-- The call is a removal with an output buffer: it copies from the string of the element it
removes. -/
def withBuf : Op → Bool
  | Op.removeHead (some _) _ => true
  | Op.removeTail (some _) _ => true
  | _ => false

/-- Every node of `ps` holds its string in a buffer of exactly its length plus one. -/
def Shape (h : Heap) (ps : List Ptr) : Prop :=
  ∀ p ∈ ps, h.value p = cstr (h.value p) ++ [0]

/-- A sequence of calls used as an example: three insertions giving `a b cde`, then removals
from both ends: into a buffer too short for the string, without a buffer, into a buffer of ten
bytes passed with `bufsize = 7` (more than the two bytes of `b`), and on the empty queue. -/
def demoOps : List Op :=
  [Op.insertTail [98, 0] 1, Op.insertHead [97, 0, 7] 2, Op.insertTail [99, 100, 101, 0] 3,
    Op.removeTail (some [9, 9]) 2, Op.removeHead none 0,
    Op.removeHead (some [9, 9, 9, 9, 9, 9, 9, 9, 9, 9]) 7, Op.removeHead (some [9, 9]) 2]

/-- The heap `h` with the bytes `j` in the memory after the string buffers. -/
def Heap.setPast (h : Heap) (j : Ptr → Nat → Nat) : Heap :=
  { h with past := fun p => some (j p) }

/-- The heap `h` when no memory after the string buffers can be read: every read past a buffer
faults (as under a memory checker). -/
def Heap.strict (h : Heap) : Heap :=
  { h with past := fun _ => none }

/-- The copy of the removal of the element `x` (`none` on an empty queue) can be made: the
output buffer is as the interface asks, and the read past the string buffer of `x`, if the copy
of `bufsize - 1` bytes makes one, does not fault. -/
def copyOk (h : Heap) (x : Option Ptr) (sp : Option (List Nat)) (bufsize : Nat) : Bool :=
  match sp, x with
  | some buf, some p =>
    spOk (some buf) bufsize && (decide (bufsize - 1 ≤ (h.value p).length) || (h.past p).isSome)
  | _, _ => true

/-- The doubly-linked consistency of the specification at the node `n`:
`n.next.prev == n` and `n.prev.next == n`. -/
def Linked (h : Heap) (n : Ptr) : Prop :=
  (h.next n).bind h.prev = some n ∧ (h.prev n).bind h.next = some n

/-- The queue with sentinel `head` is valid: for some list `ps` of elements it is well formed,
every node (the sentinel included) is consistently linked, and the backward traversal from the
sentinel is the mirror image of the forward traversal. -/
def Valid (h : Heap) (head : Ptr) : Prop :=
  ∃ ps, WF h head ps ∧ (∀ n ∈ head :: ps, Linked h n) ∧
    forward (ps.length + 1) h head = some ps ∧
    backward (ps.length + 1) h head = some ps.reverse

/-- The insertions of the round trip: `q_insert_tail` of each string of `xs` (passed as its
bytes followed by NUL), the allocator answering with the blocks `rs` in turn. -/
def fifoInserts : List (List Nat) → List Ptr → List Op
  | x :: xs, r :: rs => Op.insertTail (x ++ [0]) r :: fifoInserts xs rs
  | _, _ => []

/-- The removals of the round trip: `n` calls of `q_remove_head` without an output buffer. -/
def fifoRemoves (n : Nat) : List Op :=
  List.replicate n (Op.removeHead none 0)

/-- The split of `mergesort_list`: the fast/slow loop from `head`, then `mid = slow->next` and
`slow->next = NULL`.  Returns the heap and `mid`. -/
def mergesort_cut (fuel : Nat) (h : Heap) (head : Option Ptr) : Option (Heap × Option Ptr) := do
  let slow ← mergesort_split fuel h head (← getNext h head)
  let mid ← getNext h slow
  let h ← setNext h slow none
  pure (h, mid)

/-- The maximal runs of adjacent nodes with equal key, in order: a node joins the run that
follows it when that run starts with its key, and starts a run of its own otherwise. -/
def runs (key : Ptr → List Nat) : List Ptr → List (List Ptr)
  | [] => []
  | x :: xs =>
    match runs key xs with
    | [] => [[x]]
    | r :: rs => if r.head?.map key = some (key x) then (x :: r) :: rs else [x] :: r :: rs

/-! # Lemmas and theorems -/

/-! ## Reading and writing live blocks -/

theorem getNext_alive {h : Heap} {p : Ptr} (ha : h.alive p = true) :
    getNext h (some p) = some (h.next p) := by simp [getNext, ha]

theorem getPrev_alive {h : Heap} {p : Ptr} (ha : h.alive p = true) :
    getPrev h (some p) = some (h.prev p) := by simp [getPrev, ha]

theorem getValue_alive {h : Heap} {p : Ptr} (ha : h.alive p = true) :
    getValue h (some p) = some (h.value p) := by simp [getValue, ha]

/-- A read of `n` bytes at the buffer of a live block whose memory after the buffer is `j`. -/
theorem getMemory_past {h : Heap} {p : Ptr} (n : Nat) (j : Nat → Nat) (ha : h.alive p = true)
    (hj : h.past p = some j) :
    getMemory h (some p) n =
      some (h.value p ++ (List.range (n - (h.value p).length)).map j) := by
  by_cases hn : n ≤ (h.value p).length
  · simp [getMemory, ha, hn, Nat.sub_eq_zero_of_le hn]
  · simp [getMemory, ha, hn, hj]

/-- A read of `n` bytes at the buffer of a live block that does not fault finds the buffer
followed by some bytes. -/
theorem getMemory_served {h : Heap} {p : Ptr} (n : Nat) (ha : h.alive p = true)
    (hr : (h.value p).length < n → (h.past p).isSome = true) :
    ∃ j, getMemory h (some p) n =
      some (h.value p ++ (List.range (n - (h.value p).length)).map j) := by
  by_cases hn : n ≤ (h.value p).length
  · exact ⟨fun _ => 0, by simp [getMemory, ha, hn, Nat.sub_eq_zero_of_le hn]⟩
  · obtain ⟨j, hj⟩ := Option.isSome_iff_exists.1 (hr (by omega))
    exact ⟨j, getMemory_past n j ha hj⟩

/-- A read past the buffer of a live block faults when the memory after it cannot be read. -/
theorem getMemory_fault {h : Heap} {p : Ptr} (n : Nat) (ha : h.alive p = true)
    (hn : (h.value p).length < n) (hj : h.past p = none) : getMemory h (some p) n = none := by
  have : ¬ n ≤ (h.value p).length := by omega
  simp [getMemory, ha, this, hj]

theorem setNext_past {h h2 : Heap} {p v : Option Ptr} (e : setNext h p v = some h2) :
    h2.past = h.past := by
  cases p with
  | none => simp [setNext] at e
  | some a =>
    simp only [setNext] at e
    split at e
    · rw [← Option.some.inj e]
    · exact absurd e (by simp)

theorem setPrev_past {h h2 : Heap} {p v : Option Ptr} (e : setPrev h p v = some h2) :
    h2.past = h.past := by
  cases p with
  | none => simp [setPrev] at e
  | some a =>
    simp only [setPrev] at e
    split at e
    · rw [← Option.some.inj e]
    · exact absurd e (by simp)

theorem list_del_past {h h2 : Heap} {node : Option Ptr} (e : list_del h node = some h2) :
    h2.past = h.past := by
  simp only [list_del, Option.bind_eq_bind, Option.bind_eq_some] at e
  obtain ⟨n, -, p, -, h1, e1, e2⟩ := e
  rw [setNext_past e2, setPrev_past e1]

theorem list_add_past {h h2 : Heap} {node head : Option Ptr}
    (e : list_add h node head = some h2) : h2.past = h.past := by
  simp only [list_add, Option.bind_eq_bind, Option.bind_eq_some] at e
  obtain ⟨n, -, h1, e1, h3, e2, h4, e3, e4⟩ := e
  rw [setNext_past e4, setPrev_past e3, setNext_past e2, setPrev_past e1]

theorem list_add_tail_past {h h2 : Heap} {node head : Option Ptr}
    (e : list_add_tail h node head = some h2) : h2.past = h.past := by
  simp only [list_add_tail, Option.bind_eq_bind, Option.bind_eq_some] at e
  obtain ⟨n, -, h1, e1, h3, e2, h4, e3, e4⟩ := e
  rw [setPrev_past e4, setNext_past e3, setPrev_past e2, setNext_past e1]

theorem setNext_alive {h : Heap} {p : Ptr} (v : Option Ptr) (ha : h.alive p = true) :
    setNext h (some p) v = some { h with next := Function.update h.next p v } := by
  simp [setNext, ha]

theorem setPrev_alive {h : Heap} {p : Ptr} (v : Option Ptr) (ha : h.alive p = true) :
    setPrev h (some p) v = some { h with prev := Function.update h.prev p v } := by
  simp [setPrev, ha]

/-! ## Chains and segments -/

theorem Chain.congr_chain {nx nx2 : Ptr → Option Ptr} :
    ∀ {l : List Ptr} {p q : Option Ptr}, (∀ x ∈ l, nx x = nx2 x) →
      Chain nx p l q → Chain nx2 p l q
  | [], _, _, _, hc => hc
  | x :: xs, _, _, hx, hc => by
    refine ⟨hc.1, ?_⟩
    rw [← hx x (List.mem_cons_self _ _)]
    exact Chain.congr_chain (fun y hy => hx y (List.mem_cons_of_mem _ hy)) hc.2

theorem Chain.append_chain {nx : Ptr → Option Ptr} :
    ∀ {l1 l2 : List Ptr} {p m q : Option Ptr},
      Chain nx p l1 m → Chain nx m l2 q → Chain nx p (l1 ++ l2) q
  | [], _, _, _, _, h1, h2 => by
    have : _ = _ := h1
    subst this; exact h2
  | x :: xs, _, _, _, _, h1, h2 => ⟨h1.1, Chain.append_chain h1.2 h2⟩

theorem Chain.split_chain {nx : Ptr → Option Ptr} :
    ∀ {l1 l2 : List Ptr} {p q : Option Ptr},
      Chain nx p (l1 ++ l2) q → ∃ m, Chain nx p l1 m ∧ Chain nx m l2 q
  | [], _, p, _, hc => ⟨p, rfl, hc⟩
  | x :: xs, _, _, _, hc => by
    obtain ⟨m, h1, h2⟩ := @Chain.split_chain _ xs _ _ _ hc.2
    exact ⟨m, ⟨hc.1, h1⟩, h2⟩

theorem DSeg.congr_seg {nx pv nx2 pv2 : Ptr → Option Ptr} :
    ∀ {l : List Ptr} {a b : Ptr}, (∀ x ∈ a :: l, nx x = nx2 x) →
      (∀ x ∈ l ++ [b], pv x = pv2 x) → DSeg nx pv a l b → DSeg nx2 pv2 a l b
  | [], a, b, hn, hp, hd => by
    refine ⟨?_, ?_⟩
    · rw [← hn a (by simp)]; exact hd.1
    · rw [← hp b (by simp)]; exact hd.2
  | x :: xs, a, b, hn, hp, hd => by
    refine ⟨?_, ?_, ?_⟩
    · rw [← hn a (by simp)]; exact hd.1
    · rw [← hp x (by simp)]; exact hd.2.1
    · exact DSeg.congr_seg (fun y hy => hn y (List.mem_cons_of_mem _ hy))
        (fun y hy => hp y (by simp at hy ⊢; tauto)) hd.2.2

theorem DSeg.append_seg {nx pv : Ptr → Option Ptr} :
    ∀ {l1 l2 : List Ptr} {a x b : Ptr},
      DSeg nx pv a l1 x → DSeg nx pv x l2 b → DSeg nx pv a (l1 ++ x :: l2) b
  | [], _, _, _, _, h1, h2 => ⟨h1.1, h1.2, h2⟩
  | y :: ys, _, _, _, _, h1, h2 => ⟨h1.1, h1.2.1, DSeg.append_seg h1.2.2 h2⟩

theorem DSeg.split_seg {nx pv : Ptr → Option Ptr} :
    ∀ {l1 l2 : List Ptr} {a x b : Ptr},
      DSeg nx pv a (l1 ++ x :: l2) b → DSeg nx pv a l1 x ∧ DSeg nx pv x l2 b
  | [], _, _, _, _, hd => ⟨⟨hd.1, hd.2.1⟩, hd.2.2⟩
  | y :: ys, _, _, _, _, hd =>
    ⟨⟨hd.1, hd.2.1, (DSeg.split_seg hd.2.2).1⟩, (DSeg.split_seg hd.2.2).2⟩

theorem DSeg.chain {nx pv : Ptr → Option Ptr} :
    ∀ {l : List Ptr} {a b : Ptr}, DSeg nx pv a l b → Chain nx (nx a) l (some b)
  | [], _, _, hd => hd.1
  | x :: xs, _, _, hd => ⟨hd.1, DSeg.chain hd.2.2⟩

theorem DSeg.snoc {nx pv : Ptr → Option Ptr} {l : List Ptr} {a x b : Ptr}
    (h1 : DSeg nx pv a l x) (h2 : nx x = some b) (h3 : pv b = some x) :
    DSeg nx pv a (l ++ [x]) b :=
  DSeg.append_seg h1 ⟨h2, h3⟩

theorem DSeg.reverse {nx pv : Ptr → Option Ptr} :
    ∀ {l : List Ptr} {a b : Ptr}, DSeg nx pv a l b → DSeg pv nx b l.reverse a
  | [], _, _, hd => ⟨hd.2, hd.1⟩
  | x :: xs, a, b, hd => by
    have ih := DSeg.reverse hd.2.2
    rw [List.reverse_cons]
    exact DSeg.snoc ih hd.2.1 hd.1

/-! ## Traversals of a well-formed queue -/

theorem walk_chain {h : Heap} {head : Ptr} :
    ∀ (l : List Ptr) (fuel : Nat) (p : Option Ptr), Chain h.next p l (some head) →
      head ∉ l → (∀ x ∈ l, h.alive x = true) → l.length < fuel →
      walk (getNext h) fuel (some head) p = some l
  | [], fuel + 1, p, hc, _, _, _ => by
    have : p = some head := hc
    simp [walk, this]
  | x :: xs, fuel + 1, p, hc, hh, ha, hf => by
    have hp : p = some x := hc.1
    have hne : x ≠ head := fun e => hh (by simp [e])
    have ih := walk_chain xs fuel (h.next x) hc.2 (fun m => hh (List.mem_cons_of_mem _ m))
      (fun y hy => ha y (List.mem_cons_of_mem _ hy)) (by simpa using hf)
    simp [walk, hp, hne, getNext_alive (ha x (by simp)), ih]

theorem walk_chain_prev {h : Heap} {head : Ptr} :
    ∀ (l : List Ptr) (fuel : Nat) (p : Option Ptr), Chain h.prev p l (some head) →
      head ∉ l → (∀ x ∈ l, h.alive x = true) → l.length < fuel →
      walk (getPrev h) fuel (some head) p = some l
  | [], fuel + 1, p, hc, _, _, _ => by
    have : p = some head := hc
    simp [walk, this]
  | x :: xs, fuel + 1, p, hc, hh, ha, hf => by
    have hp : p = some x := hc.1
    have hne : x ≠ head := fun e => hh (by simp [e])
    have ih := walk_chain_prev xs fuel (h.prev x) hc.2
      (fun m => hh (List.mem_cons_of_mem _ m))
      (fun y hy => ha y (List.mem_cons_of_mem _ hy)) (by simpa using hf)
    simp [walk, hp, hne, getPrev_alive (ha x (by simp)), ih]

theorem WF.forward {h : Heap} {head : Ptr} {ps : List Ptr} (hw : WF h head ps)
    {fuel : Nat} (hf : ps.length < fuel) : forward fuel h head = some ps := by
  have hh : head ∉ ps := (List.nodup_cons.1 hw.nodup).1
  simp [LabQueue.forward, getNext_alive (hw.alive head (by simp)),
    walk_chain ps fuel _ hw.links.chain hh
      (fun x hx => hw.alive x (List.mem_cons_of_mem _ hx)) hf]

theorem WF.backward {h : Heap} {head : Ptr} {ps : List Ptr} (hw : WF h head ps)
    {fuel : Nat} (hf : ps.length < fuel) : backward fuel h head = some ps.reverse := by
  have hh : head ∉ ps.reverse := by simpa using (List.nodup_cons.1 hw.nodup).1
  simp [LabQueue.backward, getPrev_alive (hw.alive head (by simp)),
    walk_chain_prev ps.reverse fuel _ hw.links.reverse.chain hh
      (fun x hx => hw.alive x (List.mem_cons_of_mem _ (by simpa using hx))) (by simpa using hf)]

/-! ## The order on strings -/

theorem lexLe_refl : ∀ a : List Nat, lexLe a a = true
  | [] => rfl
  | x :: xs => by simp [lexLe, lexLe_refl xs]

theorem lexLe_total : ∀ a b : List Nat, (lexLe a b || lexLe b a) = true
  | [], _ => by simp [lexLe]
  | _ :: _, [] => by simp [lexLe]
  | x :: xs, y :: ys => by
    have ih := lexLe_total xs ys
    simp only [lexLe, Bool.or_eq_true, Bool.and_eq_true, decide_eq_true_eq] at ih ⊢
    rcases Nat.lt_trichotomy x y with hlt | heq | hgt
    · exact Or.inl (Or.inl hlt)
    · subst heq
      rcases ih with ih | ih
      · exact Or.inl (Or.inr ⟨rfl, ih⟩)
      · exact Or.inr (Or.inr ⟨rfl, ih⟩)
    · exact Or.inr (Or.inl hgt)

theorem lexLe_trans : ∀ a b c : List Nat, lexLe a b = true → lexLe b c = true →
    lexLe a c = true
  | [], _, _, _, _ => by simp [lexLe]
  | _ :: _, [], _, h1, _ => by simp [lexLe] at h1
  | _ :: _, _ :: _, [], _, h2 => by simp [lexLe] at h2
  | x :: xs, y :: ys, z :: zs, h1, h2 => by
    simp only [lexLe, Bool.or_eq_true, Bool.and_eq_true, decide_eq_true_eq] at h1 h2 ⊢
    rcases h1 with h1 | ⟨h1, h1r⟩ <;> rcases h2 with h2 | ⟨h2, h2r⟩
    · exact Or.inl (by omega)
    · exact Or.inl (by omega)
    · exact Or.inl (by omega)
    · exact Or.inr ⟨by omega, lexLe_trans xs ys zs h1r h2r⟩

theorem lexLe_antisymm : ∀ a b : List Nat, lexLe a b = true → lexLe b a = true → a = b
  | [], [], _, _ => rfl
  | [], _ :: _, _, h2 => by simp [lexLe] at h2
  | _ :: _, [], h1, _ => by simp [lexLe] at h1
  | x :: xs, y :: ys, h1, h2 => by
    simp only [lexLe, Bool.or_eq_true, Bool.and_eq_true, decide_eq_true_eq] at h1 h2
    rcases h1 with h1 | ⟨h1, h1r⟩ <;> rcases h2 with h2 | ⟨h2, h2r⟩
    · omega
    · omega
    · omega
    · rw [h1, lexLe_antisymm xs ys h1r h2r]

/-- On two NUL-terminated buffers `strcmp` succeeds, and its sign is the lexicographic
comparison of the two strings. -/
theorem strcmp_spec : ∀ a b : List Nat, (strlen a).isSome = true → (strlen b).isSome = true →
    ∃ c : Int, strcmp a b = some c ∧ (c ≤ 0 ↔ lexLe (cstr a) (cstr b) = true) ∧
      (c = 0 ↔ cstr a = cstr b)
  | [], _, ha, _ => by simp [strlen] at ha
  | _ :: _, [], _, hb => by simp [strlen] at hb
  | x :: xs, y :: ys, ha, hb => by
    by_cases hxy : x = y
    · subst hxy
      by_cases hx : x = 0
      · subst hx
        exact ⟨0, by simp [strcmp], by simp [cstr, lexLe], by simp [cstr]⟩
      · have ha2 : (strlen xs).isSome = true := by
          simp only [strlen, hx, if_false] at ha
          cases hsx : strlen xs <;> simp [hsx] at ha ⊢
        have hb2 : (strlen ys).isSome = true := by
          simp only [strlen, hx, if_false] at hb
          cases hsy : strlen ys <;> simp [hsy] at hb ⊢
        obtain ⟨c, hc, hle, heq⟩ := strcmp_spec xs ys ha2 hb2
        refine ⟨c, by simp [strcmp, hx, hc], ?_, ?_⟩
        · rw [hle]; simp [cstr, List.takeWhile, hx, lexLe]
        · rw [heq]; simp [cstr, List.takeWhile, hx]
    · refine ⟨(x : Int) - (y : Int), by simp [strcmp, hxy], ?_, ?_⟩
      · by_cases hx : x = 0
        · subst hx
          have hy : y ≠ 0 := fun e => hxy e.symm
          simp [cstr, List.takeWhile, hy, lexLe]
        · by_cases hy : y = 0
          · subst hy
            simp [cstr, List.takeWhile, hx, lexLe]
          · simp [cstr, List.takeWhile, hx, hy, lexLe, hxy]
            omega
      · constructor
        · intro h; omega
        · intro h
          exfalso
          by_cases hx : x = 0
          · subst hx
            have hy : y ≠ 0 := fun e => hxy e.symm
            simp [cstr, List.takeWhile, hy] at h
          · by_cases hy : y = 0
            · subst hy
              simp [cstr, List.takeWhile, hx] at h
            · simp [cstr, List.takeWhile, hx, hy] at h
              exact hxy h.1

theorem nodeLe_trans (val : Ptr → List Nat) (a b c : Ptr) :
    nodeLe val a b = true → nodeLe val b c = true → nodeLe val a c = true :=
  lexLe_trans _ _ _

theorem nodeLe_total (val : Ptr → List Nat) (a b : Ptr) :
    (nodeLe val a b || nodeLe val b a) = true :=
  lexLe_total _ _

theorem mergeTwoLists_eq (fuel : Nat) (h : Heap) (L1 L2 : Option Ptr) :
    mergeTwoLists fuel h L1 L2 = mergeRun fuel h none Loc.headVar L1 L2 := by
  unfold mergeTwoLists mergeRun
  cases hl : mergeTwoLists_loop fuel h none Loc.headVar L1 L2 with
  | none => rfl
  | some r =>
    obtain ⟨h1, hd, p, a, b⟩ := r
    simp only [Option.bind_eq_bind, Option.some_bind, bind_pure]
    cases storeLoc h1 hd p (ptrOr a b) <;> rfl

/-- What a store through `slot t` does. -/
theorem storeLoc_slot (h : Heap) (head : Option Ptr) (t : Option Ptr) (v : Option Ptr)
    (ht : ∀ a, t = some a → h.alive a = true) :
    ∃ h1 head1, storeLoc h head (slot t) v = some (h1, head1) ∧
      loadLoc h1 head1 (slot t) = some v ∧
      h1.alive = h.alive ∧ h1.prev = h.prev ∧ h1.value = h.value ∧
      (∀ q, t ≠ some q → h1.next q = h.next q) ∧ (t ≠ none → head1 = head) := by
  cases t with
  | none => exact ⟨h, v, rfl, rfl, rfl, rfl, rfl, fun _ _ => rfl, fun c => absurd rfl c⟩
  | some a =>
    have ha := ht a rfl
    refine ⟨{ h with next := Function.update h.next a v }, head, ?_, ?_, rfl, rfl, rfl, ?_,
      fun _ => rfl⟩
    · simp [storeLoc, slot, setNext_alive v ha]
    · simp [loadLoc, slot, getNext, ha]
    · intro q hq
      have : q ≠ a := fun e => hq (by rw [e])
      simp [Function.update_noteq this]

theorem ptrOr_none_left (b : Option Ptr) : ptrOr none b = b := by
  cases b <;> rfl

theorem ptrOr_none_right (a : Option Ptr) : ptrOr a none = a := by
  cases a <;> rfl


theorem mergeRun_exit (fuel : Nat) (h : Heap) (head : Option Ptr) (ptr : Loc)
    (L1 L2 : Option Ptr) (hx : L1 = none ∨ L2 = none) :
    mergeRun (fuel + 1) h head ptr L1 L2 = storeLoc h head ptr (ptrOr L1 L2) := by
  simp [mergeRun, mergeTwoLists_loop, hx]

theorem mergeRun_left (fuel : Nat) (h h1 : Heap) (head head1 n : Option Ptr) (ptr : Loc)
    (x y : Ptr) (c : Int) (hax : h.alive x = true) (hay : h.alive y = true)
    (hc : strcmp (h.value x) (h.value y) = some c) (hle : c ≤ 0)
    (hs : storeLoc h head ptr (some x) = some (h1, head1))
    (hl : loadLoc h1 head1 ptr = some (some x)) (hn : getNext h1 (some x) = some n) :
    mergeRun (fuel + 1) h head ptr (some x) (some y) =
      mergeRun fuel h1 head1 (Loc.nextOf (some x)) n (some y) := by
  simp [mergeRun, mergeTwoLists_loop, getValue_alive hax, getValue_alive hay, hc, hle, hs, hl, hn]

theorem mergeRun_right (fuel : Nat) (h h1 : Heap) (head head1 n : Option Ptr) (ptr : Loc)
    (x y : Ptr) (c : Int) (hax : h.alive x = true) (hay : h.alive y = true)
    (hc : strcmp (h.value x) (h.value y) = some c) (hle : ¬ c ≤ 0)
    (hs : storeLoc h head ptr (some y) = some (h1, head1))
    (hl : loadLoc h1 head1 ptr = some (some y)) (hn : getNext h1 (some y) = some n) :
    mergeRun (fuel + 1) h head ptr (some x) (some y) =
      mergeRun fuel h1 head1 (Loc.nextOf (some y)) (some x) n := by
  simp [mergeRun, mergeTwoLists_loop, getValue_alive hax, getValue_alive hay, hc, hle, hs, hl, hn]

/-- The loop of `mergeTwoLists` with its final store writes, at the address `ptr`, a chain that
holds the merge of the two chains it is given. -/
theorem mergeRun_spec : ∀ (fuel : Nat) (xs ys : List Ptr) (h : Heap) (head t L1 L2 : Option Ptr),
    Chain h.next L1 xs none → Chain h.next L2 ys none → (xs ++ ys).Nodup →
    (∀ x ∈ xs ++ ys, h.alive x = true) → Strs h (xs ++ ys) →
    xs.length + ys.length < fuel →
    (∀ a, t = some a → h.alive a = true ∧ a ∉ xs ++ ys) →
    ∃ h2 head2 r, mergeRun fuel h head (slot t) L1 L2 = some (h2, head2) ∧
      loadLoc h2 head2 (slot t) = some r ∧
      Chain h2.next r (List.merge xs ys (nodeLe h.value)) none ∧
      h2.alive = h.alive ∧ h2.prev = h.prev ∧ h2.value = h.value ∧
      (∀ q, t ≠ some q → q ∉ xs ++ ys → h2.next q = h.next q) ∧ (t ≠ none → head2 = head)
  | 0, _, _, _, _, _, _, _, _, _, _, _, _, hf, _ => by omega
  | fuel + 1, [], ys, h, head, t, L1, L2, c1, c2, _, _, _, _, ht => by
    have e1 : L1 = none := c1
    subst e1
    obtain ⟨h1, head1, hs, hl, ha, hp, hv, hfr, hh⟩ :=
      storeLoc_slot h head t L2 (fun a e => (ht a e).1)
    refine ⟨h1, head1, L2, ?_, hl, ?_, ha, hp, hv, fun q hq _ => hfr q hq, hh⟩
    · rw [mergeRun_exit _ _ _ _ _ _ (Or.inl rfl), ptrOr_none_left, hs]
    · rw [List.nil_merge]
      refine Chain.congr_chain (fun x hx => ?_) c2
      exact (hfr x (fun e => (ht x e).2 (by simpa using hx))).symm
  | fuel + 1, x :: xs, [], h, head, t, L1, L2, c1, c2, _, _, _, _, ht => by
    have e2 : L2 = none := c2
    subst e2
    obtain ⟨h1, head1, hs, hl, ha, hp, hv, hfr, hh⟩ :=
      storeLoc_slot h head t L1 (fun a e => (ht a e).1)
    refine ⟨h1, head1, L1, ?_, hl, ?_, ha, hp, hv, fun q hq _ => hfr q hq, hh⟩
    · rw [mergeRun_exit _ _ _ _ _ _ (Or.inr rfl), ptrOr_none_right, hs]
    · rw [List.merge_right]
      refine Chain.congr_chain (fun z hz => ?_) c1
      exact (hfr z (fun e => (ht z e).2 (by simpa using hz))).symm
  | fuel + 1, x :: xs, y :: ys, h, head, t, L1, L2, c1, c2, hnd, hal, hst, hf, ht => by
    have e1 : L1 = some x := c1.1
    have e2 : L2 = some y := c2.1
    subst e1 e2
    have hax : h.alive x = true := hal x (by simp)
    have hay : h.alive y = true := hal y (by simp)
    obtain ⟨c, hc, hcle, -⟩ := strcmp_spec (h.value x) (h.value y) (hst x (by simp))
      (hst y (by simp))
    have htx : t ≠ some x := fun e => (ht x e).2 (by simp)
    have hty : t ≠ some y := fun e => (ht y e).2 (by simp)
    by_cases hle : c ≤ 0
    · -- the node of `L1` is placed
      have hxy : nodeLe h.value x y = true := hcle.1 hle
      obtain ⟨h1, head1, hs, hl, ha, hp, hv, hfr, hh⟩ :=
        storeLoc_slot h head t (some x) (fun a e => (ht a e).1)
      have hn : getNext h1 (some x) = some (h.next x) := by
        rw [getNext_alive (by rw [ha]; exact hax), hfr x htx]
      have hnd2 : (xs ++ y :: ys).Nodup := (List.nodup_cons.1 hnd).2
      have hxn : x ∉ xs ++ y :: ys := (List.nodup_cons.1 hnd).1
      obtain ⟨h2, head2, r, hrun, hl2, hch, ha2, hp2, hv2, hfr2, hh2⟩ :=
        mergeRun_spec fuel xs (y :: ys) h1 head1 (some x) (h.next x) (some y)
          (Chain.congr_chain (fun z hz => (hfr z (fun e => (ht z e).2 (by simp [hz]))).symm) c1.2)
          (Chain.congr_chain (fun z hz => (hfr z (fun e => (ht z e).2 (by
            simp only [List.mem_append, List.mem_cons] at hz ⊢; tauto))).symm) c2)
          hnd2 (fun z hz => by rw [ha]; exact hal z (List.mem_cons_of_mem _ hz))
          (fun z hz => by rw [hv]; exact hst z (List.mem_cons_of_mem _ hz))
          (by simp at hf ⊢; omega)
          (fun a e => by
            cases e
            exact ⟨by rw [ha]; exact hax, hxn⟩)
      have hax2 : h2.alive x = true := by rw [ha2, ha]; exact hax
      have hr : h2.next x = r := by
        simpa [loadLoc, slot, getNext_alive hax2] using hl2
      refine ⟨h2, head2, some x, ?_, ?_, ?_, ha2.trans ha, hp2.trans hp, hv2.trans hv, ?_, ?_⟩
      · rw [mergeRun_left fuel h h1 head head1 (h.next x) (slot t) x y c hax hay hc hle hs hl hn]
        exact hrun
      · cases t with
        | none =>
          have : head1 = some x := by simpa [loadLoc, slot] using hl
          simp [loadLoc, slot, hh2 (by simp), this]
        | some a =>
          have hat := ht a rfl
          have haa : h2.alive a = true := by rw [ha2, ha]; exact hat.1
          have hax' : a ≠ x := fun e => htx (by rw [e])
          have h3 : h2.next a = h1.next a :=
            hfr2 a (fun e => hax' (Option.some.inj e).symm)
              (fun m => hat.2 (List.mem_cons_of_mem _ m))
          have h4 : h1.next a = some x := by
            simpa [loadLoc, slot, getNext_alive (show h1.alive a = true by rw [ha]; exact hat.1)]
              using hl
          simp [loadLoc, slot, getNext_alive haa, h3, h4]
      · rw [List.merge, if_pos hxy]
        refine ⟨rfl, ?_⟩
        rw [hr]
        rw [hv] at hch
        exact hch
      · intro q hq hm
        have hqx : q ≠ x := fun e => hm (by simp [e])
        rw [hfr2 q (fun e => hqx (Option.some.inj e).symm)
          (fun m => hm (List.mem_cons_of_mem _ m)), hfr q hq]
      · intro hne
        rw [hh2 (by simp), hh hne]
    · -- the node of `L2` is placed
      have hxy : ¬ nodeLe h.value x y = true := fun e => hle (hcle.2 e)
      obtain ⟨h1, head1, hs, hl, ha, hp, hv, hfr, hh⟩ :=
        storeLoc_slot h head t (some y) (fun a e => (ht a e).1)
      have hn : getNext h1 (some y) = some (h.next y) := by
        rw [getNext_alive (by rw [ha]; exact hay), hfr y hty]
      have hperm : (y :: (x :: xs ++ ys)).Nodup := by
        have : (y :: (x :: xs ++ ys)).Perm (x :: xs ++ y :: ys) :=
          (List.perm_middle).symm
        exact this.nodup_iff.2 hnd
      have hnd2 : (x :: xs ++ ys).Nodup := (List.nodup_cons.1 hperm).2
      have hyn : y ∉ x :: xs ++ ys := (List.nodup_cons.1 hperm).1
      obtain ⟨h2, head2, r, hrun, hl2, hch, ha2, hp2, hv2, hfr2, hh2⟩ :=
        mergeRun_spec fuel (x :: xs) ys h1 head1 (some y) (some x) (h.next y)
          (Chain.congr_chain (fun z hz => (hfr z (fun e => (ht z e).2 (by
            simp only [List.mem_append, List.mem_cons] at hz ⊢; tauto))).symm) c1)
          (Chain.congr_chain (fun z hz => (hfr z (fun e => (ht z e).2 (by
            simp only [List.mem_append, List.mem_cons] at hz ⊢; tauto))).symm) c2.2)
          hnd2 (fun z hz => by
            rw [ha]; exact hal z (by simp only [List.mem_append, List.mem_cons] at hz ⊢; tauto))
          (fun z hz => by
            rw [hv]; exact hst z (by simp only [List.mem_append, List.mem_cons] at hz ⊢; tauto))
          (by simp at hf ⊢; omega)
          (fun a e => by
            cases e
            exact ⟨by rw [ha]; exact hay, hyn⟩)
      have hay2 : h2.alive y = true := by rw [ha2, ha]; exact hay
      have hr : h2.next y = r := by
        simpa [loadLoc, slot, getNext_alive hay2] using hl2
      refine ⟨h2, head2, some y, ?_, ?_, ?_, ha2.trans ha, hp2.trans hp, hv2.trans hv, ?_, ?_⟩
      · rw [mergeRun_right fuel h h1 head head1 (h.next y) (slot t) x y c hax hay hc hle hs hl hn]
        exact hrun
      · cases t with
        | none =>
          have : head1 = some y := by simpa [loadLoc, slot] using hl
          simp [loadLoc, slot, hh2 (by simp), this]
        | some a =>
          have hat := ht a rfl
          have haa : h2.alive a = true := by rw [ha2, ha]; exact hat.1
          have hay' : a ≠ y := fun e => hty (by rw [e])
          have h3 : h2.next a = h1.next a :=
            hfr2 a (fun e => hay' (Option.some.inj e).symm)
              (fun m => hat.2 (by simp only [List.mem_append, List.mem_cons] at m ⊢; tauto))
          have h4 : h1.next a = some y := by
            simpa [loadLoc, slot, getNext_alive (show h1.alive a = true by rw [ha]; exact hat.1)]
              using hl
          simp [loadLoc, slot, getNext_alive haa, h3, h4]
      · rw [List.merge, if_neg hxy]
        refine ⟨rfl, ?_⟩
        rw [hr]
        rw [hv] at hch
        exact hch
      · intro q hq hm
        have hqy : q ≠ y := fun e => hm (by simp [e])
        rw [hfr2 q (fun e => hqy (Option.some.inj e).symm)
          (fun m => hm (by simp only [List.mem_append, List.mem_cons] at m ⊢; tauto)), hfr q hq]
      · intro hne
        rw [hh2 (by simp), hh hne]

/-- The function `mergeTwoLists` turns two disjoint null-terminated chains into one chain that
holds their merge, touching `next` fields of their nodes only. -/
theorem mergeTwoLists_spec (fuel : Nat) (xs ys : List Ptr) (h : Heap) (L1 L2 : Option Ptr)
    (c1 : Chain h.next L1 xs none) (c2 : Chain h.next L2 ys none) (hnd : (xs ++ ys).Nodup)
    (hal : ∀ x ∈ xs ++ ys, h.alive x = true) (hst : Strs h (xs ++ ys))
    (hf : xs.length + ys.length < fuel) :
    ∃ h2 r, mergeTwoLists fuel h L1 L2 = some (h2, r) ∧
      Chain h2.next r (List.merge xs ys (nodeLe h.value)) none ∧
      h2.alive = h.alive ∧ h2.prev = h.prev ∧ h2.value = h.value ∧
      (∀ q, q ∉ xs ++ ys → h2.next q = h.next q) := by
  obtain ⟨h2, head2, r, hrun, hl, hch, ha, hp, hv, hfr, -⟩ :=
    mergeRun_spec fuel xs ys h none none L1 L2 c1 c2 hnd hal hst hf (fun a e => by cases e)
  have : head2 = r := by simpa [loadLoc, slot] using hl
  subst this
  exact ⟨h2, head2, by rw [mergeTwoLists_eq]; exact hrun, hch, ha, hp, hv,
    fun q hq => hfr q (by simp) hq⟩

/-- The fast/slow loop stops with `slow` on the node of index `⌊|f| / 2⌋` of the chain it
started on, `f` being the chain `fast` started on. -/
theorem mergesort_split_spec : ∀ (fuel : Nat) (f l : List Ptr) (h : Heap) (s : Ptr)
    (fast q : Option Ptr), Chain h.next (some s) (s :: l) q → Chain h.next fast f none →
    (∀ x ∈ s :: l, h.alive x = true) → (∀ x ∈ f, h.alive x = true) →
    f.length / 2 ≤ l.length → f.length < fuel →
    ∃ r, (s :: l)[f.length / 2]? = some r ∧ mergesort_split fuel h (some s) fast = some (some r)
  | 0, _, _, _, _, _, _, _, _, _, _, _, hf => by omega
  | fuel + 1, [], l, h, s, fast, q, _, c2, _, _, _, _ => by
    have : fast = none := c2
    subst this
    exact ⟨s, by simp, by simp [mergesort_split]⟩
  | fuel + 1, [x], l, h, s, fast, q, _, c2, _, ha2, _, _ => by
    have e : fast = some x := c2.1
    have e2 : h.next x = none := c2.2
    subst e
    exact ⟨s, by simp, by simp [mergesort_split, getNext_alive (ha2 x (by simp)), e2]⟩
  | fuel + 1, x :: y :: f, [], h, s, fast, q, _, _, _, _, hl, _ => by
    simp at hl
    omega
  | fuel + 1, x :: y :: f, s2 :: l, h, s, fast, q, c1, c2, ha1, ha2, hl, hf => by
    have e : fast = some x := c2.1
    have e2 : h.next x = some y := c2.2.1
    have e3 : h.next s = some s2 := c1.2.1
    subst e
    obtain ⟨r, hr, hrun⟩ := mergesort_split_spec fuel f l h s2 (h.next y) q
      (by rw [← e3]; exact ⟨e3, c1.2.2⟩) c2.2.2
      (fun z hz => ha1 z (List.mem_cons_of_mem _ hz))
      (fun z hz => ha2 z (by simp only [List.mem_cons] at hz ⊢; tauto))
      (by simp at hl ⊢; omega) (by simp at hf ⊢; omega)
    refine ⟨r, ?_, ?_⟩
    · have : (x :: y :: f).length / 2 = f.length / 2 + 1 := by simp; omega
      rw [this, List.getElem?_cons_succ]
      exact hr
    · simp [mergesort_split, getNext_alive (ha2 x (by simp)), e2,
        getNext_alive (ha1 s (by simp)), e3, getNext_alive (ha2 y (by simp)), hrun]

/-- Cutting a chain after its node of index `k`. -/
theorem Chain.cut {nx : Ptr → Option Ptr} :
    ∀ (ps : List Ptr) (k : Nat) (p : Option Ptr) (y : Ptr), Chain nx p ps none → ps.Nodup →
      ps[k]? = some y →
      Chain (Function.update nx y none) p (ps.take (k + 1)) none ∧
        Chain (Function.update nx y none) (nx y) (ps.drop (k + 1)) none
  | [], _, _, _, _, _, hk => by simp at hk
  | x :: xs, 0, p, y, hc, hnd, hk => by
    have e : x = y := by simpa using hk
    subst e
    have hx : x ∉ xs := (List.nodup_cons.1 hnd).1
    refine ⟨⟨hc.1, by simp [Chain]⟩, ?_⟩
    exact Chain.congr_chain (fun z hz => by
      have : z ≠ x := fun e => hx (e ▸ hz)
      simp [Function.update_noteq this]) hc.2
  | x :: xs, k + 1, p, y, hc, hnd, hk => by
    have hk2 : xs[k]? = some y := by simpa using hk
    have hx : x ∉ xs := (List.nodup_cons.1 hnd).1
    have hy : y ∈ xs := List.getElem?_mem hk2
    have hxy : x ≠ y := fun e => hx (e ▸ hy)
    obtain ⟨i1, i2⟩ := Chain.cut xs k (nx x) y hc.2 (List.nodup_cons.1 hnd).2 hk2
    refine ⟨⟨hc.1, ?_⟩, ?_⟩
    · rw [Function.update_noteq hxy]
      exact i1
    · exact i2


theorem mergeSort_cons_cons (le : Ptr → Ptr → Bool) (a b : Ptr) (xs : List Ptr) :
    (a :: b :: xs).mergeSort le =
      List.merge (((a :: b :: xs).take ((xs.length + 3) / 2)).mergeSort le)
        (((a :: b :: xs).drop ((xs.length + 3) / 2)).mergeSort le) le := by
  rw [List.mergeSort]
  simp only [List.splitInTwo_fst, List.splitInTwo_snd, List.length_cons]

theorem mergesort_list_base (fuel : Nat) (h : Heap) (a : Ptr) (ha : h.alive a = true)
    (hn : h.next a = none) : mergesort_list (fuel + 1) h (some a) = some (h, some a) := by
  simp [mergesort_list, getNext_alive ha, hn]

theorem mergesort_list_step (fuel : Nat) (h h1 h2 h3 : Heap) (a b y : Ptr)
    (left right : Option Ptr) (ha : h.alive a = true) (hy : h.alive y = true)
    (hn : h.next a = some b)
    (hsplit : mergesort_split (fuel + 1) h (some a) (some b) = some (some y))
    (hset : setNext h (some y) none = some h1)
    (hl : mergesort_list fuel h1 (some a) = some (h2, left))
    (hr : mergesort_list fuel h2 (h.next y) = some (h3, right)) :
    mergesort_list (fuel + 1) h (some a) = mergeTwoLists (fuel + 1) h3 left right := by
  simp [mergesort_list, getNext_alive ha, hn, hsplit, getNext_alive hy, hset, hl, hr]

/-- The function `mergesort_list` turns a non-empty null-terminated chain into a chain that
holds the merge sort of its nodes, touching `next` fields of these nodes only. -/
theorem mergesort_list_spec : ∀ (fuel : Nat) (ps : List Ptr) (h : Heap) (head : Option Ptr),
    Chain h.next head ps none → ps ≠ [] → ps.Nodup → (∀ x ∈ ps, h.alive x = true) →
    Strs h ps → ps.length < fuel →
    ∃ h2 r, mergesort_list fuel h head = some (h2, r) ∧
      Chain h2.next r (ps.mergeSort (nodeLe h.value)) none ∧
      h2.alive = h.alive ∧ h2.prev = h.prev ∧ h2.value = h.value ∧
      (∀ q, q ∉ ps → h2.next q = h.next q)
  | 0, _, _, _, _, _, _, _, _, hf => by omega
  | _ + 1, [], _, _, _, hne, _, _, _, _ => absurd rfl hne
  | fuel + 1, [a], h, head, hc, _, _, hal, _, _ => by
    have e : head = some a := hc.1
    have e2 : h.next a = none := hc.2
    subst e
    refine ⟨h, some a, mergesort_list_base fuel h a (hal a (by simp)) e2, ?_, rfl, rfl, rfl,
      fun _ _ => rfl⟩
    rw [List.mergeSort_singleton]
    exact hc
  | fuel + 1, a :: b :: xs, h, head, hc, _, hnd, hal, hst, hf => by
    have e : head = some a := hc.1
    have e2 : h.next a = some b := hc.2.1
    subst e
    have hlen : (b :: xs).length / 2 + 1 = (xs.length + 3) / 2 := by simp; omega
    -- the split
    obtain ⟨y, hy, hsplit⟩ := mergesort_split_spec (fuel + 1) (b :: xs) (b :: xs) h a (some b)
      none hc (by rw [← e2]; exact hc.2) hal
      (fun z hz => hal z (List.mem_cons_of_mem _ hz)) (by omega) (by simp at hf ⊢; omega)
    have hym : y ∈ a :: b :: xs := List.getElem?_mem hy
    have hay : h.alive y = true := hal y hym
    obtain ⟨cl, cr⟩ := Chain.cut (a :: b :: xs) _ (some a) y hc hnd hy
    rw [hlen] at cl cr
    generalize hk : (xs.length + 3) / 2 = k at cl cr
    have hk1 : 1 ≤ k := by omega
    have hk2 : k ≤ xs.length + 1 := by omega
    have happ : (a :: b :: xs).take k ++ (a :: b :: xs).drop k = a :: b :: xs :=
      List.take_append_drop _ _
    have hnd2 : ((a :: b :: xs).take k ++ (a :: b :: xs).drop k).Nodup := by rw [happ]; exact hnd
    have hdis := List.nodup_append.1 hnd2
    have hmt : ∀ z, z ∈ (a :: b :: xs).take k → z ∈ a :: b :: xs := fun z hz =>
      List.mem_of_mem_take hz
    have hmd : ∀ z, z ∈ (a :: b :: xs).drop k → z ∈ a :: b :: xs := fun z hz =>
      List.mem_of_mem_drop hz
    -- the cut
    have hset := setNext_alive (h := h) none hay
    generalize hh1 : ({ h with next := Function.update h.next y none } : Heap) = h1 at hset
    have h1n : h1.next = Function.update h.next y none := by rw [← hh1]
    have h1a : h1.alive = h.alive := by rw [← hh1]
    have h1p : h1.prev = h.prev := by rw [← hh1]
    have h1v : h1.value = h.value := by rw [← hh1]
    rw [← h1n] at cl cr
    -- the left half
    have htk : (a :: b :: xs).take k ≠ [] := by
      intro e
      have := congrArg List.length e
      simp at this
      omega
    obtain ⟨h2, left, hl, hcl, h2a, h2p, h2v, h2f⟩ :=
      mergesort_list_spec fuel ((a :: b :: xs).take k) h1 (some a) cl htk hdis.1
        (fun z hz => by rw [h1a]; exact hal z (hmt z hz))
        (fun z hz => by rw [h1v]; exact hst z (hmt z hz))
        (by simp at hf ⊢; omega)
    -- the right half
    have hdk : (a :: b :: xs).drop k ≠ [] := by
      intro e
      have := congrArg List.length e
      simp at this
      omega
    obtain ⟨h3, right, hr, hcr, h3a, h3p, h3v, h3f⟩ :=
      mergesort_list_spec fuel ((a :: b :: xs).drop k) h2 (h.next y)
        (Chain.congr_chain (fun z hz => (h2f z (fun m => hdis.2.2 m hz)).symm) cr) hdk hdis.2.1
        (fun z hz => by rw [h2a, h1a]; exact hal z (hmd z hz))
        (fun z hz => by rw [h2v, h1v]; exact hst z (hmd z hz))
        (by simp at hf ⊢; omega)
    rw [h2v, h1v] at hcr
    rw [h1v] at hcl
    -- the merge
    have pl := List.mergeSort_perm ((a :: b :: xs).take k) (nodeLe h.value)
    have pr := List.mergeSort_perm ((a :: b :: xs).drop k) (nodeLe h.value)
    have pall : (((a :: b :: xs).take k).mergeSort (nodeLe h.value) ++
        ((a :: b :: xs).drop k).mergeSort (nodeLe h.value)).Perm (a :: b :: xs) := by
      have := pl.append pr
      rwa [happ] at this
    obtain ⟨h4, r, hm, hcm, h4a, h4p, h4v, h4f⟩ :=
      mergeTwoLists_spec (fuel + 1) _ _ h3 left right
        (Chain.congr_chain (fun z hz => (h3f z (fun m => hdis.2.2 (pl.mem_iff.1 hz) m)).symm) hcl)
        hcr (pall.nodup_iff.2 hnd)
        (fun z hz => by rw [h3a, h2a, h1a]; exact hal z (pall.mem_iff.1 hz))
        (fun z hz => by rw [h3v, h2v, h1v]; exact hst z (pall.mem_iff.1 hz))
        (by rw [← List.length_append, pall.length_eq]; exact hf)
    refine ⟨h4, r, ?_, ?_, by rw [h4a, h3a, h2a, h1a], by rw [h4p, h3p, h2p, h1p],
      by rw [h4v, h3v, h2v, h1v], ?_⟩
    · rw [mergesort_list_step fuel h h1 h2 h3 a b y left right (hal a (by simp)) hay e2 hsplit
        hset hl hr]
      exact hm
    · rw [mergeSort_cons_cons, hk]
      rw [h3v, h2v, h1v] at hcm
      exact hcm
    · intro q hq
      have hq1 : q ∉ (a :: b :: xs).take k := fun m => hq (hmt q m)
      have hq2 : q ∉ (a :: b :: xs).drop k := fun m => hq (hmd q m)
      have hqy : q ≠ y := fun e => hq (e ▸ hym)
      rw [h4f q (fun m => hq (pall.mem_iff.1 m)), h3f q hq2, h2f q hq1, h1n,
        Function.update_noteq hqy]

theorem DOpen.close {nx pv : Ptr → Option Ptr} :
    ∀ (l : List Ptr) (a z b : Ptr), DOpen nx pv a l → (a :: l).getLast? = some z →
      (a :: l).Nodup → b ∉ l →
      DSeg (Function.update nx z (some b)) (Function.update pv b (some z)) a l b
  | [], a, z, b, _, hz, _, _ => by
    have : a = z := by simpa using hz
    subst this
    exact ⟨by simp, by simp⟩
  | x :: xs, a, z, b, ho, hz, hnd, hb => by
    have hz2 : (x :: xs).getLast? = some z := by
      rw [List.getLast?_cons_cons] at hz; exact hz
    have hzm : z ∈ x :: xs := List.mem_of_getLast?_eq_some hz2
    have haz : a ≠ z := fun e => (List.nodup_cons.1 hnd).1 (e ▸ hzm)
    have hxb : x ≠ b := fun e => hb (by simp [e])
    refine ⟨?_, ?_, ?_⟩
    · rw [Function.update_noteq haz]; exact ho.1
    · rw [Function.update_noteq hxb]; exact ho.2.1
    · exact DOpen.close xs x z b ho.2.2 hz2 (List.nodup_cons.1 hnd).2
        (fun m => hb (List.mem_cons_of_mem _ m))

/-- The loop of `q_sort` that walks the sorted chain sets every `prev` field on its way and
stops on the last node. -/
theorem q_sort_relink_spec : ∀ (fuel : Nat) (l : List Ptr) (h : Heap) (a : Ptr),
    Chain h.next (h.next a) l none → (∀ x ∈ a :: l, h.alive x = true) → (a :: l).Nodup →
    l.length < fuel →
    ∃ h2 z, q_sort_relink fuel h (some a) = some (h2, some z) ∧ (a :: l).getLast? = some z ∧
      h2.next = h.next ∧ h2.alive = h.alive ∧ h2.value = h.value ∧
      (∀ q, q ∉ l → h2.prev q = h.prev q) ∧ DOpen h2.next h2.prev a l
  | 0, _, _, _, _, _, _, hf => by omega
  | fuel + 1, [], h, a, hc, hal, _, _ => by
    have e : h.next a = none := hc
    exact ⟨h, a, by simp [q_sort_relink, getNext_alive (hal a (by simp)), e], rfl, rfl, rfl, rfl,
      fun _ _ => rfl, trivial⟩
  | fuel + 1, x :: xs, h, a, hc, hal, hnd, hf => by
    have e : h.next a = some x := hc.1
    have hax : h.alive x = true := hal x (by simp)
    have hx : x ∉ xs := (List.nodup_cons.1 (List.nodup_cons.1 hnd).2).1
    obtain ⟨h2, z, hrun, hz, hn, ha, hv, hfr, ho⟩ :=
      q_sort_relink_spec fuel xs { h with prev := Function.update h.prev x (some a) } x hc.2
        (fun y hy => hal y (List.mem_cons_of_mem _ hy)) (List.nodup_cons.1 hnd).2
        (by simp at hf ⊢; omega)
    refine ⟨h2, z, ?_, ?_, hn, ha, hv, ?_, ?_⟩
    · simp [q_sort_relink, getNext_alive (hal a (by simp)), e, setPrev_alive _ hax, hrun]
    · rw [List.getLast?_cons_cons]; exact hz
    · intro q hq
      have hqx : q ≠ x := fun e => hq (by simp [e])
      rw [hfr q (fun m => hq (List.mem_cons_of_mem _ m))]
      simp [Function.update_noteq hqx]
    · refine ⟨by rw [hn]; exact e, ?_, ho⟩
      rw [hfr x hx]
      simp

theorem Chain.setLast {nx : Ptr → Option Ptr} (v : Option Ptr) :
    ∀ (l : List Ptr) (p q : Option Ptr) (z : Ptr), Chain nx p l q → l.Nodup →
      l.getLast? = some z → Chain (Function.update nx z v) p l v
  | [], _, _, _, _, _, hz => by simp at hz
  | [x], p, q, z, hc, _, hz => by
    have : x = z := by simpa using hz
    subst this
    exact ⟨hc.1, by simp [Chain]⟩
  | x :: y :: xs, p, q, z, hc, hnd, hz => by
    have hz2 : (y :: xs).getLast? = some z := by
      rw [List.getLast?_cons_cons] at hz; exact hz
    have hzm : z ∈ y :: xs := List.mem_of_getLast?_eq_some hz2
    have hxz : x ≠ z := fun e => (List.nodup_cons.1 hnd).1 (e ▸ hzm)
    refine ⟨hc.1, ?_⟩
    rw [Function.update_noteq hxz]
    exact Chain.setLast v (y :: xs) (nx x) q z hc.2 (List.nodup_cons.1 hnd).2 hz2

theorem DSeg.prev_last {nx pv : Ptr → Option Ptr} :
    ∀ (l : List Ptr) (a b : Ptr), DSeg nx pv a l b → pv b = (a :: l).getLast?
  | [], _, _, hd => hd.2
  | x :: xs, a, b, hd => by
    rw [List.getLast?_cons_cons]
    exact DSeg.prev_last xs x b hd.2.2

theorem DSeg.next_first {nx pv : Ptr → Option Ptr} :
    ∀ (l : List Ptr) (a b : Ptr), DSeg nx pv a l b → nx a = (l ++ [b]).head?
  | [], _, _, hd => hd.1
  | _ :: _, _, _, hd => hd.1

theorem list_empty_alive {h : Heap} {head : Ptr} (ha : h.alive head = true) :
    list_empty h (some head) = some (decide (h.next head = some head)) := by
  simp [list_empty, getNext_alive ha]

theorem WF.empty_test {h : Heap} {head : Ptr} {ps : List Ptr} (hw : WF h head ps) :
    list_empty h (some head) = some (decide (ps = [])) := by
  rw [list_empty_alive (hw.alive head (by simp))]
  cases ps with
  | nil => simp [hw.links.1]
  | cons x xs =>
    have : x ≠ head := fun e => (List.nodup_cons.1 hw.nodup).1 (by simp [e])
    simp [hw.links.1, this]


/-- The function `q_sort` turns a well-formed queue of NUL-terminated strings into the
well-formed queue of the merge sort of its elements; no string is touched, no block is
allocated or freed, and no field outside the queue is written. -/
theorem q_sort_spec (fuel : Nat) (h : Heap) (head : Ptr) (ps : List Ptr) (hw : WF h head ps)
    (hst : Strs h ps) (hf : ps.length < fuel) :
    ∃ h2, q_sort fuel h (some head) = some h2 ∧
      WF h2 head (ps.mergeSort (nodeLe h.value)) ∧ h2.value = h.value ∧ h2.alive = h.alive ∧
      (∀ q, q ∉ head :: ps → h2.next q = h.next q ∧ h2.prev q = h.prev q) := by
  have hah : h.alive head = true := hw.alive head (by simp)
  have hhd : head ∉ ps := (List.nodup_cons.1 hw.nodup).1
  have hnd : ps.Nodup := (List.nodup_cons.1 hw.nodup).2
  rcases List.eq_nil_or_concat ps with hnil | ⟨l, z, hps⟩
  · subst hnil
    exact ⟨h, by simp [q_sort, hw.empty_test], by simpa using hw, rfl, rfl, fun _ _ => ⟨rfl, rfl⟩⟩
  · have hne : ps ≠ [] := by rw [hps]; simp
    have hlast : ps.getLast? = some z := by rw [hps]; simp
    have hzm : z ∈ ps := List.mem_of_getLast?_eq_some hlast
    have hzh : z ≠ head := fun e => hhd (e ▸ hzm)
    have haz : h.alive z = true := hw.alive z (List.mem_cons_of_mem _ hzm)
    have hpv : h.prev head = some z := by
      rw [DSeg.prev_last ps head head hw.links]
      obtain ⟨x, xs, e⟩ := List.exists_cons_of_ne_nil hne
      rw [e, List.getLast?_cons_cons, ← e]
      exact hlast
    -- the circle is opened
    have hset := setNext_alive (h := h) none haz
    generalize hh1 : ({ h with next := Function.update h.next z none } : Heap) = h1 at hset
    have h1n : h1.next = Function.update h.next z none := by rw [← hh1]
    have h1a : h1.alive = h.alive := by rw [← hh1]
    have h1p : h1.prev = h.prev := by rw [← hh1]
    have h1v : h1.value = h.value := by rw [← hh1]
    have hc1 : Chain h1.next (h.next head) ps none := by
      rw [h1n]
      exact Chain.setLast none ps _ _ z hw.links.chain hnd hlast
    have hnh : h1.next head = h.next head := by
      rw [h1n, Function.update_noteq (Ne.symm hzh)]
    -- the chain is sorted
    obtain ⟨h2, r, hms, hc2, h2a, h2p, h2v, h2f⟩ :=
      mergesort_list_spec fuel ps h1 (h.next head) hc1 hne hnd
        (fun x hx => by rw [h1a]; exact hw.alive x (List.mem_cons_of_mem _ hx))
        (fun x hx => by rw [h1v]; exact hst x hx) hf
    rw [h1v] at hc2
    generalize hS : ps.mergeSort (nodeLe h.value) = S at hc2
    have hperm : S.Perm ps := by rw [← hS]; exact List.mergeSort_perm _ _
    have hhS : head ∉ S := fun m => hhd (hperm.mem_iff.1 m)
    have hndS : (head :: S).Nodup := List.nodup_cons.2 ⟨hhS, hperm.nodup_iff.2 hnd⟩
    have h2ah : h2.alive head = true := by rw [h2a, h1a]; exact hah
    -- the sentinel is put in front of it
    have hset3 := setNext_alive (h := h2) r h2ah
    generalize hh3 : ({ h2 with next := Function.update h2.next head r } : Heap) = h3 at hset3
    have h3n : h3.next = Function.update h2.next head r := by rw [← hh3]
    have h3a : h3.alive = h2.alive := by rw [← hh3]
    have h3p : h3.prev = h2.prev := by rw [← hh3]
    have h3v : h3.value = h2.value := by rw [← hh3]
    have hc3 : Chain h3.next (h3.next head) S none := by
      rw [h3n, Function.update_same]
      refine Chain.congr_chain (fun x hx => ?_) hc2
      have : x ≠ head := fun e => hhS (e ▸ hx)
      rw [Function.update_noteq this]
    -- the `prev` fields are rebuilt
    obtain ⟨h4, t, hrl, ht, h4n, h4a, h4v, h4f, hopen⟩ :=
      q_sort_relink_spec fuel S h3 head hc3
        (fun x hx => by
          rw [h3a, h2a, h1a]
          rcases List.mem_cons.1 hx with e | m
          · rw [e]; exact hah
          · exact hw.alive x (List.mem_cons_of_mem _ (hperm.mem_iff.1 m)))
        hndS (by rw [hperm.length_eq]; exact hf)
    have htm : t ∈ head :: S := List.mem_of_getLast?_eq_some ht
    have h4at : h4.alive t = true := by
      rw [h4a, h3a, h2a, h1a]
      rcases List.mem_cons.1 htm with e | m
      · rw [e]; exact hah
      · exact hw.alive t (List.mem_cons_of_mem _ (hperm.mem_iff.1 m))
    have h4ah : h4.alive head = true := by rw [h4a, h3a]; exact h2ah
    -- the circle is closed
    have hclose := DOpen.close S head t head hopen ht hndS hhS
    refine ⟨{ alive := h4.alive, next := Function.update h4.next t (some head),
              prev := Function.update h4.prev head (some t), value := h4.value,
              past := h4.past }, ?_, ?_, ?_, ?_, ?_⟩
    · simp [q_sort, hw.empty_test, hne, getPrev_alive hah, hpv, hset,
        getNext_alive (show h1.alive head = true by rw [h1a]; exact hah), hnh, hms, hset3, hrl,
        setNext_alive _ h4at, setPrev, h4ah]
    · exact ⟨hndS, fun x hx => by
        show h4.alive x = true
        rw [h4a, h3a, h2a, h1a]
        rcases List.mem_cons.1 hx with e | m
        · rw [e]; exact hah
        · exact hw.alive x (List.mem_cons_of_mem _ (hperm.mem_iff.1 m)), hclose⟩
    · show h4.value = h.value
      rw [h4v, h3v, h2v, h1v]
    · show h4.alive = h.alive
      rw [h4a, h3a, h2a, h1a]
    · intro q hq
      have hqh : q ≠ head := fun e => hq (by simp [e])
      have hqp : q ∉ ps := fun m => hq (List.mem_cons_of_mem _ m)
      have hqS : q ∉ S := fun m => hqp (hperm.mem_iff.1 m)
      have hqt : q ≠ t := fun e => by
        rcases List.mem_cons.1 htm with e2 | m
        · exact hqh (e.trans e2)
        · exact hqS (e ▸ m)
      have hqz : q ≠ z := fun e => hqp (e ▸ hzm)
      constructor
      · show Function.update h4.next t (some head) q = h.next q
        rw [Function.update_noteq hqt, h4n, h3n, Function.update_noteq hqh, h2f q hqp, h1n,
          Function.update_noteq hqz]
      · show Function.update h4.prev head (some t) q = h.prev q
        rw [Function.update_noteq hqh, h4f q hqS, h3p, h2p, h1p]

/-! ## Sorting: the claims -/

theorem strcmpLe_eq {a b : List Nat} (ha : (strlen a).isSome = true)
    (hb : (strlen b).isSome = true) : strcmpLe a b = lexLe (cstr a) (cstr b) := by
  obtain ⟨c, hc, hle, -⟩ := strcmp_spec a b ha hb
  rw [strcmpLe, hc]
  by_cases h : c ≤ 0
  · simp [h, hle.1 h]
  · have : lexLe (cstr a) (cstr b) ≠ true := fun e => h (hle.2 e)
    simp [h, this]

/-- C1: for every well-formed queue of NUL-terminated strings (the empty and the one-element
queue included) `q_sort` returns, and afterwards the queue is well formed, its forward
traversal is a permutation of the one before the call (same nodes, same strings), and it is
non-descending: `strcmp` of an earlier and a later string is `<= 0`, that is, the strings are in
byte-wise lexicographic order. -/
theorem q_sort_sorted_perm (fuel : Nat) (h : Heap) (head : Ptr) (ps : List Ptr)
    (hw : WF h head ps) (hst : Strs h ps) (hf : ps.length < fuel) :
    ∃ h2 ps2, q_sort fuel h (some head) = some h2 ∧ WF h2 head ps2 ∧
      forward fuel h2 head = some ps2 ∧ ps2.Perm ps ∧ (values h2 ps2).Perm (values h ps) ∧
      ps2.Pairwise (fun p q => strcmpLe (h2.value p) (h2.value q) = true) ∧
      (values h2 ps2).Pairwise (fun a b => lexLe a b = true) := by
  obtain ⟨h2, hrun, hw2, hv, -, -⟩ := q_sort_spec fuel h head ps hw hst hf
  have hperm : (ps.mergeSort (nodeLe h.value)).Perm ps := List.mergeSort_perm _ _
  have hsorted : (ps.mergeSort (nodeLe h.value)).Pairwise (fun p q => nodeLe h.value p q = true) :=
    List.sorted_mergeSort (nodeLe_trans h.value) (nodeLe_total h.value) ps
  refine ⟨h2, _, hrun, hw2, hw2.forward (by rw [hperm.length_eq]; exact hf), hperm, ?_, ?_, ?_⟩
  · simp only [values, hv]
    exact hperm.map _
  · refine hsorted.imp_of_mem ?_
    intro p q hp hq hle
    rw [hv, strcmpLe_eq (hst p (hperm.mem_iff.1 hp)) (hst q (hperm.mem_iff.1 hq))]
    exact hle
  · simp only [values, hv]
    exact List.pairwise_map.2 hsorted

theorem q_sort_sorted_perm_witness :
    WF (queueOf [[99], [97, 98], [], [97]]) 0 [1, 2, 3, 4] ∧
    Strs (queueOf [[99], [97, 98], [], [97]]) [1, 2, 3, 4] ∧
    ∃ h2 ps2, q_sort 5 (queueOf [[99], [97, 98], [], [97]]) (some 0) = some h2 ∧ WF h2 0 ps2 ∧
      forward 5 h2 0 = some ps2 ∧ ps2.Perm [1, 2, 3, 4] ∧
      (values h2 ps2).Perm (values (queueOf [[99], [97, 98], [], [97]]) [1, 2, 3, 4]) ∧
      ps2.Pairwise (fun p q => strcmpLe (h2.value p) (h2.value q) = true) ∧
      (values h2 ps2).Pairwise (fun a b => lexLe a b = true) :=
  ⟨by decide, by decide,
    q_sort_sorted_perm 5 (queueOf [[99], [97, 98], [], [97]]) 0 [1, 2, 3, 4]
      (by decide) (by decide) (by decide)⟩

/-- C2: `q_sort` is stable.  For every well-formed queue of NUL-terminated strings and every
two elements `x`, `y` holding equal strings, `x` before `y` in the forward traversal (that is,
`[x, y]` is a sublist of it): `q_sort` returns, and `x` is still before `y` in the forward
traversal afterwards. -/
theorem q_sort_stable (fuel : Nat) (h : Heap) (head : Ptr) (ps : List Ptr)
    (hw : WF h head ps) (hst : Strs h ps) (hf : ps.length < fuel) (x y : Ptr)
    (hxy : [x, y].Sublist ps) (heq : cstr (h.value x) = cstr (h.value y)) :
    ∃ h2 ps2, q_sort fuel h (some head) = some h2 ∧ forward fuel h2 head = some ps2 ∧
      [x, y].Sublist ps2 ∧ h2.value x = h.value x ∧ h2.value y = h.value y := by
  obtain ⟨h2, hrun, hw2, hv, -, -⟩ := q_sort_spec fuel h head ps hw hst hf
  have hperm : (ps.mergeSort (nodeLe h.value)).Perm ps := List.mergeSort_perm _ _
  refine ⟨h2, _, hrun, hw2.forward (by rw [hperm.length_eq]; exact hf), ?_, by rw [hv],
    by rw [hv]⟩
  refine List.pair_sublist_mergeSort (nodeLe_trans h.value) (nodeLe_total h.value) ?_ hxy
  simp only [nodeLe, heq, lexLe_refl]

theorem q_sort_stable_witness :
    WF (queueOf [[98], [97], [98]]) 0 [1, 2, 3] ∧ Strs (queueOf [[98], [97], [98]]) [1, 2, 3] ∧
    [1, 3].Sublist [1, 2, 3] ∧
    cstr ((queueOf [[98], [97], [98]]).value 1) = cstr ((queueOf [[98], [97], [98]]).value 3) ∧
    ∃ h2 ps2, q_sort 4 (queueOf [[98], [97], [98]]) (some 0) = some h2 ∧
      forward 4 h2 0 = some ps2 ∧ [1, 3].Sublist ps2 ∧
      h2.value 1 = (queueOf [[98], [97], [98]]).value 1 ∧
      h2.value 3 = (queueOf [[98], [97], [98]]).value 3 :=
  ⟨by decide, by decide, by decide, by decide,
    q_sort_stable 4 (queueOf [[98], [97], [98]]) 0 [1, 2, 3] (by decide) (by decide) (by decide)
      1 3 (by decide) (by decide)⟩

/-! ## Unlinking and releasing a node -/

theorem DSeg.open_seg {nx pv : Ptr → Option Ptr} :
    ∀ {l : List Ptr} {a b : Ptr}, DSeg nx pv a l b → DOpen nx pv a l
  | [], _, _, _ => trivial
  | _ :: _, _, _, hd => ⟨hd.1, hd.2.1, DSeg.open_seg hd.2.2⟩

theorem DSeg.next_last {nx pv : Ptr → Option Ptr} :
    ∀ (l : List Ptr) (a b z : Ptr), DSeg nx pv a l b → (a :: l).getLast? = some z →
      nx z = some b
  | [], a, b, z, hd, hz => by
    have : a = z := by simpa using hz
    subst this
    exact hd.1
  | x :: xs, _, b, z, hd, hz => by
    rw [List.getLast?_cons_cons] at hz
    exact DSeg.next_last xs x b z hd.2.2 hz

/-- Splicing the node `y` out of a doubly-linked segment: its neighbours `p` and `n` are linked
to each other. -/
theorem DSeg.unlink {nx pv : Ptr → Option Ptr} (xs ys : List Ptr) (a y b : Ptr)
    (hd : DSeg nx pv a (xs ++ y :: ys) b) (hnd : (a :: (xs ++ y :: ys)).Nodup)
    (hb : b ∉ xs ++ y :: ys) :
    ∃ p n, (a :: xs).getLast? = some p ∧ (ys ++ [b]).head? = some n ∧ pv y = some p ∧
      nx y = some n ∧ p ∈ a :: xs ∧ n ∈ ys ++ [b] ∧
      DSeg (Function.update nx p (some n)) (Function.update pv n (some p)) a (xs ++ ys) b := by
  obtain ⟨d1, d2⟩ := DSeg.split_seg hd
  have hnd1 : (a :: xs).Nodup := by
    have := hnd
    rw [← List.cons_append] at this
    exact (List.nodup_append.1 this).1
  have hdis : ∀ z, z ∈ a :: xs → z ∉ y :: ys := by
    intro z hz
    have := hnd
    rw [← List.cons_append] at this
    exact fun m => (List.nodup_append.1 this).2.2 hz m
  have hndy : (y :: ys).Nodup := (List.nodup_append.1 (List.nodup_cons.1 hnd).2).2.1
  obtain ⟨p, hp⟩ : ∃ p, (a :: xs).getLast? = some p := by
    cases h : (a :: xs).getLast? with
    | none => simp at h
    | some p => exact ⟨p, rfl⟩
  have hpm : p ∈ a :: xs := List.mem_of_getLast?_eq_some hp
  have hpy : pv y = some p := by rw [DSeg.prev_last xs a y d1, hp]
  cases ys with
  | nil =>
    have hbx : b ∉ xs := fun m => hb (by simp [m])
    refine ⟨p, b, hp, rfl, hpy, d2.1, hpm, by simp, ?_⟩
    rw [List.append_nil]
    exact DOpen.close xs a p b d1.open_seg hp hnd1 hbx
  | cons n ys =>
    have hnx : n ∉ xs := fun m => hdis n (List.mem_cons_of_mem _ m) (by simp)
    have hc := DOpen.close xs a p n d1.open_seg hp hnd1 hnx
    refine ⟨p, n, hp, rfl, hpy, d2.1, hpm, by simp, DSeg.append_seg hc ?_⟩
    refine DSeg.congr_seg (fun z hz => ?_) (fun z hz => ?_) d2.2.2
    · have : z ≠ p := fun e => hdis p hpm (e ▸ List.mem_cons_of_mem _ hz)
      rw [Function.update_noteq this]
    · have : z ≠ n := by
        intro e
        subst e
        rcases List.mem_append.1 hz with m | m
        · exact (List.nodup_cons.1 (List.nodup_cons.1 hndy).2).1 m
        · have : z = b := by simpa using m
          exact hb (by simp [this])
      rw [Function.update_noteq this]

/-- The heap after `list_del` of a node whose neighbours are `p` and `n`. -/
theorem list_del_alive {h : Heap} {y p n : Ptr} (hay : h.alive y = true)
    (hap : h.alive p = true) (han : h.alive n = true) (hp : h.prev y = some p)
    (hn : h.next y = some n) :
    list_del h (some y) =
      some { alive := h.alive, next := Function.update h.next p (some n),
             prev := Function.update h.prev n (some p), value := h.value,
             past := h.past } := by
  simp [list_del, getNext_alive hay, getPrev_alive hay, hp, hn, setPrev_alive _ han, setNext,
    hap]

/-- On a well-formed queue `list_del` of the element `y` returns, and leaves the well-formed
queue of the other elements; `y` stays live, and only the fields of its two neighbours are
written. -/
theorem WF.unlink_node {h : Heap} {head : Ptr} (xs ys : List Ptr) (y : Ptr)
    (hw : WF h head (xs ++ y :: ys)) :
    ∃ h2, list_del h (some y) = some h2 ∧ WF h2 head (xs ++ ys) ∧ h2.alive = h.alive ∧
      h2.value = h.value ∧
      (∀ q, q ∉ head :: (xs ++ ys) → h2.next q = h.next q ∧ h2.prev q = h.prev q) := by
  have hb : head ∉ xs ++ y :: ys := (List.nodup_cons.1 hw.nodup).1
  obtain ⟨p, n, -, -, hp, hn, hpm, hnm, hd⟩ := DSeg.unlink xs ys head y head hw.links hw.nodup hb
  have hpm2 : p ∈ head :: (xs ++ ys) := by
    simp only [List.mem_cons, List.mem_append] at hpm ⊢; tauto
  have hnm2 : n ∈ head :: (xs ++ ys) := by
    simp only [List.mem_cons, List.mem_append, List.mem_singleton, List.not_mem_nil,
      or_false] at hnm ⊢
    tauto
  have hsub : ∀ z, z ∈ head :: (xs ++ ys) → z ∈ head :: (xs ++ y :: ys) := by
    intro z hz
    simp only [List.mem_cons, List.mem_append] at hz ⊢; tauto
  refine ⟨_, list_del_alive (hw.alive y (by simp)) (hw.alive p (hsub p hpm2))
    (hw.alive n (hsub n hnm2)) hp hn, ⟨?_, fun z hz => hw.alive z (hsub z hz), hd⟩, rfl, rfl, ?_⟩
  · have := hw.nodup
    rw [List.nodup_cons] at this ⊢
    refine ⟨fun m => this.1 (by simp only [List.mem_append, List.mem_cons] at m ⊢; tauto), ?_⟩
    exact this.2.sublist (List.Sublist.append (List.Sublist.refl _) (List.sublist_cons_self _ _))
  · intro q hq
    have hqp : q ≠ p := fun e => hq (e ▸ hpm2)
    have hqn : q ≠ n := fun e => hq (e ▸ hnm2)
    exact ⟨by simp [Function.update_noteq hqp], by simp [Function.update_noteq hqn]⟩

/-- Releasing a block that is not part of the queue leaves the queue well formed. -/
theorem WF.release {h : Heap} {head : Ptr} {ps : List Ptr} (hw : WF h head ps) (y : Ptr)
    (hy : y ∉ head :: ps) (hay : h.alive y = true) :
    q_release_element h (some y) =
        some { h with alive := Function.update h.alive y false } ∧
      WF { h with alive := Function.update h.alive y false } head ps := by
  refine ⟨by simp [q_release_element, free, hay], hw.nodup, fun z hz => ?_, hw.links⟩
  have : z ≠ y := fun e => hy (e ▸ hz)
  simp [Function.update_noteq this, hw.alive z hz]

/-- Deleting an element of a well-formed queue (`list_del` then `q_release_element`) returns,
and leaves the well-formed queue of the other elements, their strings untouched. -/
theorem WF.delete {h : Heap} {head : Ptr} (xs ys : List Ptr) (y : Ptr)
    (hw : WF h head (xs ++ y :: ys)) :
    ∃ h1 h2, list_del h (some y) = some h1 ∧ q_release_element h1 (some y) = some h2 ∧
      WF h2 head (xs ++ ys) ∧ h2.value = h.value ∧
      h2.alive = Function.update h.alive y false ∧
      (∀ q, q ∉ head :: (xs ++ ys) → h2.next q = h.next q ∧ h2.prev q = h.prev q) := by
  obtain ⟨h1, hdel, hw1, ha1, hv1, hfr⟩ := WF.unlink_node xs ys y hw
  have hy : y ∉ head :: (xs ++ ys) := by
    have := hw.nodup
    rw [List.nodup_cons] at this
    have h2 := List.nodup_middle.1 this.2
    intro m
    rcases List.mem_cons.1 m with e | m
    · exact this.1 (by simp [e])
    · exact (List.nodup_cons.1 h2).1 m
  obtain ⟨hrel, hw2⟩ := hw1.release y hy (by rw [ha1]; exact hw.alive y (by simp))
  exact ⟨h1, _, hdel, hrel, hw2, hv1, by simp [ha1], hfr⟩

/-! ## Deleting duplicates -/

theorem q_delete_dup_eq (fuel : Nat) (h : Heap) (head : Ptr) (ha : h.alive head = true)
    (p1 : Ptr) (h1 : h.next head = some p1) (ha1 : h.alive p1 = true) :
    q_delete_dup fuel h (some head) = dupRun fuel h (some head) (some p1) (h.next p1) false := by
  simp only [q_delete_dup, dupRun, getNext_alive ha, h1, getNext_alive ha1, Option.bind_eq_bind,
    Option.some_bind]
  cases q_delete_dup_loop fuel h (some head) (some p1) (h.next p1) false with
  | none => rfl
  | some r =>
    obtain ⟨h2, q, d⟩ := r
    cases d
    · simp
    · simp only [Option.some_bind, if_true]
      cases list_del h2 q with
      | none => rfl
      | some h3 =>
        simp only [Option.some_bind]
        cases q_release_element h3 q <;> rfl

theorem dupRun_exit (fuel : Nat) (h : Heap) (head ptr1 : Option Ptr) (dup : Bool) :
    dupRun (fuel + 1) h head ptr1 head dup =
      if dup then (list_del h ptr1).bind (fun h1 =>
        (q_release_element h1 ptr1).bind (fun h2 => some (h2, true)))
      else some (h, true) := by
  simp [dupRun, q_delete_dup_loop]

theorem dupRun_eq (fuel : Nat) (h h1 h2 : Heap) (head c x : Ptr) (dup : Bool)
    (hxh : x ≠ head) (hac : h.alive c = true) (hax : h.alive x = true)
    (hs : strcmp (h.value c) (h.value x) = some 0)
    (hd : list_del h (some x) = some h1) (hr : q_release_element h1 (some x) = some h2)
    (hac2 : h2.alive c = true) :
    dupRun (fuel + 1) h (some head) (some c) (some x) dup =
      dupRun fuel h2 (some head) (some c) (h2.next c) true := by
  simp [dupRun, q_delete_dup_loop, hxh, getValue_alive hac, getValue_alive hax, hs, hd, hr,
    getNext_alive hac2]

theorem dupRun_ne_dup (fuel : Nat) (h h1 h2 : Heap) (head c x : Ptr) (k : Int)
    (hxh : x ≠ head) (hac : h.alive c = true) (hax : h.alive x = true)
    (hs : strcmp (h.value c) (h.value x) = some k) (hk : k ≠ 0)
    (hd : list_del h (some c) = some h1) (hr : q_release_element h1 (some c) = some h2)
    (hax2 : h2.alive x = true) :
    dupRun (fuel + 1) h (some head) (some c) (some x) true =
      dupRun fuel h2 (some head) (some x) (h2.next x) false := by
  simp [dupRun, q_delete_dup_loop, hxh, getValue_alive hac, getValue_alive hax, hs, hk, hd, hr,
    getNext_alive hax2]

theorem dupRun_ne_nodup (fuel : Nat) (h : Heap) (head c x : Ptr) (k : Int)
    (hxh : x ≠ head) (hac : h.alive c = true) (hax : h.alive x = true)
    (hs : strcmp (h.value c) (h.value x) = some k) (hk : k ≠ 0) :
    dupRun (fuel + 1) h (some head) (some c) (some x) false =
      dupRun fuel h (some head) (some x) (h.next x) false := by
  simp [dupRun, q_delete_dup_loop, hxh, getValue_alive hac, getValue_alive hax, hs, hk,
    getNext_alive hax]


theorem WF.next_mid {h : Heap} {head : Ptr} (xs ys : List Ptr) (y : Ptr)
    (hw : WF h head (xs ++ y :: ys)) : h.next y = (ys ++ [head]).head? :=
  DSeg.next_first ys y head (DSeg.split_seg hw.links).2

/-- The loop of `q_delete_dup` with its flush: from a state with candidate `c`, flag `dup` and
the elements `r` ahead, it returns `true` and leaves the elements before the candidate followed
by what the list-level pass keeps. -/
theorem dupRun_spec : ∀ (fuel : Nat) (r : List Ptr) (h : Heap) (head : Ptr) (done : List Ptr)
    (c : Ptr) (dup : Bool), WF h head (done ++ c :: r) → Strs h (c :: r) → r.length < fuel →
    ∃ h2, dupRun fuel h (some head) (some c) (h.next c) dup = some (h2, true) ∧
      WF h2 head (done ++ dedupGo (fun p => cstr (h.value p)) c dup r) ∧ h2.value = h.value
  | 0, _, _, _, _, _, _, _, _, hf => by omega
  | fuel + 1, [], h, head, done, c, dup, hw, _, _ => by
    have hn : h.next c = some head := by simpa using hw.next_mid done [] c
    rw [hn, dupRun_exit]
    cases dup with
    | false => exact ⟨h, by simp, by simpa [dedupGo] using hw, rfl⟩
    | true =>
      obtain ⟨h1, h2, hd, hr, hw2, hv, -, -⟩ := WF.delete done [] c hw
      exact ⟨h2, by simp [hd, hr], by simpa [dedupGo] using hw2, hv⟩
  | fuel + 1, x :: r, h, head, done, c, dup, hw, hst, hf => by
    have hn : h.next c = some x := by simpa using hw.next_mid done (x :: r) c
    have hxh : x ≠ head := fun e => (List.nodup_cons.1 hw.nodup).1 (by simp [e])
    have hac : h.alive c = true := hw.alive c (by simp)
    have hax : h.alive x = true := hw.alive x (by simp)
    obtain ⟨k, hk, -, hk0⟩ := strcmp_spec (h.value c) (h.value x) (hst c (by simp))
      (hst x (by simp))
    rw [hn]
    by_cases hz : k = 0
    · -- the look-ahead node is a duplicate of the candidate
      subst hz
      have hkey : cstr (h.value c) = cstr (h.value x) := hk0.1 rfl
      have hw' : WF h head ((done ++ [c]) ++ x :: r) := by simpa using hw
      obtain ⟨h1, h2, hd, hr, hw2, hv, -, -⟩ := WF.delete (done ++ [c]) r x hw'
      have hw2' : WF h2 head (done ++ c :: r) := by simpa using hw2
      obtain ⟨h3, hrun, hw3, hv3⟩ := dupRun_spec fuel r h2 head done c true hw2'
        (fun p hp => by
          rw [hv]
          exact hst p (by simp only [List.mem_cons] at hp ⊢; tauto))
        (by simp at hf ⊢; omega)
      refine ⟨h3, ?_, ?_, hv3.trans hv⟩
      · rw [dupRun_eq fuel h h1 h2 head c x dup hxh hac hax hk hd hr (hw2'.alive c (by simp))]
        exact hrun
      · rw [hv] at hw3
        simpa [dedupGo, hkey] using hw3
    · have hkey : cstr (h.value c) ≠ cstr (h.value x) := fun e => hz (hk0.2 e)
      have hst2 : Strs h (x :: r) := fun p hp => hst p (List.mem_cons_of_mem _ hp)
      cases dup with
      | true =>
        -- the candidate had duplicates: it goes too
        obtain ⟨h1, h2, hd, hr, hw2, hv, -, -⟩ := WF.delete done (x :: r) c hw
        obtain ⟨h3, hrun, hw3, hv3⟩ := dupRun_spec fuel r h2 head done x false hw2
          (fun p hp => by rw [hv]; exact hst2 p hp) (by simp at hf ⊢; omega)
        refine ⟨h3, ?_, ?_, hv3.trans hv⟩
        · rw [dupRun_ne_dup fuel h h1 h2 head c x k hxh hac hax hk hz hd hr
            (hw2.alive x (by simp))]
          exact hrun
        · rw [hv] at hw3
          simpa [dedupGo, hkey] using hw3
      | false =>
        have hw' : WF h head ((done ++ [c]) ++ x :: r) := by simpa using hw
        obtain ⟨h3, hrun, hw3, hv3⟩ := dupRun_spec fuel r h head (done ++ [c]) x false hw' hst2
          (by simp at hf ⊢; omega)
        refine ⟨h3, ?_, ?_, hv3⟩
        · rw [dupRun_ne_nodup fuel h head c x k hxh hac hax hk hz]
          exact hrun
        · simpa [dedupGo, hkey] using hw3

/-- The function `q_delete_dup` on a well-formed queue of NUL-terminated strings returns
`true` and leaves the well-formed queue of the elements the list-level pass keeps. -/
theorem q_delete_dup_spec (fuel : Nat) (h : Heap) (head : Ptr) (ps : List Ptr)
    (hw : WF h head ps) (hst : Strs h ps) (hf : ps.length < fuel) :
    ∃ h2, q_delete_dup fuel h (some head) = some (h2, true) ∧
      WF h2 head (dedup (fun p => cstr (h.value p)) ps) ∧ h2.value = h.value := by
  have hah : h.alive head = true := hw.alive head (by simp)
  cases ps with
  | nil =>
    have hn : h.next head = some head := hw.links.1
    obtain ⟨f, rfl⟩ : ∃ f, fuel = f + 1 := ⟨fuel - 1, by simp at hf; omega⟩
    refine ⟨h, ?_, by simpa [dedup] using hw, rfl⟩
    rw [q_delete_dup_eq (f + 1) h head hah head hn hah, hn, dupRun_exit]
    simp
  | cons c r =>
    have hn : h.next head = some c := hw.links.1
    obtain ⟨h2, hrun, hw2, hv⟩ := dupRun_spec fuel r h head [] c false (by simpa using hw) hst
      (by simp at hf ⊢; omega)
    refine ⟨h2, ?_, by simpa [dedup] using hw2, hv⟩
    rw [q_delete_dup_eq fuel h head hah c hn (hw.alive c (by simp))]
    exact hrun

/-! ## What the pass of `q_delete_dup` keeps on a sorted list -/

theorem countP_key_pos (k : Ptr → List Nat) (r : List Ptr) (p : Ptr) (hp : p ∈ r) :
    0 < r.countP (fun q => decide (k q = k p)) :=
  List.countP_pos_iff.2 ⟨p, hp, by simp⟩

theorem countP_key_zero (k : Ptr → List Nat) (r : List Ptr) (v : List Nat)
    (hv : ∀ q ∈ r, k q ≠ v) : r.countP (fun q => decide (k q = v)) = 0 :=
  List.countP_eq_zero.2 (fun q hq => by simpa using hv q hq)

theorem ite_cons_append (P : Prop) [Decidable P] (x : Ptr) (L : List Ptr) :
    (if P then [x] else []) ++ L = if P then x :: L else L := by
  split <;> rfl

/-- On a list sorted by key, the pass keeps the candidate unless it is flagged or its key
comes again, and keeps of the rest the nodes whose key occurs once there and is not the key of
the candidate. -/
theorem dedupGo_sorted (k : Ptr → List Nat) : ∀ (r : List Ptr) (c : Ptr) (dup : Bool),
    (c :: r).Pairwise (fun a b => lexLe (k a) (k b) = true) →
    dedupGo k c dup r =
      (if dup = true ∨ 0 < r.countP (fun q => decide (k q = k c)) then [] else [c]) ++
        r.filter (fun p => decide (k p ≠ k c ∧ r.countP (fun q => decide (k q = k p)) = 1))
  | [], c, dup, _ => by cases dup <;> simp [dedupGo]
  | x :: r, c, dup, hs => by
    have hs2 : (x :: r).Pairwise (fun a b => lexLe (k a) (k b) = true) :=
      (List.pairwise_cons.1 hs).2
    by_cases hcx : k c = k x
    · have hs3 : (c :: r).Pairwise (fun a b => lexLe (k a) (k b) = true) :=
        List.pairwise_cons.2
          ⟨fun b hb => (List.pairwise_cons.1 hs).1 b (List.mem_cons_of_mem _ hb),
            (List.pairwise_cons.1 hs2).2⟩
      have h1 : dup = true ∨ 0 < (x :: r).countP (fun q => decide (k q = k c)) := by
        right
        rw [List.countP_cons]
        simp [hcx]
      rw [dedupGo, if_pos hcx, dedupGo_sorted k r c true hs3, if_pos (Or.inl rfl), if_pos h1,
        List.filter_cons]
      have hx : decide (k x ≠ k c ∧ (x :: r).countP (fun q => decide (k q = k x)) = 1) = false := by
        simp [hcx]
      rw [hx]
      simp only [Bool.false_eq_true, if_false, List.nil_append]
      refine List.filter_congr (fun p _ => ?_)
      by_cases hp : k p = k c
      · simp [hp]
      · have : k x ≠ k p := fun e => hp (e.symm.trans hcx.symm)
        simp [hp, List.countP_cons, this]
    · -- by sortedness the key of the candidate does not come again
      have hnone : ∀ q ∈ x :: r, k q ≠ k c := by
        intro q hq e
        have h1 : lexLe (k c) (k x) = true := (List.pairwise_cons.1 hs).1 x (by simp)
        have h2 : lexLe (k x) (k c) = true := by
          rcases List.mem_cons.1 hq with e2 | m
          · rw [← e, e2]; exact lexLe_refl _
          · rw [← e]; exact (List.pairwise_cons.1 hs2).1 q m
        exact hcx (lexLe_antisymm _ _ h1 h2)
      have h0 : (x :: r).countP (fun q => decide (k q = k c)) = 0 :=
        countP_key_zero k (x :: r) (k c) hnone
      rw [dedupGo, if_neg hcx, dedupGo_sorted k r x false hs2, h0, List.filter_cons]
      have hxc : k x ≠ k c := fun e => hcx e.symm
      have e1 : (if dup = true ∨ 0 < 0 then ([] : List Ptr) else [c]) =
          (if dup = true then [] else [c]) := by simp
      have e2 : (if (false = true ∨ 0 < r.countP (fun q => decide (k q = k x))) then
          ([] : List Ptr) else [x]) =
          (if decide (k x ≠ k c ∧ (x :: r).countP (fun q => decide (k q = k x)) = 1) = true
            then [x] else []) := by
        by_cases hc0 : r.countP (fun q => decide (k q = k x)) = 0
        · simp [hc0, List.countP_cons, hxc]
        · have : 0 < r.countP (fun q => decide (k q = k x)) := Nat.pos_of_ne_zero hc0
          simp [this, List.countP_cons, hxc, hc0]
      have e3 : r.filter (fun p => decide (k p ≠ k x ∧
            r.countP (fun q => decide (k q = k p)) = 1)) =
          r.filter (fun p => decide (k p ≠ k c ∧
            (x :: r).countP (fun q => decide (k q = k p)) = 1)) := by
        refine List.filter_congr (fun p hp => ?_)
        have hpc : k p ≠ k c := hnone p (List.mem_cons_of_mem _ hp)
        have hpos := countP_key_pos k r p hp
        by_cases hpx : k p = k x
        · have hcnt : (x :: r).countP (fun q => decide (k q = k p)) =
              r.countP (fun q => decide (k q = k p)) + 1 := by
            rw [List.countP_cons]; simp [hpx]
          rw [decide_eq_false (fun hh => hh.1 hpx), decide_eq_false (fun hh => by
            have := hh.2
            omega)]
        · have : k x ≠ k p := fun e => hpx e.symm
          simp [hpx, hpc, List.countP_cons, this]
      rw [e1, e2, e3, ite_cons_append]

/-- On a list sorted by key, `q_delete_dup` keeps exactly the nodes whose key occurs once. -/
theorem dedup_sorted (k : Ptr → List Nat) (ps : List Ptr)
    (hs : ps.Pairwise (fun a b => lexLe (k a) (k b) = true)) :
    dedup k ps = ps.filter (fun p => decide (ps.countP (fun q => decide (k q = k p)) = 1)) := by
  cases ps with
  | nil => rfl
  | cons c r =>
    rw [dedup, dedupGo_sorted k r c false hs, List.filter_cons]
    have e2 : (if (false = true ∨ 0 < r.countP (fun q => decide (k q = k c))) then
        ([] : List Ptr) else [c]) =
        (if decide ((c :: r).countP (fun q => decide (k q = k c)) = 1) = true
          then [c] else []) := by
      by_cases hc0 : r.countP (fun q => decide (k q = k c)) = 0
      · simp [hc0, List.countP_cons]
      · have : 0 < r.countP (fun q => decide (k q = k c)) := Nat.pos_of_ne_zero hc0
        simp [this, List.countP_cons, hc0]
    have e3 : r.filter (fun p => decide (k p ≠ k c ∧
          r.countP (fun q => decide (k q = k p)) = 1)) =
        r.filter (fun p => decide ((c :: r).countP (fun q => decide (k q = k p)) = 1)) := by
      refine List.filter_congr (fun p hp => ?_)
      have hpos := countP_key_pos k r p hp
      by_cases hpc : k p = k c
      · have hcnt : (c :: r).countP (fun q => decide (k q = k p)) =
            r.countP (fun q => decide (k q = k p)) + 1 := by
          rw [List.countP_cons]; simp [hpc]
        rw [decide_eq_false (fun hh => hh.1 hpc), decide_eq_false (fun hh => by omega)]
      · have : k c ≠ k p := fun e => hpc e.symm
        simp [hpc, List.countP_cons, this]
    rw [e2, e3, ite_cons_append]


theorem count_map_key (f : Ptr → List Nat) (v : List Nat) : ∀ ps : List Ptr,
    (ps.map f).count v = ps.countP (fun q => decide (f q = v))
  | [] => rfl
  | p :: ps => by
    rw [List.map_cons, List.count_cons, List.countP_cons, count_map_key f v ps]
    by_cases h : f p = v <;> simp [h]

/-- C3: for every well-formed queue of NUL-terminated strings whose forward traversal is sorted
ascending, `q_delete_dup` returns `true` and leaves the well-formed queue of exactly the
elements whose string occurs exactly once in the original traversal, in their original order
(a filter of the original traversal); so every string that occurs twice or more is removed
completely, wherever its run lies. -/
theorem q_delete_dup_sorted (fuel : Nat) (h : Heap) (head : Ptr) (ps : List Ptr)
    (hw : WF h head ps) (hst : Strs h ps)
    (hsorted : (values h ps).Pairwise (fun a b => lexLe a b = true)) (hf : ps.length < fuel) :
    ∃ h2 ps2, q_delete_dup fuel h (some head) = some (h2, true) ∧ WF h2 head ps2 ∧
      forward fuel h2 head = some ps2 ∧
      ps2 = ps.filter (fun p => decide ((values h ps).count (cstr (h.value p)) = 1)) ∧
      values h2 ps2 = (values h ps).filter (fun v => decide ((values h ps).count v = 1)) := by
  obtain ⟨h2, hrun, hw2, hv⟩ := q_delete_dup_spec fuel h head ps hw hst hf
  have hs : ps.Pairwise (fun a b => lexLe (cstr (h.value a)) (cstr (h.value b)) = true) :=
    List.pairwise_map.1 hsorted
  have hd := dedup_sorted (fun p => cstr (h.value p)) ps hs
  have he : ps.filter (fun p => decide (ps.countP
        (fun q => decide (cstr (h.value q) = cstr (h.value p))) = 1)) =
      ps.filter (fun p => decide ((values h ps).count (cstr (h.value p)) = 1)) := by
    refine List.filter_congr (fun p _ => ?_)
    rw [values, count_map_key]
  rw [hd, he] at hw2
  refine ⟨h2, _, hrun, hw2, hw2.forward ?_, rfl, ?_⟩
  · exact lt_of_le_of_lt (List.length_filter_le _ _) hf
  · simp only [values, hv, List.filter_map]
    rfl

theorem q_delete_dup_sorted_witness :
    WF (queueOf [[49], [49], [50], [51], [51], [51], [52]]) 0 [1, 2, 3, 4, 5, 6, 7] ∧
    Strs (queueOf [[49], [49], [50], [51], [51], [51], [52]]) [1, 2, 3, 4, 5, 6, 7] ∧
    (values (queueOf [[49], [49], [50], [51], [51], [51], [52]]) [1, 2, 3, 4, 5, 6, 7]).Pairwise
      (fun a b => lexLe a b = true) ∧
    ∃ h2 ps2, q_delete_dup 8 (queueOf [[49], [49], [50], [51], [51], [51], [52]]) (some 0) =
        some (h2, true) ∧ WF h2 0 ps2 ∧ forward 8 h2 0 = some ps2 ∧
      ps2 = [1, 2, 3, 4, 5, 6, 7].filter (fun p => decide ((values
        (queueOf [[49], [49], [50], [51], [51], [51], [52]]) [1, 2, 3, 4, 5, 6, 7]).count
          (cstr ((queueOf [[49], [49], [50], [51], [51], [51], [52]]).value p)) = 1)) ∧
      values h2 ps2 =
        (values (queueOf [[49], [49], [50], [51], [51], [51], [52]]) [1, 2, 3, 4, 5, 6, 7]).filter
          (fun v => decide ((values (queueOf [[49], [49], [50], [51], [51], [51], [52]])
            [1, 2, 3, 4, 5, 6, 7]).count v = 1)) :=
  ⟨by decide, by decide, by decide,
    q_delete_dup_sorted 8 (queueOf [[49], [49], [50], [51], [51], [51], [52]]) 0
      [1, 2, 3, 4, 5, 6, 7] (by decide) (by decide) (by decide) (by decide)⟩

/-- The example of the specification: on the sorted queue `1 1 2 3 3 3 4` the function
`q_delete_dup` returns `true` and leaves `2 4`; on `1 2 2`, with the repeated run at the very
end, it leaves `1`. -/
theorem q_delete_dup_example :
    (q_delete_dup 8 (queueOf [[49], [49], [50], [51], [51], [51], [52]]) (some 0)).bind
        (fun r => (forward 8 r.1 0).map (fun ps => (r.2, values r.1 ps))) =
      some (true, [[50], [52]]) ∧
    (q_delete_dup 4 (queueOf [[49], [50], [50]]) (some 0)).bind
        (fun r => (forward 4 r.1 0).map (fun ps => (r.2, values r.1 ps))) =
      some (true, [[49]]) := by
  decide

/-! ## Deleting the middle element -/

theorem split_at_getElem : ∀ (l : List Ptr) (i : Nat) (y : Ptr), l[i]? = some y →
    l = l.take i ++ y :: l.drop (i + 1)
  | [], _, _, h => by simp at h
  | x :: xs, 0, y, h => by
    have : x = y := by simpa using h
    simp [this]
  | x :: xs, i + 1, y, h => by
    have h2 : xs[i]? = some y := by simpa using h
    have := split_at_getElem xs i y h2
    simp only [List.take_succ_cons, List.drop_succ_cons, List.cons_append]
    rw [← this]

theorem Chain.next_getElem {nx : Ptr → Option Ptr} :
    ∀ (l : List Ptr) (a : Ptr) (q : Option Ptr) (i : Nat) (t y : Ptr),
      Chain nx (nx a) l q → (a :: l)[i]? = some t → l[i]? = some y → nx t = some y
  | [], _, _, _, _, _, _, _, hy => by simp at hy
  | x :: xs, a, q, 0, t, y, hc, ht, hy => by
    have e1 : a = t := by simpa using ht
    have e2 : x = y := by simpa using hy
    rw [← e1, ← e2]
    exact hc.1
  | x :: xs, a, q, i + 1, t, y, hc, ht, hy => by
    have ht2 : (x :: xs)[i]? = some t := by simpa using ht
    have hy2 : xs[i]? = some y := by simpa using hy
    exact Chain.next_getElem xs x q i t y hc.2 ht2 hy2

/-- The loop of `q_delete_mid` stops with `indir_slow` on the `next` field of the node of index
`⌊|f| / 2⌋` of the sequence it started in, `f` being the elements from `fast` on. -/
theorem q_delete_mid_loop_spec {h : Heap} {head : Ptr} : ∀ (fuel : Nat) (f l : List Ptr)
    (s : Ptr) (fast : Option Ptr), Chain h.next (h.next s) l (some head) →
    Chain h.next fast f (some head) → head ∉ f → (∀ x ∈ s :: l, h.alive x = true) →
    (∀ x ∈ f, h.alive x = true) → f.length / 2 ≤ l.length → f.length < fuel →
    ∃ t, (s :: l)[f.length / 2]? = some t ∧
      q_delete_mid_loop fuel h (some head) (Loc.nextOf (some s)) fast =
        some (Loc.nextOf (some t))
  | 0, _, _, _, _, _, _, _, _, _, _, hf => by omega
  | fuel + 1, [], l, s, fast, _, c2, _, _, _, _, _ => by
    have : fast = some head := c2
    subst this
    exact ⟨s, by simp, by simp [q_delete_mid_loop]⟩
  | fuel + 1, [x], l, s, fast, _, c2, hh, _, ha2, _, _ => by
    have e : fast = some x := c2.1
    have e2 : h.next x = some head := c2.2
    have hx : head ≠ x := fun e => hh (by simp [e])
    subst e
    refine ⟨s, by simp, ?_⟩
    simp [q_delete_mid_loop, hx, getNext_alive (ha2 x (by simp)), e2]
  | fuel + 1, x :: y :: f, [], s, fast, _, _, _, _, _, hl, _ => by
    simp at hl
    omega
  | fuel + 1, x :: y :: f, s2 :: l, s, fast, c1, c2, hh, ha1, ha2, hl, hf => by
    have e : fast = some x := c2.1
    have e2 : h.next x = some y := c2.2.1
    have e3 : h.next s = some s2 := c1.1
    have hx : head ≠ x := fun e => hh (by simp [e])
    have hy : head ≠ y := fun e => hh (by simp [e])
    subst e
    obtain ⟨t, ht, hrun⟩ := q_delete_mid_loop_spec fuel f l s2 (h.next y) c1.2 c2.2.2
      (fun m => hh (by simp [m])) (fun z hz => ha1 z (List.mem_cons_of_mem _ hz))
      (fun z hz => ha2 z (by simp only [List.mem_cons] at hz ⊢; tauto))
      (by simp at hl ⊢; omega) (by simp at hf ⊢; omega)
    refine ⟨t, ?_, ?_⟩
    · have : (x :: y :: f).length / 2 = f.length / 2 + 1 := by simp; omega
      rw [this, List.getElem?_cons_succ]
      exact ht
    · simp [q_delete_mid_loop, hx, hy, getNext_alive (ha2 x (by simp)), e2, loadLoc,
        getNext_alive (ha1 s (by simp)), e3, getNext_alive (ha2 y (by simp)), hrun]

/-- C4: for every well-formed queue with `n >= 1` elements `q_delete_mid` returns `true`,
unlinks and frees exactly the element of zero-based index `⌊n / 2⌋` of the forward traversal,
and leaves the well-formed queue of the other `n - 1` elements in their original order, their
strings untouched. -/
theorem q_delete_mid_spec (fuel : Nat) (h : Heap) (head : Ptr) (ps : List Ptr)
    (hw : WF h head ps) (hne : ps ≠ []) (hf : ps.length < fuel) :
    ∃ h2 y, q_delete_mid fuel h (some head) = some (h2, true) ∧
      ps[ps.length / 2]? = some y ∧ WF h2 head (ps.eraseIdx (ps.length / 2)) ∧
      forward fuel h2 head = some (ps.eraseIdx (ps.length / 2)) ∧
      (ps.eraseIdx (ps.length / 2)).length = ps.length - 1 ∧
      h2.alive y = false ∧ h2.value = h.value := by
  have hah : h.alive head = true := hw.alive head (by simp)
  have hhd : head ∉ ps := (List.nodup_cons.1 hw.nodup).1
  have hlen : 0 < ps.length := List.length_pos.2 hne
  have hi : ps.length / 2 < ps.length := Nat.div_lt_self hlen (by omega)
  obtain ⟨t, ht, hloop⟩ := @q_delete_mid_loop_spec h head fuel ps ps head
    (h.next head) hw.links.chain hw.links.chain hhd hw.alive
    (fun x hx => hw.alive x (List.mem_cons_of_mem _ hx)) (by omega) hf
  obtain ⟨y, hy⟩ : ∃ y, ps[ps.length / 2]? = some y :=
    ⟨ps[ps.length / 2], List.getElem?_eq_getElem hi⟩
  have hnt : h.next t = some y := Chain.next_getElem ps head _ _ t y hw.links.chain ht hy
  have hat : h.alive t = true := hw.alive t (List.getElem?_mem ht)
  have hsplit := split_at_getElem ps _ y hy
  have hw' : WF h head (ps.take (ps.length / 2) ++ y :: ps.drop (ps.length / 2 + 1)) := by
    rw [← hsplit]; exact hw
  obtain ⟨h1, h2, hd, hr, hw2, hv, ha, -⟩ := WF.delete _ _ y hw'
  rw [← List.eraseIdx_eq_take_drop_succ] at hw2
  have hl2 : (ps.eraseIdx (ps.length / 2)).length = ps.length - 1 :=
    by rw [List.length_eraseIdx, if_pos hi]
  refine ⟨h2, y, ?_, hy, hw2, hw2.forward (by omega), hl2, by simp [ha], hv⟩
  simp [q_delete_mid, hw.empty_test, hne, getNext_alive hah, hloop, loadLoc, getNext_alive hat,
    hnt, hd, hr]

theorem q_delete_mid_spec_witness :
    WF (queueOf [[49], [50], [51], [52], [53], [54]]) 0 [1, 2, 3, 4, 5, 6] ∧
    [1, 2, 3, 4, 5, 6] ≠ ([] : List Ptr) ∧
    ∃ h2 y, q_delete_mid 7 (queueOf [[49], [50], [51], [52], [53], [54]]) (some 0) =
        some (h2, true) ∧
      [1, 2, 3, 4, 5, 6][[1, 2, 3, 4, 5, 6].length / 2]? = some y ∧
      WF h2 0 ([1, 2, 3, 4, 5, 6].eraseIdx ([1, 2, 3, 4, 5, 6].length / 2)) ∧
      forward 7 h2 0 = some ([1, 2, 3, 4, 5, 6].eraseIdx ([1, 2, 3, 4, 5, 6].length / 2)) ∧
      ([1, 2, 3, 4, 5, 6].eraseIdx ([1, 2, 3, 4, 5, 6].length / 2)).length =
        [1, 2, 3, 4, 5, 6].length - 1 ∧
      h2.alive y = false ∧ h2.value = (queueOf [[49], [50], [51], [52], [53], [54]]).value :=
  ⟨by decide, by decide,
    q_delete_mid_spec 7 (queueOf [[49], [50], [51], [52], [53], [54]]) 0 [1, 2, 3, 4, 5, 6]
      (by decide) (by decide) (by decide)⟩

/-- The example of the specification: on `1 2 3 4 5 6` the function `q_delete_mid` returns
`true` and removes the element of index 3, leaving the five elements `1 2 3 5 6`. -/
theorem q_delete_mid_example :
    (q_delete_mid 7 (queueOf [[49], [50], [51], [52], [53], [54]]) (some 0)).bind
        (fun r => (forward 7 r.1 0).map (fun ps => (r.2, values r.1 ps))) =
      some (true, [[49], [50], [51], [53], [54]]) := by
  decide

/-! ## Swapping adjacent pairs -/

@[simp] theorem Heap.setN_next (h : Heap) (p : Ptr) (v : Option Ptr) :
    (h.setN p v).next = Function.update h.next p v := rfl

@[simp] theorem Heap.setN_prev (h : Heap) (p : Ptr) (v : Option Ptr) :
    (h.setN p v).prev = h.prev := rfl

@[simp] theorem Heap.setN_alive (h : Heap) (p : Ptr) (v : Option Ptr) :
    (h.setN p v).alive = h.alive := rfl

@[simp] theorem Heap.setN_value (h : Heap) (p : Ptr) (v : Option Ptr) :
    (h.setN p v).value = h.value := rfl

@[simp] theorem Heap.setP_next (h : Heap) (p : Ptr) (v : Option Ptr) :
    (h.setP p v).next = h.next := rfl

@[simp] theorem Heap.setP_prev (h : Heap) (p : Ptr) (v : Option Ptr) :
    (h.setP p v).prev = Function.update h.prev p v := rfl

@[simp] theorem Heap.setP_alive (h : Heap) (p : Ptr) (v : Option Ptr) :
    (h.setP p v).alive = h.alive := rfl

@[simp] theorem Heap.setP_value (h : Heap) (p : Ptr) (v : Option Ptr) :
    (h.setP p v).value = h.value := rfl

theorem setNext_setN {h : Heap} {p : Ptr} (v : Option Ptr) (ha : h.alive p = true) :
    setNext h (some p) v = some (h.setN p v) := setNext_alive v ha

theorem setPrev_setP {h : Heap} {p : Ptr} (v : Option Ptr) (ha : h.alive p = true) :
    setPrev h (some p) v = some (h.setP p v) := setPrev_alive v ha

theorem getNext2_eq (g : Heap) (p x : Ptr) (hp : g.alive p = true) (hx : g.alive x = true)
    (n1 : g.next p = some x) : getNext2 g (some p) = some (g.next x) := by
  simp [getNext2, getNext_alive hp, n1, getNext_alive hx]

theorem getNext3_eq (g : Heap) (p x y : Ptr) (hp : g.alive p = true) (hx : g.alive x = true)
    (hy : g.alive y = true) (n1 : g.next p = some x) (n2 : g.next x = some y) :
    getNext3 g (some p) = some (g.next y) := by
  simp [getNext3, getNext2_eq g p x hp hx n1, n2, getNext_alive hy]

theorem q_swap_s1_eq (g : Heap) (p x y : Ptr) (hp : g.alive p = true) (hx : g.alive x = true)
    (hy : g.alive y = true) (n1 : g.next p = some x) (n2 : g.next x = some y) :
    q_swap_s1 g (some p) = some (g.setN y (some x)) := by
  simp [q_swap_s1, getNext2_eq g p x hp hx n1, n2, getNext_alive hp, n1, setNext_setN _ hy]

theorem q_swap_s2_eq (g : Heap) (p x y : Ptr) (hp : g.alive p = true) (hx : g.alive x = true)
    (n1 : g.next p = some x) (n2 : g.next x = some y) :
    q_swap_s2 g (some p) = some (g.setN p (some y)) := by
  simp [q_swap_s2, getNext2_eq g p x hp hx n1, n2, setNext_setN _ hp]

theorem q_swap_s3_eq (g : Heap) (p x y : Ptr) (tmp : Option Ptr) (hp : g.alive p = true)
    (hx : g.alive x = true) (hy : g.alive y = true) (n1 : g.next p = some x)
    (n2 : g.next x = some y) :
    q_swap_s3 g (some p) tmp = some (g.setN y tmp) := by
  simp [q_swap_s3, getNext2_eq g p x hp hx n1, n2, setNext_setN _ hy]

theorem q_swap_s4_eq (g : Heap) (p x y z : Ptr) (hp : g.alive p = true) (hx : g.alive x = true)
    (hy : g.alive y = true) (hz : g.alive z = true) (n1 : g.next p = some x)
    (n2 : g.next x = some y) (n3 : g.next y = some z) :
    q_swap_s4 g (some p) = some (g.setP z (some y)) := by
  simp [q_swap_s4, getNext3_eq g p x y hp hx hy n1 n2, n3, getNext2_eq g p x hp hx n1, n2,
    setPrev_setP _ hz]

theorem q_swap_s5_eq (g : Heap) (p x y : Ptr) (hp : g.alive p = true) (hx : g.alive x = true)
    (hy : g.alive y = true) (n1 : g.next p = some x) (n2 : g.next x = some y) :
    q_swap_s5 g (some p) = some (g.setP y (some x)) := by
  simp [q_swap_s5, getNext2_eq g p x hp hx n1, n2, getNext_alive hp, n1, setPrev_setP _ hy]

theorem q_swap_s6_eq (g : Heap) (p x : Ptr) (hp : g.alive p = true) (hx : g.alive x = true)
    (n1 : g.next p = some x) :
    q_swap_s6 g (some p) = some (g.setP x (some p)) := by
  simp [q_swap_s6, getNext_alive hp, n1, setPrev_setP _ hx]

/-- One pass of the body of the loop of `q_swap` on `pre -> a -> b -> c`: the six stores. -/
theorem q_swap_body_eq (h : Heap) (pre a b c : Ptr) (hap : h.alive pre = true)
    (haa : h.alive a = true) (hab : h.alive b = true) (hac : h.alive c = true)
    (n1 : h.next pre = some a) (n2 : h.next a = some b) (n3 : h.next b = some c)
    (d1 : pre ≠ a) (d2 : pre ≠ b) (d3 : a ≠ b) :
    q_swap_body h (some pre) =
      some ((((((h.setN b (some a)).setN pre (some b)).setN a (some c)).setP c (some a)).setP a
        (some b)).setP b (some pre), some a) := by
  have e0 := getNext3_eq h pre a b hap haa hab n1 n2
  have e1 := q_swap_s1_eq h pre a b hap haa hab n1 n2
  have e2 := q_swap_s2_eq (h.setN b (some a)) pre a b hap haa
    (by simp [Function.update_noteq d2, n1]) (by simp [Function.update_noteq d3, n2])
  have e3 := q_swap_s3_eq ((h.setN b (some a)).setN pre (some b)) pre b a (some c) hap hab haa
    (by simp) (by simp [Function.update_noteq (Ne.symm d2)])
  have e4 := q_swap_s4_eq (((h.setN b (some a)).setN pre (some b)).setN a (some c)) pre b a c
    hap hab haa hac (by simp [Function.update_noteq d1])
    (by simp [Function.update_noteq (Ne.symm d3), Function.update_noteq (Ne.symm d2)])
    (by simp)
  have e5 := q_swap_s5_eq ((((h.setN b (some a)).setN pre (some b)).setN a (some c)).setP c
    (some a)) pre b a hap hab haa (by simp [Function.update_noteq d1])
    (by simp [Function.update_noteq (Ne.symm d3), Function.update_noteq (Ne.symm d2)])
  have e6 := q_swap_s6_eq (((((h.setN b (some a)).setN pre (some b)).setN a (some c)).setP c
    (some a)).setP a (some b)) pre b hap hab (by simp [Function.update_noteq d1])
  have e7 := getNext2_eq ((((((h.setN b (some a)).setN pre (some b)).setN a (some c)).setP c
    (some a)).setP a (some b)).setP b (some pre)) pre b hap hab
    (by simp [Function.update_noteq d1])
  simp only [q_swap_body, e0, n3, e1, e2, e3, e4, e5, e6, e7, Option.bind_eq_bind,
    Option.some_bind]
  simp [Function.update_noteq (Ne.symm d3), Function.update_noteq (Ne.symm d2)]


theorem q_swap_loop_exit1 (fuel : Nat) (h : Heap) (head pre : Ptr) (hap : h.alive pre = true)
    (n1 : h.next pre = some head) :
    q_swap_loop (fuel + 1) h (some head) (some pre) = some h := by
  simp [q_swap_loop, getNext_alive hap, n1]

theorem q_swap_loop_exit2 (fuel : Nat) (h : Heap) (head pre a : Ptr) (hap : h.alive pre = true)
    (haa : h.alive a = true) (n1 : h.next pre = some a) (n2 : h.next a = some head) :
    q_swap_loop (fuel + 1) h (some head) (some pre) = some h := by
  simp [q_swap_loop, getNext_alive hap, n1, getNext_alive haa, n2]

theorem q_swap_loop_step (fuel : Nat) (h h1 : Heap) (head pre a b : Ptr) (p1 : Option Ptr)
    (hap : h.alive pre = true) (haa : h.alive a = true) (n1 : h.next pre = some a)
    (n2 : h.next a = some b) (hah : a ≠ head) (hbh : b ≠ head)
    (hb : q_swap_body h (some pre) = some (h1, p1)) :
    q_swap_loop (fuel + 1) h (some head) (some pre) = q_swap_loop fuel h1 (some head) p1 := by
  simp [q_swap_loop, getNext_alive hap, n1, getNext_alive haa, n2, hah, hbh, hb]

/-- The loop of `q_swap`, started on the node `pre` in front of the elements `l`, returns and
leaves the pairs of `l` exchanged, writing no field outside the segment. -/
theorem q_swap_loop_spec : ∀ (fuel : Nat) (l : List Ptr) (h : Heap) (head pre : Ptr),
    DSeg h.next h.prev pre l head → (∀ x ∈ pre :: l, h.alive x = true) →
    h.alive head = true → (pre :: l).Nodup → head ∉ l → l.length < fuel →
    ∃ h2, q_swap_loop fuel h (some head) (some pre) = some h2 ∧
      DSeg h2.next h2.prev pre (swapPairs l) head ∧ h2.alive = h.alive ∧ h2.value = h.value ∧
      (∀ q, q ∉ pre :: l → h2.next q = h.next q) ∧
      (∀ q, q ∉ l ++ [head] → h2.prev q = h.prev q)
  | 0, _, _, _, _, _, _, _, _, _, hf => by omega
  | fuel + 1, [], h, head, pre, hd, hal, _, _, _, _ =>
    ⟨h, q_swap_loop_exit1 fuel h head pre (hal pre (by simp)) hd.1, hd, rfl, rfl,
      fun _ _ => rfl, fun _ _ => rfl⟩
  | fuel + 1, [a], h, head, pre, hd, hal, _, _, _, _ =>
    ⟨h, q_swap_loop_exit2 fuel h head pre a (hal pre (by simp)) (hal a (by simp)) hd.1
      hd.2.2.1, hd, rfl, rfl, fun _ _ => rfl, fun _ _ => rfl⟩
  | fuel + 1, a :: b :: rest, h, head, pre, hd, hal, hah, hnd, hh, hf => by
    have hap : h.alive pre = true := hal pre (by simp)
    have haa : h.alive a = true := hal a (by simp)
    have hab : h.alive b = true := hal b (by simp)
    have n1 : h.next pre = some a := hd.1
    have n2 : h.next a = some b := hd.2.2.1
    have p1 : h.prev a = some pre := hd.2.1
    have p2 : h.prev b = some a := hd.2.2.2.1
    have hdb : DSeg h.next h.prev b rest head := hd.2.2.2.2
    have hne : a ≠ head := fun e => hh (by simp [e])
    have hbe : b ≠ head := fun e => hh (by simp [e])
    -- distinctness
    have hnd' := hnd
    simp only [List.nodup_cons, List.mem_cons, not_or] at hnd'
    obtain ⟨⟨d1, d2, hpr⟩, ⟨d3, har⟩, hbr, hrnd⟩ := hnd'
    have hhr : head ∉ rest := fun m => hh (by simp [m])
    -- the node after the pair
    obtain ⟨c, n3, hcm⟩ : ∃ c, h.next b = some c ∧ c ∈ rest ++ [head] := by
      have := DSeg.next_first rest b head hdb
      cases rest with
      | nil => exact ⟨head, by simpa using this, by simp⟩
      | cons c r => exact ⟨c, by simpa using this, by simp⟩
    have hac : h.alive c = true := by
      rcases List.mem_append.1 hcm with m | m
      · exact hal c (by simp [m])
      · have : c = head := by simpa using m
        rw [this]; exact hah
    have hca : c ≠ a := fun e => by
      rcases List.mem_append.1 hcm with m | m
      · exact har (e ▸ m)
      · exact hne (e.symm.trans (by simpa using m))
    have hcb : c ≠ b := fun e => by
      rcases List.mem_append.1 hcm with m | m
      · exact hbr (e ▸ m)
      · exact hbe (e.symm.trans (by simpa using m))
    have hbody := q_swap_body_eq h pre a b c hap haa hab hac n1 n2 n3 d1 d2 d3
    generalize hh1 : (((((h.setN b (some a)).setN pre (some b)).setN a (some c)).setP c
      (some a)).setP a (some b)).setP b (some pre) = h1 at hbody
    have h1n : h1.next = Function.update (Function.update (Function.update h.next b (some a))
        pre (some b)) a (some c) := by rw [← hh1]; rfl
    have h1p : h1.prev = Function.update (Function.update (Function.update h.prev c (some a))
        a (some b)) b (some pre) := by rw [← hh1]; rfl
    have h1a : h1.alive = h.alive := by rw [← hh1]; rfl
    have h1v : h1.value = h.value := by rw [← hh1]; rfl
    -- the segment after the pair, now entered from `a`
    have hd1 : DSeg h1.next h1.prev a rest head := by
      cases rest with
      | nil =>
        have hc : c = head := by simpa using hcm
        subst hc
        exact ⟨by rw [h1n]; simp, by
          rw [h1p, Function.update_noteq (Ne.symm hbe), Function.update_noteq (Ne.symm hne)]
          simp⟩
      | cons c2 r =>
        have hc : c2 = c := by
          have := hdb.1
          rw [n3] at this
          exact (Option.some.inj this).symm
        subst hc
        have hc2r : c2 ∉ r := (List.nodup_cons.1 hrnd).1
        refine ⟨by rw [h1n]; simp, by
          rw [h1p, Function.update_noteq hcb, Function.update_noteq hca]
          simp, ?_⟩
        refine DSeg.congr_seg (fun z hz => ?_) (fun z hz => ?_) hdb.2.2
        · have z1 : z ≠ a := fun e => har (e ▸ hz)
          have z2 : z ≠ pre := fun e => hpr (e ▸ hz)
          have z3 : z ≠ b := fun e => hbr (e ▸ hz)
          rw [h1n, Function.update_noteq z1, Function.update_noteq z2, Function.update_noteq z3]
        · have zm : z ∈ r ∨ z = head := by simpa using hz
          have z1 : z ≠ b := fun e => by
            rcases zm with m | m
            · exact hbr (e ▸ List.mem_cons_of_mem _ m)
            · exact hbe (e.symm.trans m)
          have z2 : z ≠ a := fun e => by
            rcases zm with m | m
            · exact har (e ▸ List.mem_cons_of_mem _ m)
            · exact hne (e.symm.trans m)
          have z3 : z ≠ c2 := fun e => by
            rcases zm with m | m
            · exact hc2r (e ▸ m)
            · exact hhr (by rw [← m, e]; simp)
          rw [h1p, Function.update_noteq z1, Function.update_noteq z2, Function.update_noteq z3]
    obtain ⟨h2, hrun, hd2, h2a, h2v, h2n, h2p⟩ :=
      q_swap_loop_spec fuel rest h1 head a hd1
        (fun z hz => by rw [h1a]; exact hal z (by simp only [List.mem_cons] at hz ⊢; tauto))
        (by rw [h1a]; exact hah) (List.nodup_cons.2 ⟨har, hrnd⟩) hhr (by simp at hf ⊢; omega)
    refine ⟨h2, ?_, ?_, h2a.trans h1a, h2v.trans h1v, ?_, ?_⟩
    · rw [q_swap_loop_step fuel h h1 head pre a b (some a) hap haa n1 n2 hne hbe hbody]
      exact hrun
    · have hpa : pre ∉ a :: rest := by simp [d1, hpr]
      have hba : b ∉ a :: rest := by simp [Ne.symm d3, hbr]
      have hbr2 : b ∉ rest ++ [head] := by simp [hbr, hbe]
      have har2 : a ∉ rest ++ [head] := by simp [har, hne]
      refine ⟨?_, ?_, ?_, ?_, hd2⟩
      · rw [h2n pre hpa, h1n, Function.update_noteq d1]; simp
      · rw [h2p b hbr2, h1p]; simp
      · rw [h2n b hba, h1n, Function.update_noteq (Ne.symm d3),
          Function.update_noteq (Ne.symm d2)]; simp
      · rw [h2p a har2, h1p, Function.update_noteq d3]; simp
    · intro q hq
      simp only [List.mem_cons, not_or] at hq
      obtain ⟨q1, q2, q3, q4⟩ := hq
      rw [h2n q (by simp [q2, q4]), h1n, Function.update_noteq q2, Function.update_noteq q1,
        Function.update_noteq q3]
    · intro q hq
      simp only [List.cons_append, List.mem_cons, List.mem_append, List.not_mem_nil, or_false,
        not_or] at hq
      obtain ⟨q1, q2, q3, q4⟩ := hq
      have q5 : q ≠ c := fun e => by
        rcases List.mem_append.1 hcm with m | m
        · exact q3 (e ▸ m)
        · exact q4 (e.trans (by simpa using m))
      rw [h2p q (by simp [q3, q4]), h1p, Function.update_noteq q2, Function.update_noteq q1,
        Function.update_noteq q5]


theorem swapPairs_perm : ∀ l : List Ptr, (swapPairs l).Perm l
  | [] => List.Perm.refl _
  | [_] => List.Perm.refl _
  | a :: b :: rest => by
    rw [swapPairs]
    exact ((swapPairs_perm rest).cons a |>.cons b).trans (List.Perm.swap a b rest)

theorem swapPairs_length : ∀ l : List Ptr, (swapPairs l).length = l.length
  | [] => rfl
  | [_] => rfl
  | a :: b :: rest => by simp [swapPairs, swapPairs_length rest]

theorem swapPairs_pair : ∀ (l : List Ptr) (k : Nat), 2 * k + 1 < l.length →
    (swapPairs l)[2 * k]? = l[2 * k + 1]? ∧ (swapPairs l)[2 * k + 1]? = l[2 * k]?
  | [], _, hk => by simp at hk
  | [_], _, hk => by simp at hk
  | a :: b :: rest, 0, _ => by simp [swapPairs]
  | a :: b :: rest, k + 1, hk => by
    have ih := swapPairs_pair rest k (by simp at hk; omega)
    have e1 : 2 * (k + 1) = (2 * k + 1) + 1 := by omega
    have e2 : 2 * (k + 1) + 1 = ((2 * k + 1) + 1) + 1 := by omega
    rw [swapPairs, e2, e1]
    simp only [List.getElem?_cons_succ]
    exact ih

theorem swapPairs_last : ∀ l : List Ptr, l.length % 2 = 1 →
    (swapPairs l)[l.length - 1]? = l[l.length - 1]?
  | [], h => by simp at h
  | [_], _ => rfl
  | a :: b :: rest, h => by
    have hr : rest.length % 2 = 1 := by simp at h; omega
    have ih := swapPairs_last rest hr
    have hpos : 0 < rest.length := by omega
    have e : (a :: b :: rest).length - 1 = ((rest.length - 1) + 1) + 1 := by simp; omega
    rw [swapPairs, e]
    simp only [List.getElem?_cons_succ]
    exact ih

theorem swapPairs_short : ∀ l : List Ptr, l.length ≤ 1 → swapPairs l = l
  | [], _ => rfl
  | [_], _ => rfl
  | _ :: _ :: _, h => by simp at h

/-- C5: for every well-formed queue `q_swap` returns, and afterwards the queue is well formed
with forward traversal `a1 a0 a3 a2 ...`: for every `k` with `2k + 1 < n` the elements at
positions `2k` and `2k + 1` are exchanged, with an odd `n` the last element stays in place, and
a queue of `0` or `1` elements is unchanged.  The nodes are relinked, their strings
untouched. -/
theorem q_swap_spec (fuel : Nat) (h : Heap) (head : Ptr) (ps : List Ptr) (hw : WF h head ps)
    (hf : ps.length < fuel) :
    ∃ h2 ps2, q_swap fuel h (some head) = some h2 ∧ WF h2 head ps2 ∧
      forward fuel h2 head = some ps2 ∧ h2.value = h.value ∧ ps2 = swapPairs ps ∧
      ps2.length = ps.length ∧
      (∀ k, 2 * k + 1 < ps.length → ps2[2 * k]? = ps[2 * k + 1]? ∧ ps2[2 * k + 1]? = ps[2 * k]?) ∧
      (ps.length % 2 = 1 → ps2[ps.length - 1]? = ps[ps.length - 1]?) ∧
      (ps.length ≤ 1 → ps2 = ps) := by
  have hah : h.alive head = true := hw.alive head (by simp)
  have hhd : head ∉ ps := (List.nodup_cons.1 hw.nodup).1
  have key : ∃ h2, q_swap fuel h (some head) = some h2 ∧ WF h2 head (swapPairs ps) ∧
      h2.value = h.value := by
    by_cases hne : ps = []
    · subst hne
      exact ⟨h, by simp [q_swap, hw.empty_test], hw, rfl⟩
    · obtain ⟨h2, hrun, hd2, h2a, h2v, -, -⟩ :=
        q_swap_loop_spec fuel ps h head head hw.links hw.alive hah hw.nodup hhd hf
      refine ⟨h2, by simp [q_swap, hw.empty_test, hne, hrun], ⟨?_, ?_, hd2⟩, h2v⟩
      · exact ((swapPairs_perm ps).cons head).nodup_iff.2 hw.nodup
      · intro x hx
        rw [h2a]
        exact hw.alive x (((swapPairs_perm ps).cons head).mem_iff.1 hx)
  obtain ⟨h2, hrun, hw2, hv⟩ := key
  exact ⟨h2, swapPairs ps, hrun, hw2, hw2.forward (by rw [swapPairs_length]; exact hf), hv, rfl,
    swapPairs_length ps, swapPairs_pair ps, swapPairs_last ps, swapPairs_short ps⟩

theorem q_swap_spec_witness :
    WF (queueOf [[49], [50], [51], [52], [53]]) 0 [1, 2, 3, 4, 5] ∧
    ∃ h2 ps2, q_swap 6 (queueOf [[49], [50], [51], [52], [53]]) (some 0) = some h2 ∧
      WF h2 0 ps2 ∧ forward 6 h2 0 = some ps2 ∧
      h2.value = (queueOf [[49], [50], [51], [52], [53]]).value ∧
      ps2 = swapPairs [1, 2, 3, 4, 5] ∧ ps2.length = [1, 2, 3, 4, 5].length ∧
      (∀ k, 2 * k + 1 < [1, 2, 3, 4, 5].length →
        ps2[2 * k]? = [1, 2, 3, 4, 5][2 * k + 1]? ∧ ps2[2 * k + 1]? = [1, 2, 3, 4, 5][2 * k]?) ∧
      ([1, 2, 3, 4, 5].length % 2 = 1 →
        ps2[[1, 2, 3, 4, 5].length - 1]? = [1, 2, 3, 4, 5][[1, 2, 3, 4, 5].length - 1]?) ∧
      ([1, 2, 3, 4, 5].length ≤ 1 → ps2 = [1, 2, 3, 4, 5]) :=
  ⟨by decide, q_swap_spec 6 (queueOf [[49], [50], [51], [52], [53]]) 0 [1, 2, 3, 4, 5]
    (by decide) (by decide)⟩

/-- The example of the specification: `q_swap` turns `1 2 3 4 5` into `2 1 4 3 5`, forwards,
and into its mirror image backwards. -/
theorem q_swap_example :
    (q_swap 6 (queueOf [[49], [50], [51], [52], [53]]) (some 0)).bind
        (fun r => (forward 6 r 0).bind (fun ps => (backward 6 r 0).map
          (fun qs => (values r ps, values r qs)))) =
      some ([[50], [49], [52], [51], [53]], [[53], [51], [52], [49], [50]]) := by
  decide

/-! ## Reversing -/

theorem q_reverse_flip_eq {h : Heap} {p : Ptr} (ha : h.alive p = true) :
    q_reverse_flip h (some p) = some (h.flip p) := by
  simp [q_reverse_flip, getNext_alive ha, getPrev_alive ha, setNext_setN _ ha, Heap.flip,
    setPrev_setP (h := h.setN p (h.prev p)) _ ha]

theorem flipAll_alive : ∀ (l : List Ptr) (h : Heap), (flipAll h l).alive = h.alive
  | [], _ => rfl
  | x :: xs, h => by rw [flipAll, flipAll_alive xs]; rfl

theorem flipAll_value : ∀ (l : List Ptr) (h : Heap), (flipAll h l).value = h.value
  | [], _ => rfl
  | x :: xs, h => by rw [flipAll, flipAll_value xs]; rfl

theorem flipAll_past : ∀ (l : List Ptr) (h : Heap), (flipAll h l).past = h.past
  | [], _ => rfl
  | x :: xs, h => by rw [flipAll, flipAll_past xs]; rfl

theorem flipAll_next : ∀ (l : List Ptr) (h : Heap) (q : Ptr), l.Nodup →
    (flipAll h l).next q = if q ∈ l then h.prev q else h.next q
  | [], _, _, _ => by simp [flipAll]
  | x :: xs, h, q, hnd => by
    have hx : x ∉ xs := (List.nodup_cons.1 hnd).1
    rw [flipAll, flipAll_next xs (h.flip x) q (List.nodup_cons.1 hnd).2]
    by_cases hq : q = x
    · subst hq
      simp [hx, Heap.flip]
    · by_cases hm : q ∈ xs
      · simp [hm, hq, Heap.flip, Function.update_noteq hq]
      · simp [hm, hq, Heap.flip, Function.update_noteq hq]

theorem flipAll_prev : ∀ (l : List Ptr) (h : Heap) (q : Ptr), l.Nodup →
    (flipAll h l).prev q = if q ∈ l then h.next q else h.prev q
  | [], _, _, _ => by simp [flipAll]
  | x :: xs, h, q, hnd => by
    have hx : x ∉ xs := (List.nodup_cons.1 hnd).1
    rw [flipAll, flipAll_prev xs (h.flip x) q (List.nodup_cons.1 hnd).2]
    by_cases hq : q = x
    · subst hq
      simp [hx, Heap.flip]
    · by_cases hm : q ∈ xs
      · simp [hm, hq, Heap.flip, Function.update_noteq hq]
      · simp [hm, hq, Heap.flip, Function.update_noteq hq]

/-- The loop of `q_reverse` exchanges the two fields of every element and stops on the
sentinel. -/
theorem q_reverse_loop_spec {head : Ptr} : ∀ (fuel : Nat) (l : List Ptr) (h : Heap)
    (ptr : Option Ptr), Chain h.next ptr l (some head) → head ∉ l → l.Nodup →
    (∀ x ∈ l, h.alive x = true) → l.length < fuel →
    q_reverse_loop fuel h (some head) ptr = some (flipAll h l, some head)
  | 0, _, _, _, _, _, _, _, hf => by omega
  | fuel + 1, [], h, ptr, hc, _, _, _, _ => by
    have : ptr = some head := hc
    simp [q_reverse_loop, this, flipAll]
  | fuel + 1, x :: xs, h, ptr, hc, hh, hnd, hal, hf => by
    have e : ptr = some x := hc.1
    have hxh : x ≠ head := fun e => hh (by simp [e])
    have hx : x ∉ xs := (List.nodup_cons.1 hnd).1
    have hax : h.alive x = true := hal x (by simp)
    have ih := q_reverse_loop_spec fuel xs (h.flip x) (h.next x)
      (Chain.congr_chain (fun z hz => by
        have : z ≠ x := fun e => hx (e ▸ hz)
        simp [Heap.flip, Function.update_noteq this]) hc.2)
      (fun m => hh (List.mem_cons_of_mem _ m)) (List.nodup_cons.1 hnd).2
      (fun z hz => hal z (List.mem_cons_of_mem _ hz)) (by simp at hf ⊢; omega)
    have hp : getPrev (h.flip x) (some x) = some (h.next x) := by
      rw [getPrev_alive (show (h.flip x).alive x = true from hax)]
      simp [Heap.flip]
    subst e
    simp [q_reverse_loop, hxh, q_reverse_flip_eq hax, hp, ih, flipAll]

/-- The heap `q_reverse` returns on a well-formed queue: the `next` and `prev` fields of the
sentinel and of every element are exchanged, nothing else is written. -/
theorem q_reverse_eq (fuel : Nat) (h : Heap) (head : Ptr) (ps : List Ptr) (hw : WF h head ps)
    (hf : ps.length < fuel) :
    ∃ h2, q_reverse fuel h (some head) = some h2 ∧ h2.alive = h.alive ∧ h2.value = h.value ∧
      (∀ q, h2.next q = if q ∈ head :: ps then h.prev q else h.next q) ∧
      (∀ q, h2.prev q = if q ∈ head :: ps then h.next q else h.prev q) ∧
      h2.past = h.past := by
  have hah : h.alive head = true := hw.alive head (by simp)
  have hhd : head ∉ ps := (List.nodup_cons.1 hw.nodup).1
  have hnd : ps.Nodup := (List.nodup_cons.1 hw.nodup).2
  by_cases hne : ps = []
  · subst hne
    refine ⟨h, by simp [q_reverse, hw.empty_test], rfl, rfl, fun q => ?_, fun q => ?_, rfl⟩
    · by_cases hq : q = head
      · subst hq; simp [hw.links.1, hw.links.2]
      · simp [hq]
    · by_cases hq : q = head
      · subst hq; simp [hw.links.1, hw.links.2]
      · simp [hq]
  · have hloop := @q_reverse_loop_spec head fuel ps h (h.next head) hw.links.chain hhd
      hnd (fun x hx => hw.alive x (List.mem_cons_of_mem _ hx)) hf
    have hah2 : (flipAll h ps).alive head = true := by rw [flipAll_alive]; exact hah
    refine ⟨(flipAll h ps).flip head, ?_, ?_, ?_, fun q => ?_, fun q => ?_,
      flipAll_past ps h⟩
    · simp [q_reverse, hw.empty_test, hne, getNext_alive hah, hloop, q_reverse_flip_eq hah2]
    · show (flipAll h ps).alive = h.alive
      exact flipAll_alive ps h
    · show (flipAll h ps).value = h.value
      exact flipAll_value ps h
    · by_cases hq : q = head
      · subst hq
        simp [Heap.flip, flipAll_prev ps h q hnd, hhd]
      · simp [Heap.flip, Function.update_noteq hq, flipAll_next ps h q hnd, hq]
    · by_cases hq : q = head
      · subst hq
        simp [Heap.flip, flipAll_next ps h q hnd, hhd]
      · simp [Heap.flip, Function.update_noteq hq, flipAll_prev ps h q hnd, hq]


/-- C6: for every well-formed queue `q_reverse` returns, and afterwards the queue is well
formed and its forward traversal is the backward traversal before the call, that is the
original forward traversal reversed; the strings are untouched.  A `NULL` queue and an empty
queue are left unchanged. -/
theorem q_reverse_spec (fuel : Nat) (h : Heap) (head : Ptr) (ps : List Ptr)
    (hw : WF h head ps) (hf : ps.length < fuel) :
    ∃ h2, q_reverse fuel h (some head) = some h2 ∧ WF h2 head ps.reverse ∧
      forward fuel h2 head = some ps.reverse ∧ forward fuel h2 head = backward fuel h head ∧
      h2.value = h.value ∧ (ps = [] → h2 = h) ∧ q_reverse fuel h none = some h := by
  obtain ⟨h2, hrun, ha, hv, hn, hp, -⟩ := q_reverse_eq fuel h head ps hw hf
  have hw2 : WF h2 head ps.reverse := by
    refine ⟨?_, ?_, ?_⟩
    · exact ((List.reverse_perm ps).cons head).nodup_iff.2 hw.nodup
    · intro x hx
      rw [ha]
      exact hw.alive x (((List.reverse_perm ps).cons head).mem_iff.1 hx)
    · refine DSeg.congr_seg (fun x hx => ?_) (fun x hx => ?_) hw.links.reverse
      · have : x ∈ head :: ps := by simpa using hx
        rw [hn x, if_pos this]
      · have : x ∈ head :: ps := by
          simp only [List.mem_append, List.mem_reverse, List.mem_singleton] at hx
          simp only [List.mem_cons]
          tauto
        rw [hp x, if_pos this]
  have hfw := hw2.forward (show ps.reverse.length < fuel by simpa using hf)
  refine ⟨h2, hrun, hw2, hfw, by rw [hfw, hw.backward hf], hv, ?_, rfl⟩
  intro hnil
  subst hnil
  have := hrun
  simp only [q_reverse, hw.empty_test, decide_True, Option.bind_eq_bind, Option.some_bind,
    if_true] at this
  exact (Option.some.inj this).symm

theorem q_reverse_spec_witness :
    WF (queueOf [[49], [50], [51], [52]]) 0 [1, 2, 3, 4] ∧
    ∃ h2, q_reverse 5 (queueOf [[49], [50], [51], [52]]) (some 0) = some h2 ∧
      WF h2 0 [1, 2, 3, 4].reverse ∧ forward 5 h2 0 = some [1, 2, 3, 4].reverse ∧
      forward 5 h2 0 = backward 5 (queueOf [[49], [50], [51], [52]]) 0 ∧
      h2.value = (queueOf [[49], [50], [51], [52]]).value ∧
      ([1, 2, 3, 4] = ([] : List Ptr) → h2 = queueOf [[49], [50], [51], [52]]) ∧
      q_reverse 5 (queueOf [[49], [50], [51], [52]]) none =
        some (queueOf [[49], [50], [51], [52]]) :=
  ⟨by decide, q_reverse_spec 5 (queueOf [[49], [50], [51], [52]]) 0 [1, 2, 3, 4] (by decide)
    (by decide)⟩

/-- An example: `q_reverse` turns `1 2 3 4` into `4 3 2 1`, forwards, and into `1 2 3 4`
backwards. -/
theorem q_reverse_example :
    (q_reverse 5 (queueOf [[49], [50], [51], [52]]) (some 0)).bind
        (fun r => (forward 5 r 0).bind (fun ps => (backward 5 r 0).map
          (fun qs => (values r ps, values r qs)))) =
      some ([[52], [51], [50], [49]], [[49], [50], [51], [52]]) := by
  decide

/-! ## C strings -/

theorem strlen_spec : ∀ (s : List Nat) (n : Nat), strlen s = some n →
    n < s.length ∧ cstr s = s.take n ∧ s[n]? = some 0
  | [], _, h => by simp [strlen] at h
  | c :: cs, n, h => by
    by_cases hc : c = 0
    · subst hc
      have : n = 0 := by simpa [strlen] using h.symm
      subst this
      simp [cstr]
    · simp only [strlen, hc, if_false] at h
      cases hs : strlen cs with
      | none => simp [hs] at h
      | some m =>
        have : n = m + 1 := by simpa [hs] using h.symm
        subst this
        obtain ⟨h1, h2, h3⟩ := strlen_spec cs m hs
        refine ⟨by simp; omega, ?_, by simpa using h3⟩
        simp only [cstr] at h2 ⊢
        simp only [List.takeWhile, hc, ne_eq, not_false_eq_true, decide_True, List.take_succ_cons]
        rw [h2]

theorem cstr_no_nul (s : List Nat) : (0 : Nat) ∉ cstr s := by
  intro h
  have := List.mem_takeWhile_imp h
  simp at this

theorem cstr_append_nul : ∀ v : List Nat, (0 : Nat) ∉ v → cstr (v ++ [0]) = v
  | [], _ => by simp [cstr]
  | c :: cs, h => by
    have hc : c ≠ 0 := fun e => h (by simp [e])
    have ih := cstr_append_nul cs (fun m => h (List.mem_cons_of_mem _ m))
    simp only [cstr] at ih ⊢
    simp only [List.cons_append, List.takeWhile, hc, ne_eq, not_false_eq_true, decide_True]
    exact congrArg (List.cons c) ih

theorem strlen_append_nul : ∀ v : List Nat, (0 : Nat) ∉ v → strlen (v ++ [0]) = some v.length
  | [], _ => by simp [strlen]
  | c :: cs, h => by
    have hc : c ≠ 0 := fun e => h (by simp [e])
    simp [strlen, hc, strlen_append_nul cs (fun m => h (List.mem_cons_of_mem _ m))]

/-- The buffer `q_insert_head` and `q_insert_tail` build for a NUL-terminated argument: the
string, then the terminator. -/
theorem copy_spec (s : List Nat) (n : Nat) (hs : strlen s = some n) :
    (memcpy (List.replicate (n + 1) garbage) s n).bind (fun b => bufSet b n 0) =
      some (cstr s ++ [0]) := by
  obtain ⟨h1, h2, -⟩ := strlen_spec s n hs
  have hm : memcpy (List.replicate (n + 1) garbage) s n = some (s.take n ++ [garbage]) := by
    have : n ≤ s.length ∧ n ≤ (List.replicate (n + 1) garbage).length := by
      simp; omega
    simp only [memcpy, if_pos this]
    simp [List.drop_replicate]
  have hl : (s.take n).length = n := by simp; omega
  rw [hm, Option.some_bind, bufSet, if_pos (by simp [hl]), h2]
  congr 1
  rw [List.set_append_right _ _ (by rw [hl])]
  simp [hl]


/-! ## Insertion -/

theorem q_insert_alloc_ok (h : Heap) (s : List Nat) (p n : Nat) (hp : h.alive p = false)
    (hs : strlen s = some n) :
    q_insert_alloc h s (some p) true = some (h.alloc p (cstr s ++ [0]), some p) := by
  have hc := copy_spec s n hs
  cases hm : memcpy (List.replicate (n + 1) garbage) s n with
  | none => simp [hm] at hc
  | some b =>
    rw [hm, Option.some_bind] at hc
    simp [q_insert_alloc, malloc, hp, hs, hm, hc, setValue, Heap.alloc]

theorem WF.alloc {h : Heap} {head : Ptr} {ps : List Ptr} (hw : WF h head ps) (p : Ptr)
    (buf : List Nat) (hp : h.alive p = false) :
    WF (h.alloc p buf) head ps ∧ p ∉ head :: ps := by
  have hn : p ∉ head :: ps := fun m => by
    have := hw.alive p m
    rw [hp] at this
    exact Bool.false_ne_true this
  have hne : ∀ z, z ∈ head :: ps → z ≠ p := fun z hz e => hn (e ▸ hz)
  refine ⟨⟨hw.nodup, fun z hz => ?_, ?_⟩, hn⟩
  · simp [Heap.alloc, Function.update_noteq (hne z hz), hw.alive z hz]
  · refine DSeg.congr_seg (fun z hz => ?_) (fun z hz => ?_) hw.links
    · simp [Heap.alloc, Function.update_noteq (hne z hz)]
    · have : z ∈ head :: ps := by
        simp only [List.mem_append, List.mem_singleton] at hz
        simp only [List.mem_cons]
        tauto
      simp [Heap.alloc, Function.update_noteq (hne z this)]

/-- On a well-formed queue `list_add` of a live block that is not in the queue returns, and
leaves the well-formed queue with that block in front. -/
theorem list_add_spec {h : Heap} {head : Ptr} {ps : List Ptr} (hw : WF h head ps) (p : Ptr)
    (hap : h.alive p = true) (hp : p ∉ head :: ps) :
    ∃ h2, list_add h (some p) (some head) = some h2 ∧ WF h2 head (p :: ps) ∧
      h2.alive = h.alive ∧ h2.value = h.value := by
  have hah : h.alive head = true := hw.alive head (by simp)
  have hph : p ≠ head := fun e => hp (by simp [e])
  have hpp : p ∉ ps := fun m => hp (List.mem_cons_of_mem _ m)
  have hhd : head ∉ ps := (List.nodup_cons.1 hw.nodup).1
  have hnd2 : (head :: p :: ps).Nodup := by
    have := hw.nodup
    simp only [List.nodup_cons, List.mem_cons, not_or] at this ⊢
    exact ⟨⟨Ne.symm hph, this.1⟩, hpp, this.2⟩
  cases ps with
  | nil =>
    have hn : h.next head = some head := hw.links.1
    refine ⟨(((h.setP head (some p)).setN p (some head)).setP p (some head)).setN head (some p),
      ?_, ⟨hnd2, ?_, ?_⟩, rfl, rfl⟩
    · simp [list_add, getNext_alive hah, hn, setPrev_setP _ hah,
        setNext_setN (h := h.setP head (some p)) _ hap,
        setPrev_setP (h := (h.setP head (some p)).setN p (some head)) _ hap,
        setNext_setN (h := ((h.setP head (some p)).setN p (some head)).setP p (some head)) _ hah]
    · intro z hz
      rcases List.mem_cons.1 hz with e | m
      · rw [e]; exact hah
      · have : z = p := by simpa using m
        rw [this]; exact hap
    · refine ⟨by simp, by simp, ?_, ?_⟩
      · simp [Function.update_noteq hph]
      · simp [Function.update_noteq (Ne.symm hph)]
  | cons f ps =>
    have hn : h.next head = some f := hw.links.1
    have haf : h.alive f = true := hw.alive f (by simp)
    have hfp : f ≠ p := fun e => hpp (by simp [e])
    have hfh : f ≠ head := fun e => hhd (by simp [e])
    have hfps : f ∉ ps := (List.nodup_cons.1 (List.nodup_cons.1 hw.nodup).2).1
    refine ⟨(((h.setP f (some p)).setN p (some f)).setP p (some head)).setN head (some p),
      ?_, ⟨hnd2, ?_, ?_⟩, rfl, rfl⟩
    · simp [list_add, getNext_alive hah, hn, setPrev_setP _ haf,
        setNext_setN (h := h.setP f (some p)) _ hap,
        setPrev_setP (h := (h.setP f (some p)).setN p (some f)) _ hap,
        setNext_setN (h := ((h.setP f (some p)).setN p (some f)).setP p (some head)) _ hah]
    · intro z hz
      rcases List.mem_cons.1 hz with e | m
      · rw [e]; exact hah
      · rcases List.mem_cons.1 m with e | m
        · rw [e]; exact hap
        · exact hw.alive z (List.mem_cons_of_mem _ m)
    · refine ⟨by simp, by simp, ?_, ?_, ?_⟩
      · simp [Function.update_noteq hph]
      · simp [Function.update_noteq hfp]
      · refine DSeg.congr_seg (fun z hz => ?_) (fun z hz => ?_) hw.links.2.2
        · have z1 : z ≠ head := fun e => hhd (e ▸ hz)
          have z2 : z ≠ p := fun e => hpp (e ▸ hz)
          simp [Function.update_noteq z1, Function.update_noteq z2]
        · have zm : z ∈ ps ∨ z = head := by simpa using hz
          have z1 : z ≠ p := fun e => by
            rcases zm with m | m
            · exact hpp (List.mem_cons_of_mem _ (e ▸ m))
            · exact hph (e.symm.trans m)
          have z2 : z ≠ f := fun e => by
            rcases zm with m | m
            · exact hfps (e ▸ m)
            · exact hfh (e.symm.trans m)
          simp [Function.update_noteq z1, Function.update_noteq z2]

/-- On a well-formed queue `list_add_tail` of a live block that is not in the queue returns,
and leaves the well-formed queue with that block at the end. -/
theorem list_add_tail_spec {h : Heap} {head : Ptr} {ps : List Ptr} (hw : WF h head ps)
    (p : Ptr) (hap : h.alive p = true) (hp : p ∉ head :: ps) :
    ∃ h2, list_add_tail h (some p) (some head) = some h2 ∧ WF h2 head (ps ++ [p]) ∧
      h2.alive = h.alive ∧ h2.value = h.value := by
  have hah : h.alive head = true := hw.alive head (by simp)
  have hph : p ≠ head := fun e => hp (by simp [e])
  have hpp : p ∉ ps := fun m => hp (List.mem_cons_of_mem _ m)
  have hhd : head ∉ ps := (List.nodup_cons.1 hw.nodup).1
  obtain ⟨t, ht⟩ : ∃ t, (head :: ps).getLast? = some t := by
    cases e : (head :: ps).getLast? with
    | none => simp at e
    | some t => exact ⟨t, rfl⟩
  have htm : t ∈ head :: ps := List.mem_of_getLast?_eq_some ht
  have hat : h.alive t = true := hw.alive t htm
  have hpv : h.prev head = some t := by rw [DSeg.prev_last ps head head hw.links, ht]
  have hc := DOpen.close ps head t p hw.links.open_seg ht hw.nodup hpp
  refine ⟨(((h.setN t (some p)).setP p (some t)).setN p (some head)).setP head (some p),
    ?_, ⟨?_, ?_, ?_⟩, rfl, rfl⟩
  · simp [list_add_tail, getPrev_alive hah, hpv, setNext_setN _ hat,
      setPrev_setP (h := h.setN t (some p)) _ hap,
      setNext_setN (h := (h.setN t (some p)).setP p (some t)) _ hap,
      setPrev_setP (h := ((h.setN t (some p)).setP p (some t)).setN p (some head)) _ hah]
  · rw [← List.cons_append]
    exact List.Nodup.append hw.nodup (List.nodup_singleton p) (by
      intro z hz hz2
      have : z = p := by simpa using hz2
      exact hp (this ▸ hz))
  · intro z hz
    rw [← List.cons_append] at hz
    rcases List.mem_append.1 hz with m | m
    · exact hw.alive z m
    · have : z = p := by simpa using m
      rw [this]; exact hap
  · refine DSeg.snoc (DSeg.congr_seg (fun z hz => ?_) (fun z hz => ?_) hc) (by simp) (by simp)
    · have : z ≠ p := fun e => hp (e ▸ hz)
      simp [Function.update_noteq this]
    · have zm : z ∈ ps ∨ z = p := by simpa using hz
      have : z ≠ head := fun e => by
        rcases zm with m | m
        · exact hhd (e ▸ m)
        · exact hph (m.symm.trans e)
      simp [Function.update_noteq this]


/-- With both allocations successful and a NUL-terminated argument, `q_insert_head` returns
`true` and puts a new element holding a copy of the string in front of the queue. -/
theorem q_insert_head_spec {h : Heap} {head : Ptr} {ps : List Ptr} (hw : WF h head ps)
    (s : List Nat) (p : Ptr) (hp : h.alive p = false) (hs : (strlen s).isSome = true) :
    ∃ h2, q_insert_head h (some head) s (some p) true = some (h2, true) ∧
      WF h2 head (p :: ps) ∧ h2.value = Function.update h.value p (cstr s ++ [0]) ∧
      h2.alive = Function.update h.alive p true := by
  obtain ⟨n, hn⟩ := Option.isSome_iff_exists.1 hs
  obtain ⟨hw1, hnp⟩ := hw.alloc p (cstr s ++ [0]) hp
  obtain ⟨h2, hadd, hw2, ha, hv⟩ := list_add_spec hw1 p (by simp [Heap.alloc]) hnp
  exact ⟨h2, by simp [q_insert_head, q_insert_alloc_ok h s p n hp hn, hadd], hw2, hv, ha⟩

/-- With both allocations successful and a NUL-terminated argument, `q_insert_tail` returns
`true` and puts a new element holding a copy of the string at the end of the queue. -/
theorem q_insert_tail_spec {h : Heap} {head : Ptr} {ps : List Ptr} (hw : WF h head ps)
    (s : List Nat) (p : Ptr) (hp : h.alive p = false) (hs : (strlen s).isSome = true) :
    ∃ h2, q_insert_tail h (some head) s (some p) true = some (h2, true) ∧
      WF h2 head (ps ++ [p]) ∧ h2.value = Function.update h.value p (cstr s ++ [0]) ∧
      h2.alive = Function.update h.alive p true := by
  obtain ⟨n, hn⟩ := Option.isSome_iff_exists.1 hs
  obtain ⟨hw1, hnp⟩ := hw.alloc p (cstr s ++ [0]) hp
  obtain ⟨h2, hadd, hw2, ha, hv⟩ := list_add_tail_spec hw1 p (by simp [Heap.alloc]) hnp
  exact ⟨h2, by simp [q_insert_tail, q_insert_alloc_ok h s p n hp hn, hadd], hw2, hv, ha⟩

/-! ## Removal -/

/-- What `q_remove_head` does on a non-empty well-formed queue: the first element `x` is
unlinked by `list_del` and returned; with a buffer, `bufsize - 1` bytes are copied first from
the memory at its string, and a terminator is stored afterwards. -/
theorem q_remove_head_eq {h : Heap} {head : Ptr} (x : Ptr) (ps : List Ptr)
    (hw : WF h head (x :: ps)) (sp : Option (List Nat)) (bufsize : Nat) :
    ∃ h2, list_del h (some x) = some h2 ∧ WF h2 head ps ∧ h2.alive = h.alive ∧
      h2.value = h.value ∧
      q_remove_head h (some head) sp bufsize =
        match sp with
        | none => some ⟨h2, some x, none⟩
        | some buf =>
          (getMemory h (some x) (size_sub bufsize 1)).bind (fun m =>
            (memcpy buf m (size_sub bufsize 1)).bind (fun b1 =>
              (bufSet b1 (size_sub bufsize 1) 0).bind (fun b2 =>
                some ⟨h2, some x, some b2⟩))) := by
  have hah : h.alive head = true := hw.alive head (by simp)
  have hax : h.alive x = true := hw.alive x (by simp)
  have hn : h.next head = some x := hw.links.1
  obtain ⟨h2, hd, hw2, ha, hv, -⟩ := WF.unlink_node [] ps x hw
  refine ⟨h2, hd, hw2, ha, hv, ?_⟩
  cases sp with
  | none => simp [q_remove_head, hw.empty_test, getNext_alive hah, hn, hd]
  | some buf =>
    simp only [q_remove_head, hw.empty_test, getNext_alive hah, hn, hd,
      Option.bind_eq_bind, Option.some_bind, Option.pure_def]
    simp

/-- What `q_remove_tail` does on a non-empty well-formed queue: as `q_remove_head`, on the
last element. -/
theorem q_remove_tail_eq {h : Heap} {head : Ptr} (x : Ptr) (ps : List Ptr)
    (hw : WF h head (ps ++ [x])) (sp : Option (List Nat)) (bufsize : Nat) :
    ∃ h2, list_del h (some x) = some h2 ∧ WF h2 head ps ∧ h2.alive = h.alive ∧
      h2.value = h.value ∧
      q_remove_tail h (some head) sp bufsize =
        match sp with
        | none => some ⟨h2, some x, none⟩
        | some buf =>
          (getMemory h (some x) (size_sub bufsize 1)).bind (fun m =>
            (memcpy buf m (size_sub bufsize 1)).bind (fun b1 =>
              (bufSet b1 (size_sub bufsize 1) 0).bind (fun b2 =>
                some ⟨h2, some x, some b2⟩))) := by
  have hah : h.alive head = true := hw.alive head (by simp)
  have hax : h.alive x = true := hw.alive x (by simp)
  have hp : h.prev head = some x := by
    rw [DSeg.prev_last _ head head hw.links, ← List.cons_append, List.getLast?_append]
    simp
  obtain ⟨h2, hd, hw2, ha, hv, -⟩ := WF.unlink_node ps [] x hw
  rw [List.append_nil] at hw2
  refine ⟨h2, hd, hw2, ha, hv, ?_⟩
  cases sp with
  | none => simp [q_remove_tail, hw.empty_test, getPrev_alive hah, hp, hd]
  | some buf =>
    simp only [q_remove_tail, hw.empty_test, getPrev_alive hah, hp, hd,
      Option.bind_eq_bind, Option.some_bind, Option.pure_def]
    simp

/-- On an empty well-formed queue the two removals return no element and change nothing. -/
theorem q_remove_empty {h : Heap} {head : Ptr} (hw : WF h head []) (sp : Option (List Nat))
    (bufsize : Nat) :
    q_remove_head h (some head) sp bufsize = some ⟨h, none, sp⟩ ∧
      q_remove_tail h (some head) sp bufsize = some ⟨h, none, sp⟩ := by
  constructor
  · simp [q_remove_head, hw.empty_test]
  · simp [q_remove_tail, hw.empty_test]

/-! ## Size -/

theorem q_size_loop_spec {h : Heap} {head : Ptr} : ∀ (l : List Ptr) (fuel : Nat)
    (li : Option Ptr) (len : Nat), Chain h.next li l (some head) → head ∉ l →
    (∀ x ∈ l, h.alive x = true) → l.length < fuel →
    q_size_loop fuel h (some head) li len = some (len + l.length)
  | _, 0, _, _, _, _, _, hf => by omega
  | [], fuel + 1, li, len, hc, _, _, _ => by
    have : li = some head := hc
    simp [q_size_loop, this]
  | x :: xs, fuel + 1, li, len, hc, hh, ha, hf => by
    have e : li = some x := hc.1
    have hne : x ≠ head := fun e => hh (by simp [e])
    have ih := q_size_loop_spec xs fuel (h.next x) (len + 1) hc.2
      (fun m => hh (List.mem_cons_of_mem _ m))
      (fun y hy => ha y (List.mem_cons_of_mem _ hy)) (by simpa using hf)
    simp [q_size_loop, e, hne, getNext_alive (ha x (by simp)), ih]
    omega

/-- The function `q_size` returns the number of elements of a well-formed queue. -/
theorem q_size_spec {h : Heap} {head : Ptr} {ps : List Ptr} (hw : WF h head ps) {fuel : Nat}
    (hf : ps.length < fuel) : q_size fuel h (some head) = some ps.length := by
  have hh : head ∉ ps := (List.nodup_cons.1 hw.nodup).1
  simp [q_size, getNext_alive (hw.alive head (by simp)),
    q_size_loop_spec ps fuel _ 0 hw.links.chain hh
      (fun x hx => hw.alive x (List.mem_cons_of_mem _ hx)) hf]

/-- The function `q_new` with a successful allocation returns an empty well-formed queue. -/
theorem q_new_spec (h : Heap) (p : Ptr) (hp : h.alive p = false) :
    ∃ h2, q_new h (some p) = some (h2, some p) ∧ WF h2 p [] ∧
      h2.alive = Function.update h.alive p true := by
  refine ⟨((h.alloc p []).setN p (some p)).setP p (some p), ?_, ⟨by simp, ?_, ?_⟩, rfl⟩
  · have ha : (h.alloc p []).alive p = true := by simp [Heap.alloc]
    simp [q_new, malloc, hp, INIT_LIST_HEAD, setNext, setPrev, Heap.alloc, Heap.setN,
      Heap.setP]
  · intro z hz
    have : z = p := by simpa using hz
    subst this
    simp [Heap.alloc]
  · exact ⟨by simp, by simp⟩

/-! ## Failing insertions -/

/-- The allocation part of an insertion when the string copy cannot be allocated: the element
record is freed again, and no live block has changed. -/
theorem q_insert_alloc_fail {h : Heap} {head : Ptr} {ps : List Ptr} (hw : WF h head ps)
    (s : List Nat) (p : Ptr) (hp : h.alive p = false) (hs : (strlen s).isSome = true) :
    ∃ h2, q_insert_alloc h s (some p) false = some (h2, none) ∧ WF h2 head ps ∧
      h2.alive = h.alive := by
  obtain ⟨n, hn⟩ := Option.isSome_iff_exists.1 hs
  obtain ⟨hw1, -⟩ := hw.alloc p [] hp
  refine ⟨{ h.alloc p [] with alive := Function.update (h.alloc p []).alive p false }, ?_,
    ⟨hw.nodup, ?_, hw1.links⟩, ?_⟩
  · simp [q_insert_alloc, malloc, hp, hn, free, Heap.alloc]
  · intro z hz
    have : z ≠ p := fun e => by
      have := hw.alive z hz
      rw [e, hp] at this
      exact Bool.false_ne_true this
    simp [Heap.alloc, Function.update_noteq this, hw.alive z hz]
  · funext z
    by_cases e : z = p
    · subst e; simp [Heap.alloc, hp]
    · simp [Heap.alloc, Function.update_noteq e]

theorem q_insert_alloc_null (h : Heap) (s : List Nat) (ok : Bool) :
    q_insert_alloc h s none ok = some (h, none) := by
  simp [q_insert_alloc, malloc]

/-- C8: on a well-formed queue (or a `NULL` queue pointer), with a NUL-terminated argument,
`q_insert_head` and `q_insert_tail` return, and return `false` exactly when the queue pointer
is `NULL` or one of the two allocations fails (`r = none`: the element record, `ok = false`:
the string copy).  On every `false` return the set of live blocks is the one before the call (a
record allocated on the way has been freed), and the queue is the same well-formed queue, with
the same forward and backward traversals. -/
theorem q_insert_false_iff (fuel : Nat) (h : Heap) (hd : Option Ptr) (ps : List Ptr)
    (hw : ∀ head, hd = some head → WF h head ps) (s : List Nat)
    (hs : (strlen s).isSome = true) (r : Option Ptr)
    (hr : ∀ p, r = some p → h.alive p = false) (ok : Bool) (hf : ps.length < fuel) :
    (∃ h2 b, q_insert_head h hd s r ok = some (h2, b) ∧
      (b = false ↔ hd = none ∨ r = none ∨ ok = false) ∧
      (b = false → h2.alive = h.alive ∧
        ∀ head, hd = some head → WF h2 head ps ∧ forward fuel h2 head = some ps ∧
          forward fuel h head = some ps ∧ backward fuel h2 head = some ps.reverse ∧
          backward fuel h head = some ps.reverse)) ∧
    (∃ h2 b, q_insert_tail h hd s r ok = some (h2, b) ∧
      (b = false ↔ hd = none ∨ r = none ∨ ok = false) ∧
      (b = false → h2.alive = h.alive ∧
        ∀ head, hd = some head → WF h2 head ps ∧ forward fuel h2 head = some ps ∧
          forward fuel h head = some ps ∧ backward fuel h2 head = some ps.reverse ∧
          backward fuel h head = some ps.reverse)) := by
  cases hd with
  | none =>
    exact ⟨⟨h, false, rfl, by simp, fun _ => ⟨rfl, fun _ e => by cases e⟩⟩,
      ⟨h, false, rfl, by simp, fun _ => ⟨rfl, fun _ e => by cases e⟩⟩⟩
  | some head =>
    have hw0 := hw head rfl
    have same : ∀ h2 : Heap, WF h2 head ps → ∀ a, some head = some a →
        WF h2 a ps ∧ forward fuel h2 a = some ps ∧ forward fuel h a = some ps ∧
          backward fuel h2 a = some ps.reverse ∧ backward fuel h a = some ps.reverse := by
      intro h2 hw2 a e
      cases e
      exact ⟨hw2, hw2.forward hf, hw0.forward hf, hw2.backward hf, hw0.backward hf⟩
    cases r with
    | none =>
      exact ⟨⟨h, false, by simp [q_insert_head, q_insert_alloc_null], by simp,
          fun _ => ⟨rfl, same h hw0⟩⟩,
        ⟨h, false, by simp [q_insert_tail, q_insert_alloc_null], by simp,
          fun _ => ⟨rfl, same h hw0⟩⟩⟩
    | some p =>
      have hp := hr p rfl
      cases ok with
      | false =>
        obtain ⟨h2, hrun, hw2, ha⟩ := q_insert_alloc_fail hw0 s p hp hs
        exact ⟨⟨h2, false, by simp [q_insert_head, hrun], by simp, fun _ => ⟨ha, same h2 hw2⟩⟩,
          ⟨h2, false, by simp [q_insert_tail, hrun], by simp, fun _ => ⟨ha, same h2 hw2⟩⟩⟩
      | true =>
        obtain ⟨h2, hrun, -, -, -⟩ := q_insert_head_spec hw0 s p hp hs
        obtain ⟨h3, hrun3, -, -, -⟩ := q_insert_tail_spec hw0 s p hp hs
        exact ⟨⟨h2, true, hrun, by simp, fun e => by cases e⟩,
          ⟨h3, true, hrun3, by simp, fun e => by cases e⟩⟩

theorem q_insert_false_iff_witness :
    (∀ head, some 0 = some head → WF (queueOf [[49], [50]]) head [1, 2]) ∧
    (strlen [51, 0]).isSome = true ∧
    (∀ p, some 7 = some p → (queueOf [[49], [50]]).alive p = false) ∧
    ([1, 2] : List Ptr).length < 3 ∧
    (∃ h2 b, q_insert_head (queueOf [[49], [50]]) (some 0) [51, 0] (some 7) false =
        some (h2, b) ∧
      (b = false ↔ some 0 = (none : Option Ptr) ∨ some 7 = (none : Option Ptr) ∨
        false = false) ∧
      (b = false → h2.alive = (queueOf [[49], [50]]).alive ∧
        ∀ head, some 0 = some head → WF h2 head [1, 2] ∧ forward 3 h2 head = some [1, 2] ∧
          forward 3 (queueOf [[49], [50]]) head = some [1, 2] ∧
          backward 3 h2 head = some [1, 2].reverse ∧
          backward 3 (queueOf [[49], [50]]) head = some [1, 2].reverse)) ∧
    (∃ h2 b, q_insert_tail (queueOf [[49], [50]]) (some 0) [51, 0] (some 7) false =
        some (h2, b) ∧
      (b = false ↔ some 0 = (none : Option Ptr) ∨ some 7 = (none : Option Ptr) ∨
        false = false) ∧
      (b = false → h2.alive = (queueOf [[49], [50]]).alive ∧
        ∀ head, some 0 = some head → WF h2 head [1, 2] ∧ forward 3 h2 head = some [1, 2] ∧
          forward 3 (queueOf [[49], [50]]) head = some [1, 2] ∧
          backward 3 h2 head = some [1, 2].reverse ∧
          backward 3 (queueOf [[49], [50]]) head = some [1, 2].reverse)) :=
  have hw : ∀ head, some 0 = some head → WF (queueOf [[49], [50]]) head [1, 2] :=
    fun head e => by cases e; decide
  have hr : ∀ p, some 7 = some p → (queueOf [[49], [50]]).alive p = false :=
    fun p e => by cases e; decide
  ⟨hw, by decide, hr, by decide,
    q_insert_false_iff 3 (queueOf [[49], [50]]) (some 0) [1, 2] hw [51, 0] (by decide) (some 7)
      hr false (by decide)⟩

/-- An example of each outcome: a failing record allocation, a failing string allocation and
a `NULL` queue return `false` and leave `1 2`; a successful call returns `true`. -/
theorem q_insert_example :
    [(q_insert_head (queueOf [[49], [50]]) (some 0) [51, 0] none true).bind
        (fun r => (forward 4 r.1 0).map (fun ps => (r.2, values r.1 ps))),
      (q_insert_tail (queueOf [[49], [50]]) (some 0) [51, 0] (some 7) false).bind
        (fun r => (forward 4 r.1 0).map (fun ps => (r.2, values r.1 ps))),
      (q_insert_tail (queueOf [[49], [50]]) none [51, 0] (some 7) true).bind
        (fun r => (forward 4 r.1 0).map (fun ps => (r.2, values r.1 ps))),
      (q_insert_head (queueOf [[49], [50]]) (some 0) [51, 0] (some 7) true).bind
        (fun r => (forward 4 r.1 0).map (fun ps => (r.2, values r.1 ps)))] =
      [some (false, [[49], [50]]), some (false, [[49], [50]]), some (false, [[49], [50]]),
        some (true, [[51], [49], [50]])] := by
  decide

/-! ## Calls on a `NULL` queue and on an empty queue -/

/-- C10: on a `NULL` queue and on an empty well-formed queue, `q_remove_head` and
`q_remove_tail` return no element, `q_delete_mid` returns `false`, and `q_swap`, `q_reverse`,
`q_sort` and `q_delete_dup` return (no error branch is reached); every one of these calls
returns the heap it was given, so the empty queue is still the empty queue, its sentinel
linked to itself. -/
theorem empty_and_null_calls (fuel : Nat) (h : Heap) (head : Ptr) (hw : WF h head [])
    (sp : Option (List Nat)) (bufsize : Nat) (hf : 0 < fuel) :
    (q_remove_head h none sp bufsize = some ⟨h, none, sp⟩ ∧
      q_remove_tail h none sp bufsize = some ⟨h, none, sp⟩ ∧
      q_delete_mid fuel h none = some (h, false) ∧ q_swap fuel h none = some h ∧
      q_reverse fuel h none = some h ∧ q_sort fuel h none = some h ∧
      q_delete_dup fuel h none = some (h, false)) ∧
    (q_remove_head h (some head) sp bufsize = some ⟨h, none, sp⟩ ∧
      q_remove_tail h (some head) sp bufsize = some ⟨h, none, sp⟩ ∧
      q_delete_mid fuel h (some head) = some (h, false) ∧ q_swap fuel h (some head) = some h ∧
      q_reverse fuel h (some head) = some h ∧ q_sort fuel h (some head) = some h ∧
      q_delete_dup fuel h (some head) = some (h, true)) ∧
    h.next head = some head ∧ h.prev head = some head := by
  have hah : h.alive head = true := hw.alive head (by simp)
  have hn : h.next head = some head := hw.links.1
  obtain ⟨f, rfl⟩ : ∃ f, fuel = f + 1 := ⟨fuel - 1, by omega⟩
  refine ⟨⟨rfl, rfl, rfl, rfl, rfl, rfl, rfl⟩, ⟨(q_remove_empty hw sp bufsize).1,
    (q_remove_empty hw sp bufsize).2, ?_, ?_, ?_, ?_, ?_⟩, hn, hw.links.2⟩
  · simp [q_delete_mid, hw.empty_test]
  · simp [q_swap, hw.empty_test]
  · simp [q_reverse, hw.empty_test]
  · simp [q_sort, hw.empty_test]
  · rw [q_delete_dup_eq (f + 1) h head hah head hn hah, hn, dupRun_exit]
    simp

theorem empty_and_null_calls_witness :
    WF (queueOf []) 0 [] ∧ 0 < 1 ∧
    ((q_remove_head (queueOf []) none (some [7, 7]) 2 = some ⟨queueOf [], none, some [7, 7]⟩ ∧
      q_remove_tail (queueOf []) none (some [7, 7]) 2 = some ⟨queueOf [], none, some [7, 7]⟩ ∧
      q_delete_mid 1 (queueOf []) none = some (queueOf [], false) ∧
      q_swap 1 (queueOf []) none = some (queueOf []) ∧
      q_reverse 1 (queueOf []) none = some (queueOf []) ∧
      q_sort 1 (queueOf []) none = some (queueOf []) ∧
      q_delete_dup 1 (queueOf []) none = some (queueOf [], false)) ∧
    (q_remove_head (queueOf []) (some 0) (some [7, 7]) 2 =
        some ⟨queueOf [], none, some [7, 7]⟩ ∧
      q_remove_tail (queueOf []) (some 0) (some [7, 7]) 2 =
        some ⟨queueOf [], none, some [7, 7]⟩ ∧
      q_delete_mid 1 (queueOf []) (some 0) = some (queueOf [], false) ∧
      q_swap 1 (queueOf []) (some 0) = some (queueOf []) ∧
      q_reverse 1 (queueOf []) (some 0) = some (queueOf []) ∧
      q_sort 1 (queueOf []) (some 0) = some (queueOf []) ∧
      q_delete_dup 1 (queueOf []) (some 0) = some (queueOf [], true)) ∧
    (queueOf []).next 0 = some 0 ∧ (queueOf []).prev 0 = some 0) :=
  ⟨by decide, by decide,
    empty_and_null_calls 1 (queueOf []) 0 (by decide) (some [7, 7]) 2 (by decide)⟩

/-! ## `q_delete_dup` on a `NULL` queue and on an empty queue -/

/-- C11, as the code has it: `q_delete_dup` returns `false` on a `NULL` queue only (as its
header comment says); on an empty well-formed queue it returns `true` and leaves the queue as
it is. -/
theorem q_delete_dup_null_empty (fuel : Nat) (h : Heap) (head : Ptr) (hw : WF h head [])
    (hf : 0 < fuel) :
    q_delete_dup fuel h none = some (h, false) ∧
      q_delete_dup fuel h (some head) = some (h, true) := by
  have hah : h.alive head = true := hw.alive head (by simp)
  have hn : h.next head = some head := hw.links.1
  obtain ⟨f, rfl⟩ : ∃ f, fuel = f + 1 := ⟨fuel - 1, by omega⟩
  refine ⟨rfl, ?_⟩
  rw [q_delete_dup_eq (f + 1) h head hah head hn hah, hn, dupRun_exit]
  simp

theorem q_delete_dup_null_empty_witness :
    WF (queueOf []) 0 [] ∧ 0 < 1 ∧
    q_delete_dup 1 (queueOf []) none = some (queueOf [], false) ∧
    q_delete_dup 1 (queueOf []) (some 0) = some (queueOf [], true) :=
  ⟨by decide, by decide, q_delete_dup_null_empty 1 (queueOf []) 0 (by decide) (by decide)⟩

/-- C11 fails on the empty queue: there `q_delete_dup` returns `true`, not `false`. -/
theorem q_delete_dup_empty_returns_true :
    WF (queueOf []) 0 [] ∧
    (q_delete_dup 1 (queueOf []) (some 0)).map (fun r => r.2) = some true ∧
    (q_delete_dup 1 (queueOf []) (some 0)).map (fun r => r.2) ≠ some false := by
  decide

/-! ## Reversing twice -/

theorem q_reverse_wf (fuel : Nat) (h : Heap) (head : Ptr) (ps : List Ptr) (hw : WF h head ps)
    (hf : ps.length < fuel) :
    ∃ h2, q_reverse fuel h (some head) = some h2 ∧ WF h2 head ps.reverse ∧
      h2.alive = h.alive ∧ h2.value = h.value ∧
      (∀ q, h2.next q = if q ∈ head :: ps then h.prev q else h.next q) ∧
      (∀ q, h2.prev q = if q ∈ head :: ps then h.next q else h.prev q) ∧
      h2.past = h.past := by
  obtain ⟨h2, hrun, ha, hv, hn, hp, hpa⟩ := q_reverse_eq fuel h head ps hw hf
  refine ⟨h2, hrun, ⟨?_, ?_, ?_⟩, ha, hv, hn, hp, hpa⟩
  · exact ((List.reverse_perm ps).cons head).nodup_iff.2 hw.nodup
  · intro x hx
    rw [ha]
    exact hw.alive x (((List.reverse_perm ps).cons head).mem_iff.1 hx)
  · refine DSeg.congr_seg (fun x hx => ?_) (fun x hx => ?_) hw.links.reverse
    · have : x ∈ head :: ps := by simpa using hx
      rw [hn x, if_pos this]
    · have : x ∈ head :: ps := by
        simp only [List.mem_append, List.mem_reverse, List.mem_singleton] at hx
        simp only [List.mem_cons]
        tauto
      rw [hp x, if_pos this]

theorem Heap.ext_fields {a b : Heap} (h1 : a.alive = b.alive) (h2 : a.next = b.next)
    (h3 : a.prev = b.prev) (h4 : a.value = b.value) (h5 : a.past = b.past) : a = b := by
  cases a
  cases b
  simp only [Heap.mk.injEq]
  exact ⟨h1, h2, h3, h4, h5⟩

/-- C13: `q_reverse` is its own inverse.  For every well-formed queue, `q_reverse` returns and
a second `q_reverse` returns the heap before the first call: the `next` and `prev` field of
every node, hence the forward traversal, are restored. -/
theorem q_reverse_involutive (fuel : Nat) (h : Heap) (head : Ptr) (ps : List Ptr)
    (hw : WF h head ps) (hf : ps.length < fuel) :
    ∃ h2 h3, q_reverse fuel h (some head) = some h2 ∧ q_reverse fuel h2 (some head) = some h3 ∧
      h3 = h ∧ forward fuel h2 head = some ps.reverse ∧ forward fuel h3 head = some ps ∧
      forward fuel h head = some ps := by
  obtain ⟨h2, hrun, hw2, ha, hv, hn, hp, hpa⟩ := q_reverse_wf fuel h head ps hw hf
  obtain ⟨h3, hrun3, -, ha3, hv3, hn3, hp3, hpa3⟩ := q_reverse_wf fuel h2 head ps.reverse hw2
    (by simpa using hf)
  have hmem : ∀ q, q ∈ head :: ps.reverse ↔ q ∈ head :: ps := fun q => by simp
  have e : h3 = h := by
    refine Heap.ext_fields (ha3.trans ha) ?_ ?_ (hv3.trans hv) (hpa3.trans hpa)
    · funext q
      rw [hn3 q, hp q]
      by_cases hq : q ∈ head :: ps
      · rw [if_pos ((hmem q).2 hq), if_pos hq]
      · rw [if_neg (fun m => hq ((hmem q).1 m)), hn q, if_neg hq]
    · funext q
      rw [hp3 q, hn q]
      by_cases hq : q ∈ head :: ps
      · rw [if_pos ((hmem q).2 hq), if_pos hq]
      · rw [if_neg (fun m => hq ((hmem q).1 m)), hp q, if_neg hq]
  exact ⟨h2, h3, hrun, hrun3, e, hw2.forward (by simpa using hf), by rw [e]; exact hw.forward hf,
    hw.forward hf⟩

theorem q_reverse_involutive_witness :
    WF (queueOf [[49], [50], [51]]) 0 [1, 2, 3] ∧
    ∃ h2 h3, q_reverse 4 (queueOf [[49], [50], [51]]) (some 0) = some h2 ∧
      q_reverse 4 h2 (some 0) = some h3 ∧ h3 = queueOf [[49], [50], [51]] ∧
      forward 4 h2 0 = some [1, 2, 3].reverse ∧ forward 4 h3 0 = some [1, 2, 3] ∧
      forward 4 (queueOf [[49], [50], [51]]) 0 = some [1, 2, 3] :=
  ⟨by decide, q_reverse_involutive 4 (queueOf [[49], [50], [51]]) 0 [1, 2, 3] (by decide)
    (by decide)⟩

/-! ## Sorting twice -/

/-- C14: `q_sort` is idempotent.  For every well-formed queue of NUL-terminated strings two
calls of `q_sort` in a row return, and the forward traversal after the second call is the
forward traversal after the first, node for node, with the same strings. -/
theorem q_sort_idempotent (fuel : Nat) (h : Heap) (head : Ptr) (ps : List Ptr)
    (hw : WF h head ps) (hst : Strs h ps) (hf : ps.length < fuel) :
    ∃ h2 h3 ps2, q_sort fuel h (some head) = some h2 ∧ q_sort fuel h2 (some head) = some h3 ∧
      forward fuel h2 head = some ps2 ∧ forward fuel h3 head = some ps2 ∧
      values h3 ps2 = values h2 ps2 := by
  obtain ⟨h2, hrun, hw2, hv, -, -⟩ := q_sort_spec fuel h head ps hw hst hf
  have hperm : (ps.mergeSort (nodeLe h.value)).Perm ps := List.mergeSort_perm _ _
  have hsorted : (ps.mergeSort (nodeLe h.value)).Pairwise (fun p q => nodeLe h.value p q = true) :=
    List.sorted_mergeSort (nodeLe_trans h.value) (nodeLe_total h.value) ps
  have hlen : (ps.mergeSort (nodeLe h.value)).length < fuel := by
    rw [hperm.length_eq]; exact hf
  obtain ⟨h3, hrun3, hw3, hv3, -, -⟩ := q_sort_spec fuel h2 head _ hw2
    (fun p hp => by rw [hv]; exact hst p (hperm.mem_iff.1 hp)) hlen
  rw [hv, List.mergeSort_of_sorted hsorted] at hw3
  exact ⟨h2, h3, _, hrun, hrun3, hw2.forward hlen, hw3.forward hlen, by simp [values, hv3]⟩

theorem q_sort_idempotent_witness :
    WF (queueOf [[99], [97], [98], [97]]) 0 [1, 2, 3, 4] ∧
    Strs (queueOf [[99], [97], [98], [97]]) [1, 2, 3, 4] ∧
    ∃ h2 h3 ps2, q_sort 5 (queueOf [[99], [97], [98], [97]]) (some 0) = some h2 ∧
      q_sort 5 h2 (some 0) = some h3 ∧ forward 5 h2 0 = some ps2 ∧
      forward 5 h3 0 = some ps2 ∧ values h3 ps2 = values h2 ps2 :=
  ⟨by decide, by decide,
    q_sort_idempotent 5 (queueOf [[99], [97], [98], [97]]) 0 [1, 2, 3, 4] (by decide)
      (by decide) (by decide)⟩

/-! ## The base case of `mergesort_list` -/

theorem mergesort_list_null (fuel : Nat) (h : Heap) : mergesort_list fuel h none = none := by
  cases fuel <;> simp [mergesort_list, getNext]

/-- C20, as the code has it: the base case of `mergesort_list` is the chain of one node, which
is returned unchanged; the test `!head->next` reads `head->next` unguarded, so on the empty
(`NULL`) chain the function dereferences `NULL` (an error of the embedding, whatever the
fuel). -/
theorem mergesort_list_single (fuel : Nat) (h : Heap) (a : Ptr) (ha : h.alive a = true)
    (hn : h.next a = none) (hf : 0 < fuel) :
    mergesort_list fuel h (some a) = some (h, some a) ∧
      ∀ (f : Nat) (g : Heap), mergesort_list f g none = none := by
  obtain ⟨f, rfl⟩ : ∃ f, fuel = f + 1 := ⟨fuel - 1, by omega⟩
  exact ⟨mergesort_list_base f h a ha hn, mergesort_list_null⟩

theorem mergesort_list_single_witness :
    ((queueOf [[97]]).setN 1 none).alive 1 = true ∧
    ((queueOf [[97]]).setN 1 none).next 1 = none ∧ 0 < 1 ∧
    mergesort_list 1 ((queueOf [[97]]).setN 1 none) (some 1) =
      some ((queueOf [[97]]).setN 1 none, some 1) ∧
    ∀ (f : Nat) (g : Heap), mergesort_list f g none = none :=
  ⟨by decide, by decide, by decide,
    mergesort_list_single 1 ((queueOf [[97]]).setN 1 none) 1 (by decide) (by decide)
      (by decide)⟩

/-- C20 fails on the empty chain: `mergesort_list` on `NULL` does not return the chain, it
dereferences `NULL`. -/
theorem mergesort_list_null_fails :
    (mergesort_list 3 (queueOf [[97]]) none).isNone = true ∧
    (mergesort_list 3 (queueOf [[97]]) none).map (fun r => r.2) ≠ some none := by
  decide

/-! ## Well-formedness as an invariant -/

theorem DSeg.linked {nx pv : Ptr → Option Ptr} :
    ∀ {l : List Ptr} {a b : Ptr}, DSeg nx pv a l b →
      (∀ x ∈ a :: l, (nx x).bind pv = some x) ∧ (∀ x ∈ l ++ [b], (pv x).bind nx = some x)
  | [], a, b, hd => by
    constructor
    · intro x hx
      have : x = a := by simpa using hx
      subst this
      rw [hd.1]; exact hd.2
    · intro x hx
      have : x = b := by simpa using hx
      subst this
      rw [hd.2]; exact hd.1
  | y :: ys, a, b, hd => by
    obtain ⟨i1, i2⟩ := DSeg.linked hd.2.2
    constructor
    · intro x hx
      rcases List.mem_cons.1 hx with e | hx
      · subst e
        rw [hd.1]; exact hd.2.1
      · exact i1 x hx
    · intro x hx
      rw [List.cons_append] at hx
      rcases List.mem_cons.1 hx with e | hx
      · subst e
        rw [hd.2.1]; exact hd.1
      · exact i2 x hx

theorem WF.valid {h : Heap} {head : Ptr} {ps : List Ptr} (hw : WF h head ps) :
    Valid h head := by
  obtain ⟨i1, i2⟩ := DSeg.linked hw.links
  refine ⟨ps, hw, fun n hn => ⟨i1 n hn, i2 n ?_⟩, hw.forward (by omega), hw.backward (by omega)⟩
  simp only [List.mem_cons, List.mem_append, List.mem_singleton] at hn ⊢
  tauto

theorem q_insert_wf {h : Heap} {head : Ptr} {ps : List Ptr} (hw : WF h head ps)
    (s : List Nat) (hs : (strlen s).isSome = true) (r : Option Ptr)
    (hr : ∀ p, r = some p → h.alive p = false) (ok : Bool) :
    (∃ h2 b ps2, q_insert_head h (some head) s r ok = some (h2, b) ∧ WF h2 head ps2) ∧
    (∃ h2 b ps2, q_insert_tail h (some head) s r ok = some (h2, b) ∧ WF h2 head ps2) := by
  cases r with
  | none =>
    exact ⟨⟨h, false, ps, by simp [q_insert_head, q_insert_alloc_null], hw⟩,
      ⟨h, false, ps, by simp [q_insert_tail, q_insert_alloc_null], hw⟩⟩
  | some p =>
    have hp : h.alive p = false := hr p rfl
    cases ok with
    | false =>
      obtain ⟨h2, hrun, hw2, -⟩ := q_insert_alloc_fail hw s p hp hs
      exact ⟨⟨h2, false, ps, by simp [q_insert_head, hrun], hw2⟩,
        ⟨h2, false, ps, by simp [q_insert_tail, hrun], hw2⟩⟩
    | true =>
      obtain ⟨h2, hrun, hw2, -, -⟩ := q_insert_head_spec hw s p hp hs
      obtain ⟨h3, hrun3, hw3, -, -⟩ := q_insert_tail_spec hw s p hp hs
      exact ⟨⟨h2, true, _, hrun, hw2⟩, ⟨h3, true, _, hrun3, hw3⟩⟩

theorem q_delete_mid_wf (fuel : Nat) (h : Heap) (head : Ptr) (ps : List Ptr)
    (hw : WF h head ps) (hf : ps.length < fuel) :
    ∃ h2 b ps2, q_delete_mid fuel h (some head) = some (h2, b) ∧ WF h2 head ps2 := by
  by_cases hne : ps = []
  · subst hne
    exact ⟨h, false, [], by simp [q_delete_mid, hw.empty_test], hw⟩
  have hah : h.alive head = true := hw.alive head (by simp)
  have hhd : head ∉ ps := (List.nodup_cons.1 hw.nodup).1
  have hlen : 0 < ps.length := List.length_pos.2 hne
  have hi : ps.length / 2 < ps.length := Nat.div_lt_self hlen (by omega)
  obtain ⟨t, ht, hloop⟩ := @q_delete_mid_loop_spec h head fuel ps ps head
    (h.next head) hw.links.chain hw.links.chain hhd hw.alive
    (fun x hx => hw.alive x (List.mem_cons_of_mem _ hx)) (by omega) hf
  obtain ⟨y, hy⟩ : ∃ y, ps[ps.length / 2]? = some y :=
    ⟨ps[ps.length / 2], List.getElem?_eq_getElem hi⟩
  have hnt : h.next t = some y := Chain.next_getElem ps head _ _ t y hw.links.chain ht hy
  have hat : h.alive t = true := hw.alive t (List.getElem?_mem ht)
  have hsplit := split_at_getElem ps _ y hy
  have hw' : WF h head (ps.take (ps.length / 2) ++ y :: ps.drop (ps.length / 2 + 1)) := by
    rw [← hsplit]; exact hw
  obtain ⟨h1, h2, hd, hr, hw2, -, -, -⟩ := WF.delete _ _ y hw'
  refine ⟨h2, true, _, ?_, hw2⟩
  simp [q_delete_mid, hw.empty_test, hne, getNext_alive hah, hloop, loadLoc, getNext_alive hat,
    hnt, hd, hr]

theorem q_swap_wf (fuel : Nat) (h : Heap) (head : Ptr) (ps : List Ptr) (hw : WF h head ps)
    (hf : ps.length < fuel) :
    ∃ h2, q_swap fuel h (some head) = some h2 ∧ WF h2 head (swapPairs ps) ∧
      h2.value = h.value ∧ h2.alive = h.alive ∧
      (∀ q, q ∉ head :: ps → h2.next q = h.next q ∧ h2.prev q = h.prev q) := by
  have hah : h.alive head = true := hw.alive head (by simp)
  have hhd : head ∉ ps := (List.nodup_cons.1 hw.nodup).1
  by_cases hne : ps = []
  · subst hne
    exact ⟨h, by simp [q_swap, hw.empty_test], hw, rfl, rfl, fun _ _ => ⟨rfl, rfl⟩⟩
  · obtain ⟨h2, hrun, hd2, h2a, h2v, hfn, hfp⟩ :=
      q_swap_loop_spec fuel ps h head head hw.links hw.alive hah hw.nodup hhd hf
    refine ⟨h2, by simp [q_swap, hw.empty_test, hne, hrun], ⟨?_, ?_, hd2⟩, h2v, h2a,
      fun q hq => ⟨hfn q hq, hfp q (fun m => hq ?_)⟩⟩
    · exact ((swapPairs_perm ps).cons head).nodup_iff.2 hw.nodup
    · intro x hx
      rw [h2a]
      exact hw.alive x (((swapPairs_perm ps).cons head).mem_iff.1 hx)
    · simp only [List.mem_cons, List.mem_append, List.mem_singleton] at m ⊢
      tauto

/-! ## Relinking only -/

/-- C17: `q_swap`, `q_reverse` and `q_sort` only relink existing nodes.  On every well-formed
queue (of NUL-terminated strings, for `q_sort`) each of them returns a well-formed queue whose
elements are a permutation without repetition of the elements before (the same node
identities, none added, removed or duplicated); no block is allocated or freed and no string
buffer is written (`alive` and `value` are the fields before), and the `next` and `prev` fields
of blocks outside the queue are untouched. -/
theorem relink_only (fuel : Nat) (h : Heap) (head : Ptr) (ps : List Ptr)
    (hw : WF h head ps) (hst : Strs h ps) (hf : ps.length < fuel) :
    (∃ h2 ps2, q_swap fuel h (some head) = some h2 ∧ WF h2 head ps2 ∧
      forward fuel h2 head = some ps2 ∧ ps2.Perm ps ∧ ps2.Nodup ∧
      (∀ p, p ∈ ps2 ↔ p ∈ ps) ∧ h2.value = h.value ∧ h2.alive = h.alive ∧
      (∀ q, q ∉ head :: ps → h2.next q = h.next q ∧ h2.prev q = h.prev q)) ∧
    (∃ h2 ps2, q_reverse fuel h (some head) = some h2 ∧ WF h2 head ps2 ∧
      forward fuel h2 head = some ps2 ∧ ps2.Perm ps ∧ ps2.Nodup ∧
      (∀ p, p ∈ ps2 ↔ p ∈ ps) ∧ h2.value = h.value ∧ h2.alive = h.alive ∧
      (∀ q, q ∉ head :: ps → h2.next q = h.next q ∧ h2.prev q = h.prev q)) ∧
    (∃ h2 ps2, q_sort fuel h (some head) = some h2 ∧ WF h2 head ps2 ∧
      forward fuel h2 head = some ps2 ∧ ps2.Perm ps ∧ ps2.Nodup ∧
      (∀ p, p ∈ ps2 ↔ p ∈ ps) ∧ h2.value = h.value ∧ h2.alive = h.alive ∧
      (∀ q, q ∉ head :: ps → h2.next q = h.next q ∧ h2.prev q = h.prev q)) := by
  have hnd : ps.Nodup := (List.nodup_cons.1 hw.nodup).2
  refine ⟨?_, ?_, ?_⟩
  · obtain ⟨h2, e2, w2, hv, ha, hfr⟩ := q_swap_wf fuel h head ps hw hf
    have hp := swapPairs_perm ps
    exact ⟨h2, _, e2, w2, w2.forward (by rw [hp.length_eq]; exact hf), hp, hp.nodup_iff.2 hnd,
      fun p => hp.mem_iff, hv, ha, hfr⟩
  · obtain ⟨h2, e2, w2, ha, hv, hn, hpv, -⟩ := q_reverse_wf fuel h head ps hw hf
    have hp := List.reverse_perm ps
    exact ⟨h2, _, e2, w2, w2.forward (by rw [hp.length_eq]; exact hf), hp, hp.nodup_iff.2 hnd,
      fun p => hp.mem_iff, hv, ha,
      fun q hq => ⟨by rw [hn q, if_neg hq], by rw [hpv q, if_neg hq]⟩⟩
  · obtain ⟨h2, e2, w2, hv, ha, hfr⟩ := q_sort_spec fuel h head ps hw hst hf
    have hp : (ps.mergeSort (nodeLe h.value)).Perm ps := List.mergeSort_perm _ _
    exact ⟨h2, _, e2, w2, w2.forward (by rw [hp.length_eq]; exact hf), hp, hp.nodup_iff.2 hnd,
      fun p => hp.mem_iff, hv, ha, hfr⟩

theorem relink_only_witness :
    WF (queueOf [[99], [97], [98]]) 0 [1, 2, 3] ∧ Strs (queueOf [[99], [97], [98]]) [1, 2, 3] ∧
    (∃ h2 ps2, q_sort 4 (queueOf [[99], [97], [98]]) (some 0) = some h2 ∧ WF h2 0 ps2 ∧
      forward 4 h2 0 = some ps2 ∧ ps2.Perm [1, 2, 3] ∧ ps2.Nodup ∧
      (∀ p, p ∈ ps2 ↔ p ∈ [1, 2, 3]) ∧ h2.value = (queueOf [[99], [97], [98]]).value ∧
      h2.alive = (queueOf [[99], [97], [98]]).alive ∧
      (∀ q, q ∉ [0, 1, 2, 3] → h2.next q = (queueOf [[99], [97], [98]]).next q ∧
        h2.prev q = (queueOf [[99], [97], [98]]).prev q)) :=
  ⟨by decide, by decide,
    (relink_only 4 (queueOf [[99], [97], [98]]) 0 [1, 2, 3] (by decide) (by decide)
      (by decide)).2.2⟩

/-! ## The split of the merge sort -/

theorem mergesort_list_cut (fuel : Nat) (h h1 : Heap) (a b : Ptr) (mid : Option Ptr)
    (ha : h.alive a = true) (hn : h.next a = some b)
    (hcut : mergesort_cut (fuel + 1) h (some a) = some (h1, mid)) :
    mergesort_list (fuel + 1) h (some a) =
      (mergesort_list fuel h1 (some a)).bind (fun l =>
        (mergesort_list fuel l.1 mid).bind (fun r =>
          mergeTwoLists (fuel + 1) r.1 l.2 r.2)) := by
  simp only [mergesort_cut, getNext_alive ha, hn, Option.bind_eq_bind, Option.some_bind,
    Option.pure_def] at hcut
  cases hs : mergesort_split (fuel + 1) h (some a) (some b) with
  | none => simp [hs] at hcut
  | some slow =>
    rw [hs, Option.some_bind] at hcut
    cases hm : getNext h slow with
    | none => simp [hm] at hcut
    | some m =>
      rw [hm, Option.some_bind] at hcut
      cases hset : setNext h slow none with
      | none => simp [hset] at hcut
      | some g =>
        rw [hset, Option.some_bind] at hcut
        obtain ⟨e1, e2⟩ := Prod.mk.inj (Option.some.inj hcut)
        subst e1
        subst e2
        simp only [mergesort_list, getNext_alive ha, hn, hs, hm, hset, Option.bind_eq_bind,
          Option.some_bind, Option.pure_def]

theorem mergesort_cut_chain (fuel : Nat) (h : Heap) (a b : Ptr) (xs : List Ptr)
    (hc : Chain h.next (some a) (a :: b :: xs) none) (hnd : (a :: b :: xs).Nodup)
    (hal : ∀ x ∈ a :: b :: xs, h.alive x = true) (hf : xs.length + 2 < fuel) :
    ∃ h1 m, mergesort_cut fuel h (some a) = some (h1, some m) ∧
      Chain h1.next (some a) ((a :: b :: xs).take ((xs.length + 3) / 2)) none ∧
      Chain h1.next (some m) ((a :: b :: xs).drop ((xs.length + 3) / 2)) none ∧
      h1.alive = h.alive ∧ h1.prev = h.prev ∧ h1.value = h.value := by
  have e2 : h.next a = some b := hc.2.1
  have hlen : (b :: xs).length / 2 + 1 = (xs.length + 3) / 2 := by simp; omega
  obtain ⟨y, hy, hsplit⟩ := mergesort_split_spec fuel (b :: xs) (b :: xs) h a (some b)
    none hc (by rw [← e2]; exact hc.2) hal
    (fun z hz => hal z (List.mem_cons_of_mem _ hz)) (by omega) (by simp; omega)
  have hym : y ∈ a :: b :: xs := List.getElem?_mem hy
  have hay : h.alive y = true := hal y hym
  obtain ⟨cl, cr⟩ := Chain.cut (a :: b :: xs) _ (some a) y hc hnd hy
  rw [hlen] at cl cr
  have hset := setNext_alive (h := h) none hay
  have hdk : (a :: b :: xs).drop ((xs.length + 3) / 2) ≠ [] := by
    intro e
    have := congrArg List.length e
    simp at this
    omega
  obtain ⟨m, rest, hmr⟩ := List.exists_cons_of_ne_nil hdk
  have hmid : h.next y = some m := by
    rw [hmr] at cr
    exact cr.1
  refine ⟨{ h with next := Function.update h.next y none }, m, ?_, cl, ?_, rfl, rfl, rfl⟩
  · simp [mergesort_cut, getNext_alive (hal a (by simp)), e2, hsplit, getNext_alive hay, hmid,
      hset]
  · rw [← hmid]; exact cr

/-- C18: the fast/slow split of `mergesort_list` on a null-terminated chain of `n >= 2` nodes
cuts it into the chain of its first `⌈n / 2⌉` nodes, from `head`, and the chain of its last
`⌊n / 2⌋` nodes, from `mid`; both are non-empty (so neither recursive call is on `NULL`) and
strictly shorter than `n`, and the two recursive calls are on these chains.  Hence
`mergesort_list` returns whenever the fuel exceeds `n`, and `q_sort` on a non-empty
well-formed queue, which calls it on `head->next`, a non-null pointer, returns: no read of
`head->next` in `mergesort_list` fails, as it would on the null chain. -/
theorem mergesort_cut_halves (fuel : Nat) (h : Heap) (head : Option Ptr) (ps : List Ptr)
    (hc : Chain h.next head ps none) (hnd : ps.Nodup) (hal : ∀ x ∈ ps, h.alive x = true)
    (hn : 2 ≤ ps.length) (hf : ps.length < fuel) :
    (∃ h1 m, mergesort_cut fuel h head = some (h1, some m) ∧
      Chain h1.next head (ps.take ((ps.length + 1) / 2)) none ∧
      Chain h1.next (some m) (ps.drop ((ps.length + 1) / 2)) none ∧
      ps.take ((ps.length + 1) / 2) ++ ps.drop ((ps.length + 1) / 2) = ps ∧
      (ps.take ((ps.length + 1) / 2)).length = (ps.length + 1) / 2 ∧
      (ps.drop ((ps.length + 1) / 2)).length = ps.length / 2 ∧
      0 < (ps.length + 1) / 2 ∧ (ps.length + 1) / 2 < ps.length ∧
      0 < ps.length / 2 ∧ ps.length / 2 < ps.length ∧ head ≠ none ∧
      mergesort_list fuel h head =
        (mergesort_list (fuel - 1) h1 head).bind (fun l =>
          (mergesort_list (fuel - 1) l.1 (some m)).bind (fun r =>
            mergeTwoLists fuel r.1 l.2 r.2))) ∧
    (Strs h ps → ∃ h2 r, mergesort_list fuel h head = some (h2, r) ∧ r ≠ none) ∧
    (∀ (g : Heap) (hd : Ptr) (qs : List Ptr), WF g hd qs → Strs g qs → qs ≠ [] →
      qs.length < fuel → ∃ x g2, g.next hd = some x ∧ q_sort fuel g (some hd) = some g2) ∧
    (∀ (f : Nat) (g : Heap), mergesort_list f g none = none) := by
  refine ⟨?_, fun hst => ?_, fun g hd qs hw hst hne hfq => ?_, mergesort_list_null⟩
  · match ps, hc, hnd, hal, hn, hf with
    | a :: b :: xs, hc, hnd, hal, _, hf =>
      have e : head = some a := hc.1
      subst e
      obtain ⟨f, rfl⟩ : ∃ f, fuel = f + 1 := ⟨fuel - 1, by simp at hf; omega⟩
      obtain ⟨h1, m, hcut, cl, cr, -, -, -⟩ :=
        mergesort_cut_chain (f + 1) h a b xs hc hnd hal (by simp at hf; omega)
      have hk : ((a :: b :: xs).length + 1) / 2 = (xs.length + 3) / 2 := by simp
      rw [hk]
      refine ⟨h1, m, hcut, cl, cr, List.take_append_drop _ _, ?_, ?_, ?_, ?_, ?_, ?_, by simp,
        ?_⟩
      · simp only [List.length_take, List.length_cons]; omega
      · simp only [List.length_drop, List.length_cons]; omega
      · omega
      · simp only [List.length_cons]; omega
      · simp only [List.length_cons]; omega
      · simp only [List.length_cons]; omega
      · exact mergesort_list_cut f h h1 a b (some m) (hal a (by simp)) hc.2.1 hcut
  · have hne : ps ≠ [] := fun e => by simp [e] at hn
    obtain ⟨h2, r, hrun, hch, -⟩ := mergesort_list_spec fuel ps h head hc hne hnd hal hst hf
    refine ⟨h2, r, hrun, fun e => ?_⟩
    have hp := (List.mergeSort_perm ps (nodeLe h.value)).length_eq
    rw [e] at hch
    cases hS : ps.mergeSort (nodeLe h.value) with
    | nil =>
      rw [hS] at hp
      simp at hp
      omega
    | cons x xs =>
      rw [hS] at hch
      exact Option.noConfusion hch.1
  · obtain ⟨x, xs, e⟩ := List.exists_cons_of_ne_nil hne
    subst e
    obtain ⟨g2, hrun, -⟩ := q_sort_spec fuel g hd (x :: xs) hw hst hfq
    exact ⟨x, g2, hw.links.1, hrun⟩

theorem mergesort_cut_halves_witness :
    Chain ((queueOf [[99], [97], [98]]).setN 3 none).next (some 1) [1, 2, 3] none ∧
    ([1, 2, 3] : List Ptr).Nodup ∧
    (∀ x ∈ ([1, 2, 3] : List Ptr), ((queueOf [[99], [97], [98]]).setN 3 none).alive x = true) ∧
    2 ≤ ([1, 2, 3] : List Ptr).length ∧ ([1, 2, 3] : List Ptr).length < 4 ∧
    ∃ h1 m, mergesort_cut 4 ((queueOf [[99], [97], [98]]).setN 3 none) (some 1) =
        some (h1, some m) ∧
      Chain h1.next (some 1) [1, 2] none ∧ Chain h1.next (some m) [3] none :=
  ⟨by simp only [Chain]; decide, by decide, by decide, by decide, by decide, by
    obtain ⟨h1, m, hcut, cl, cr, -⟩ :=
      (mergesort_cut_halves 4 ((queueOf [[99], [97], [98]]).setN 3 none) (some 1) [1, 2, 3]
        (by simp only [Chain]; decide) (by decide) (by decide) (by decide) (by decide)).1
    exact ⟨h1, m, hcut, cl, cr⟩⟩

/-! ## `q_delete_dup` on any queue: runs of equal strings -/

theorem runs_cons (k : Ptr → List Nat) (x : Ptr) (xs : List Ptr) :
    runs k (x :: xs) =
      match runs k xs with
      | [] => [[x]]
      | r :: rs => if r.head?.map k = some (k x) then (x :: r) :: rs else [x] :: r :: rs :=
  rfl

/-- The list `runs k ps` is the decomposition of `ps` into maximal runs: its concatenation is
`ps`, every run is non-empty with one key, and adjacent runs have different keys. -/
theorem runs_spec (k : Ptr → List Nat) : ∀ ps : List Ptr,
    (runs k ps).flatten = ps ∧
      (∀ run ∈ runs k ps, run ≠ [] ∧ ∀ a ∈ run, ∀ b ∈ run, k a = k b) ∧
      (runs k ps).Chain' (fun r1 r2 => ∀ a ∈ r1, ∀ b ∈ r2, k a ≠ k b)
  | [] => by simp [runs]
  | x :: xs => by
    obtain ⟨hj, hrun, hch⟩ := runs_spec k xs
    rw [runs_cons]
    cases hr : runs k xs with
    | nil =>
      rw [hr] at hj
      have : xs = [] := by simpa using hj.symm
      subst this
      simp
    | cons r rs =>
      rw [hr] at hj hrun hch
      obtain ⟨hne, hconst⟩ := hrun r (by simp)
      obtain ⟨y, r2, e⟩ := List.exists_cons_of_ne_nil hne
      subst e
      have hy : ∀ b ∈ y :: r2, k b = k y := fun b hb => hconst b hb y (by simp)
      by_cases hxy : k y = k x
      · simp only [List.head?_cons, Option.map_some', hxy, if_true]
        refine ⟨by simpa using hj, ?_, ?_⟩
        · intro run hm
          rcases List.mem_cons.1 hm with e | hm
          · subst e
            refine ⟨by simp, fun a ha b hb => ?_⟩
            have ha2 : k a = k y := by
              rcases List.mem_cons.1 ha with e | ha
              · rw [e, hxy]
              · exact hy a ha
            have hb2 : k b = k y := by
              rcases List.mem_cons.1 hb with e | hb
              · rw [e, hxy]
              · exact hy b hb
            rw [ha2, hb2]
          · exact hrun run (List.mem_cons_of_mem _ hm)
        · cases rs with
          | nil => exact List.chain'_singleton _
          | cons s rs2 =>
            rw [List.chain'_cons] at hch ⊢
            refine ⟨fun a ha b hb => ?_, hch.2⟩
            have ha2 : k a = k y := by
              rcases List.mem_cons.1 ha with e | ha
              · rw [e, hxy]
              · exact hy a ha
            rw [ha2]
            exact hch.1 y (by simp) b hb
      · have hif : ¬ (some (k y) = some (k x)) := fun e => hxy (Option.some.inj e)
        simp only [List.head?_cons, Option.map_some', hif, if_false]
        refine ⟨by simpa using hj, ?_, ?_⟩
        · intro run hm
          rcases List.mem_cons.1 hm with e | hm
          · subst e
            refine ⟨by simp, fun a ha b hb => ?_⟩
            have ea : a = x := by simpa using ha
            have eb : b = x := by simpa using hb
            rw [ea, eb]
          · exact hrun run hm
        · rw [List.chain'_cons]
          refine ⟨fun a ha b hb => ?_, hch⟩
          have ea : a = x := by simpa using ha
          rw [ea, hy b hb]
          exact fun e => hxy e.symm

/-- The pass of `q_delete_dup` in terms of runs: the run of the candidate `c` is `c :: T`, and
the pass keeps `c` when it is not flagged and its run is `[c]`, then the runs of length one
among the runs `RS` that follow. -/
theorem dedupGo_runs (k : Ptr → List Nat) : ∀ (r : List Ptr) (c : Ptr),
    ∃ T RS, (∀ c2, k c2 = k c → runs k (c2 :: r) = (c2 :: T) :: RS) ∧
      ∀ dup, dedupGo k c dup r =
        (if dup = true ∨ T ≠ [] then [] else [c]) ++
          (RS.filter (fun run => decide (run.length = 1))).flatten
  | [], c => ⟨[], [], fun c2 _ => rfl, fun dup => by cases dup <;> simp [dedupGo]⟩
  | x :: r, c => by
    obtain ⟨T, RS, hcong, hded⟩ := dedupGo_runs k r x
    have hx := hcong x rfl
    by_cases hcx : k c = k x
    · refine ⟨x :: T, RS, fun c2 h2 => ?_, fun dup => ?_⟩
      · rw [runs_cons, hx]
        simp [h2, hcx]
      · obtain ⟨T2, RS2, hcong2, hded2⟩ := dedupGo_runs k r c
        have e1 := hcong2 c rfl
        rw [hcong c hcx] at e1
        have e3 : RS = RS2 := (List.cons.inj e1).2
        simp [dedupGo, hcx, hded2 true, e3]
    · refine ⟨[], (x :: T) :: RS, fun c2 h2 => ?_, fun dup => ?_⟩
      · rw [runs_cons, hx]
        have : ¬ (k x = k c2) := fun e => hcx (by rw [← h2, e])
        simp [this]
      · have e : dedupGo k c dup (x :: r) = (if dup then [] else [c]) ++ dedupGo k x false r := by
          simp [dedupGo, hcx]
        rw [e, hded false]
        cases T with
        | nil => cases dup <;> simp
        | cons t T => cases dup <;> simp

/-- The elements `q_delete_dup` keeps are the runs of length one. -/
theorem dedup_runs (k : Ptr → List Nat) (ps : List Ptr) :
    dedup k ps = ((runs k ps).filter (fun run => decide (run.length = 1))).flatten := by
  cases ps with
  | nil => rfl
  | cons c r =>
    obtain ⟨T, RS, hcong, hded⟩ := dedupGo_runs k r c
    rw [dedup, hded false, hcong c rfl]
    cases T with
    | nil => simp
    | cons t T => simp

theorem keep_runs_mem (k : Ptr → List Nat) (ps : List Ptr) (hnd : ps.Nodup) :
    ∀ run ∈ runs k ps,
      (run.length = 1 → ∀ p ∈ run,
        p ∈ ((runs k ps).filter (fun run => decide (run.length = 1))).flatten) ∧
      (2 ≤ run.length → ∀ p ∈ run,
        p ∉ ((runs k ps).filter (fun run => decide (run.length = 1))).flatten) := by
  intro run hrun
  obtain ⟨hj, -, -⟩ := runs_spec k ps
  rw [← hj, List.nodup_flatten] at hnd
  refine ⟨fun h1 p hp => ?_, fun h2 p hp hm => ?_⟩
  · exact List.mem_flatten.2 ⟨run, List.mem_filter.2 ⟨hrun, by simpa using h1⟩, hp⟩
  · obtain ⟨run2, hm2, hp2⟩ := List.mem_flatten.1 hm
    obtain ⟨hr2, hl2⟩ := List.mem_filter.1 hm2
    have hl2 : run2.length = 1 := by simpa using hl2
    have hne : run ≠ run2 := fun e => by rw [e] at h2; omega
    have hsym : Symmetric (List.Disjoint : List Ptr → List Ptr → Prop) :=
      fun _ _ h => h.symm
    exact (hnd.2.forall hsym hrun hr2 hne) hp hp2

theorem filter_flatten_length_le (p : List Ptr → Bool) : ∀ L : List (List Ptr),
    ((L.filter p).flatten).length ≤ L.flatten.length
  | [] => by simp
  | l :: L => by
    have ih := filter_flatten_length_le p L
    rw [List.filter_cons]
    split
    · simp only [List.flatten_cons, List.length_append]
      omega
    · simp only [List.flatten_cons, List.length_append]
      omega

/-- C19: for every well-formed queue of NUL-terminated strings, sorted or not, `q_delete_dup`
returns `true` and leaves the well-formed queue of the runs of length one, in their original
order, where the runs are the maximal runs of adjacent equal strings (their concatenation is
the traversal, each run is non-empty with one string, adjacent runs have different strings):
every element of a run of length one is kept and every element of a run of two or more is
removed.  Strings are untouched, so equal strings in different runs of length one both
stay. -/
theorem q_delete_dup_runs (fuel : Nat) (h : Heap) (head : Ptr) (ps : List Ptr)
    (hw : WF h head ps) (hst : Strs h ps) (hf : ps.length < fuel) :
    ∃ h2 ps2, q_delete_dup fuel h (some head) = some (h2, true) ∧ WF h2 head ps2 ∧
      forward fuel h2 head = some ps2 ∧ h2.value = h.value ∧
      ps2 = ((runs (fun p => cstr (h.value p)) ps).filter
        (fun run => decide (run.length = 1))).flatten ∧
      (runs (fun p => cstr (h.value p)) ps).flatten = ps ∧
      (∀ run ∈ runs (fun p => cstr (h.value p)) ps, run ≠ [] ∧
        ∀ a ∈ run, ∀ b ∈ run, cstr (h.value a) = cstr (h.value b)) ∧
      (runs (fun p => cstr (h.value p)) ps).Chain'
        (fun r1 r2 => ∀ a ∈ r1, ∀ b ∈ r2, cstr (h.value a) ≠ cstr (h.value b)) ∧
      (∀ run ∈ runs (fun p => cstr (h.value p)) ps,
        (run.length = 1 → ∀ p ∈ run, p ∈ ps2) ∧ (2 ≤ run.length → ∀ p ∈ run, p ∉ ps2)) := by
  obtain ⟨h2, hrun, hw2, hv⟩ := q_delete_dup_spec fuel h head ps hw hst hf
  rw [dedup_runs] at hw2
  obtain ⟨hj, hconst, hch⟩ := runs_spec (fun p => cstr (h.value p)) ps
  have hlen : (((runs (fun p => cstr (h.value p)) ps).filter
      (fun run => decide (run.length = 1))).flatten).length ≤ ps.length := by
    have h1 := filter_flatten_length_le (fun run => decide (run.length = 1))
      (runs (fun p => cstr (h.value p)) ps)
    rw [hj] at h1
    exact h1
  exact ⟨h2, _, hrun, hw2, hw2.forward (by omega), hv, rfl, hj, hconst, hch,
    keep_runs_mem _ ps (List.nodup_cons.1 hw.nodup).2⟩

theorem q_delete_dup_runs_witness :
    WF (queueOf [[97], [98], [98], [97]]) 0 [1, 2, 3, 4] ∧
    Strs (queueOf [[97], [98], [98], [97]]) [1, 2, 3, 4] ∧
    ([1, 2, 3, 4] : List Ptr).length < 5 ∧
    ∃ h2 ps2, q_delete_dup 5 (queueOf [[97], [98], [98], [97]]) (some 0) = some (h2, true) ∧
      WF h2 0 ps2 ∧ forward 5 h2 0 = some ps2 ∧
      h2.value = (queueOf [[97], [98], [98], [97]]).value ∧
      ps2 = ((runs (fun p => cstr ((queueOf [[97], [98], [98], [97]]).value p))
        [1, 2, 3, 4]).filter (fun run => decide (run.length = 1))).flatten :=
  ⟨by decide, by decide, by decide, by
    obtain ⟨h2, ps2, h1, h3, h4, h5, h6, -⟩ :=
      q_delete_dup_runs 5 (queueOf [[97], [98], [98], [97]]) 0 [1, 2, 3, 4] (by decide)
        (by decide) (by decide)
    exact ⟨h2, ps2, h1, h3, h4, h5, h6⟩⟩

/-- The example of C19: on the unsorted queue `a b b a` the function `q_delete_dup` returns
`true` and leaves `a a`, the first and the last element; the runs are `a`, `b b`, `a`. -/
theorem q_delete_dup_unsorted_example :
    runs (fun p => cstr ((queueOf [[97], [98], [98], [97]]).value p)) [1, 2, 3, 4] =
      [[1], [2, 3], [4]] ∧
    (q_delete_dup 5 (queueOf [[97], [98], [98], [97]]) (some 0)).bind
        (fun r => (forward 5 r.1 0).map (fun ps => (r.2, ps, values r.1 ps))) =
      some (true, [1, 4], [[97], [97]]) := by
  decide

/-! ## The copy into the caller's buffer -/

theorem size_sub_one (a : Nat) (h1 : 1 ≤ a) (h2 : a < 2 ^ 64) : size_sub a 1 = a - 1 := by
  unfold size_sub
  omega

theorem cstr_append_zero : ∀ (a rest : List Nat), (0 : Nat) ∉ a → cstr (a ++ 0 :: rest) = a
  | [], _, _ => by simp [cstr]
  | c :: cs, rest, h => by
    have hc : c ≠ 0 := fun e => h (by simp [e])
    have ih := cstr_append_zero cs rest (fun m => h (List.mem_cons_of_mem _ m))
    simp only [cstr] at ih ⊢
    simp only [List.cons_append, List.takeWhile, hc, ne_eq, not_false_eq_true, decide_True]
    exact congrArg (List.cons c) ih

/-- A buffer that holds a string of length `len` is that string, a NUL, and what follows. -/
theorem strlen_split (v : List Nat) (len : Nat) (hv : strlen v = some len) :
    (cstr v).length = len ∧ v = cstr v ++ 0 :: v.drop (len + 1) := by
  obtain ⟨hlt, hc, hz⟩ := strlen_spec v len hv
  have hz2 : v[len] = 0 := by
    rw [List.getElem?_eq_getElem hlt] at hz
    exact Option.some.inj hz
  refine ⟨by rw [hc, List.length_take]; omega, ?_⟩
  rw [hc]
  have hd : v.drop len = v[len] :: v.drop (len + 1) := List.drop_eq_getElem_cons hlt
  rw [hz2] at hd
  rw [← hd, List.take_append_drop]

/-- The copy `memcpy(sp, m, n); sp[n] = 0` from memory `m` that holds `n` bytes, into a buffer
of more than `n` bytes, returns. -/
theorem copy_returns (buf m : List Nat) (n : Nat) (hn : n < buf.length) (hm : n ≤ m.length) :
    memcpy buf m n = some (m.take n ++ buf.drop n) ∧
      bufSet (m.take n ++ buf.drop n) n 0 = some (m.take n ++ 0 :: buf.drop (n + 1)) ∧
      (m.take n ++ 0 :: buf.drop (n + 1)).length = buf.length := by
  have hl : (m.take n).length = n := by rw [List.length_take]; omega
  refine ⟨?_, ?_, ?_⟩
  · simp only [memcpy]
    rw [if_pos ⟨hm, by omega⟩]
  · simp only [bufSet]
    rw [if_pos (by simp only [List.length_append, hl, List.length_drop]; omega)]
    rw [List.set_append_right _ _ (by rw [hl]), hl, Nat.sub_self]
    have hd : buf.drop n = buf[n] :: buf.drop (n + 1) := List.drop_eq_getElem_cons hn
    rw [hd, List.set_cons_zero]
  · simp only [List.length_append, hl, List.length_cons, List.length_drop]
    omega

/-- The copy `memcpy(sp, m, n); sp[n] = 0` from memory `m` that starts with the string `s`,
its terminator, and anything after: the caller's buffer then reads as the first `n` bytes of
`s`, whatever follows the terminator. -/
theorem copy_string (buf s rest : List Nat) (n : Nat) (hs : (0 : Nat) ∉ s)
    (hn : n < buf.length) (hm : n ≤ (s ++ 0 :: rest).length) :
    ∃ b2, (memcpy buf (s ++ 0 :: rest) n).bind (fun b1 => bufSet b1 n 0) = some b2 ∧
      b2.length = buf.length ∧ cstr b2 = s.take n := by
  obtain ⟨e1, e2, e3⟩ := copy_returns buf (s ++ 0 :: rest) n hn hm
  refine ⟨_, by rw [e1, Option.some_bind, e2], e3, ?_⟩
  by_cases hc : n ≤ s.length
  · rw [List.take_append_of_le_length hc]
    exact cstr_append_zero _ _ (fun m => hs (List.mem_of_mem_take m))
  · have hk : n - s.length = (n - s.length - 1) + 1 := by omega
    rw [List.take_append_eq_append_take, List.take_of_length_le (by omega), hk, List.take_succ_cons,
      List.append_assoc, List.cons_append]
    exact cstr_append_zero _ _ hs

/-- The copy of a removal from the memory at a string buffer `v` that holds a string of length
`len`: it returns, and the caller's buffer reads as the first `min len n` bytes of the string,
whatever bytes lie after the buffer. -/
theorem copy_memory (buf v : List Nat) (len n : Nat) (past : Nat → Nat)
    (hv : strlen v = some len) (hn : n < buf.length) :
    ∃ b2, (memcpy buf (v ++ (List.range (n - v.length)).map past) n).bind
        (fun b1 => bufSet b1 n 0) = some b2 ∧
      b2.length = buf.length ∧ cstr b2 = (cstr v).take (min len n) := by
  obtain ⟨hl, hsplit⟩ := strlen_split v len hv
  have hmem : v ++ (List.range (n - v.length)).map past =
      cstr v ++ 0 :: (v.drop (len + 1) ++ (List.range (n - v.length)).map past) := by
    calc v ++ (List.range (n - v.length)).map past
        = (cstr v ++ 0 :: v.drop (len + 1)) ++ (List.range (n - v.length)).map past := by
          rw [← hsplit]
      _ = _ := by simp
  have hlen : n ≤ (v ++ (List.range (n - v.length)).map past).length := by
    simp only [List.length_append, List.length_map, List.length_range]
    omega
  rw [hmem] at hlen ⊢
  obtain ⟨b2, e1, e2, e3⟩ := copy_string buf (cstr v) _ n (cstr_no_nul v) hn hlen
  refine ⟨b2, e1, e2, ?_⟩
  rw [e3]
  by_cases hc : n ≤ len
  · rw [Nat.min_eq_right hc]
  · rw [Nat.min_eq_left (by omega), List.take_of_length_le (by omega),
      List.take_of_length_le (by omega)]

/-- C9: for every non-empty well-formed queue whose first (resp. last) element `x` holds a
string of length `len`, and every output buffer of at least `bufsize >= 1` bytes,
`q_remove_head` (resp. `q_remove_tail`) returns `x`, unlinked and still live; afterwards the
output buffer read as a NUL-terminated string is the first `min len (bufsize - 1)` bytes of the
string, whatever its capacity and whatever bytes lie in memory after the string buffer, and `x`
still holds its string unchanged.  The one condition is on the machine, not on the call: when
the copy of `bufsize - 1` bytes runs past the string buffer, that read must not fault. -/
theorem q_remove_copy_spec (h : Heap) (head x : Ptr) (ps : List Ptr) (buf : List Nat)
    (bufsize len : Nat) (hv : strlen (h.value x) = some len) (h1 : 1 ≤ bufsize)
    (hb : bufsize ≤ buf.length) (hlt : bufsize < 2 ^ 64)
    (hread : (h.value x).length < bufsize - 1 → (h.past x).isSome = true) :
    (WF h head (x :: ps) → ∃ h2 b2, q_remove_head h (some head) (some buf) bufsize =
        some ⟨h2, some x, some b2⟩ ∧ WF h2 head ps ∧ h2.value = h.value ∧
        h2.alive = h.alive ∧ getValue h2 (some x) = some (h.value x) ∧
        b2.length = buf.length ∧ (cstr (h.value x)).length = len ∧
        cstr b2 = (cstr (h.value x)).take (min len (bufsize - 1))) ∧
    (WF h head (ps ++ [x]) → ∃ h2 b2, q_remove_tail h (some head) (some buf) bufsize =
        some ⟨h2, some x, some b2⟩ ∧ WF h2 head ps ∧ h2.value = h.value ∧
        h2.alive = h.alive ∧ getValue h2 (some x) = some (h.value x) ∧
        b2.length = buf.length ∧ (cstr (h.value x)).length = len ∧
        cstr b2 = (cstr (h.value x)).take (min len (bufsize - 1))) := by
  have hl := (strlen_split _ len hv).1
  constructor
  · intro hw
    have hx : h.alive x = true := hw.alive x (by simp)
    obtain ⟨j, hj⟩ := getMemory_served (bufsize - 1) hx hread
    obtain ⟨b2, hm, hlen, hc⟩ := copy_memory buf (h.value x) len (bufsize - 1) j hv (by omega)
    obtain ⟨h2, -, hw2, ha, hv2, hrun⟩ := q_remove_head_eq x ps hw (some buf) bufsize
    simp only [size_sub_one bufsize h1 hlt] at hrun
    rw [hj, Option.some_bind, ← Option.bind_assoc, hm, Option.some_bind] at hrun
    have hax : h2.alive x = true := by rw [ha]; exact hx
    exact ⟨h2, b2, hrun, hw2, hv2, ha, by rw [getValue_alive hax, hv2], hlen, hl, hc⟩
  · intro hw
    have hx : h.alive x = true := hw.alive x (by simp)
    obtain ⟨j, hj⟩ := getMemory_served (bufsize - 1) hx hread
    obtain ⟨b2, hm, hlen, hc⟩ := copy_memory buf (h.value x) len (bufsize - 1) j hv (by omega)
    obtain ⟨h2, -, hw2, ha, hv2, hrun⟩ := q_remove_tail_eq x ps hw (some buf) bufsize
    simp only [size_sub_one bufsize h1 hlt] at hrun
    rw [hj, Option.some_bind, ← Option.bind_assoc, hm, Option.some_bind] at hrun
    have hax : h2.alive x = true := by rw [ha]; exact hx
    exact ⟨h2, b2, hrun, hw2, hv2, ha, by rw [getValue_alive hax, hv2], hlen, hl, hc⟩

theorem q_remove_copy_spec_witness :
    strlen ((queueOf [[97]]).value 1) = some 1 ∧ 1 ≤ 10 ∧
    10 ≤ (List.replicate 10 garbage).length ∧ 10 < 2 ^ 64 ∧
    (((queueOf [[97]]).value 1).length < 10 - 1 → ((queueOf [[97]]).past 1).isSome = true) ∧
    (WF (queueOf [[97]]) 0 (1 :: []) → ∃ h2 b2,
      q_remove_head (queueOf [[97]]) (some 0) (some (List.replicate 10 garbage)) 10 =
        some ⟨h2, some 1, some b2⟩ ∧ WF h2 0 [] ∧ h2.value = (queueOf [[97]]).value ∧
      h2.alive = (queueOf [[97]]).alive ∧
      getValue h2 (some 1) = some ((queueOf [[97]]).value 1) ∧
      b2.length = (List.replicate 10 garbage).length ∧
      (cstr ((queueOf [[97]]).value 1)).length = 1 ∧
      cstr b2 = (cstr ((queueOf [[97]]).value 1)).take (min 1 (10 - 1))) :=
  ⟨by decide, by decide, by decide, by decide, by decide,
    (q_remove_copy_spec (queueOf [[97]]) 0 1 [] (List.replicate 10 garbage) 10 1 (by decide)
      (by decide) (by decide) (by decide) (by decide)).1⟩

/-- The removals evaluated: on the queue holding `a`, with a buffer of capacity 10, both
return the element, the buffer reads `a` and the element still holds `a`; on the queue holding
`hello`, with a buffer of capacity 3, the buffer reads `he` and the element holds `hello`. -/
theorem q_remove_copy_example :
    (q_remove_head (queueOf [[97]]) (some 0) (some (List.replicate 10 garbage)) 10).map
        (fun r => (r.node, r.sp.map cstr)) = some (some 1, some [97]) ∧
    (q_remove_head (queueOf [[97]]) (some 0) (some (List.replicate 10 garbage)) 10).bind
        (fun r => getValue r.heap r.node) = some [97, 0] ∧
    (q_remove_tail (queueOf [[97]]) (some 0) (some (List.replicate 10 garbage)) 10).map
        (fun r => (r.node, r.sp.map cstr)) = some (some 1, some [97]) ∧
    (q_remove_tail (queueOf [[97]]) (some 0) (some (List.replicate 10 garbage)) 10).bind
        (fun r => getValue r.heap r.node) = some [97, 0] ∧
    (q_remove_head (queueOf [[104, 101, 108, 108, 111]]) (some 0)
        (some (List.replicate 3 garbage)) 3).map
        (fun r => (r.node, r.sp.map cstr)) = some (some 1, some [104, 101]) ∧
    (q_remove_head (queueOf [[104, 101, 108, 108, 111]]) (some 0)
        (some (List.replicate 3 garbage)) 3).bind
        (fun r => getValue r.heap r.node) = some [104, 101, 108, 108, 111, 0] := by
  decide

/-! ## The copy of a removal reads past the string -/

theorem WF.setPast {h : Heap} {head : Ptr} {ps : List Ptr} (hw : WF h head ps)
    (j : Ptr → Nat → Nat) : WF (h.setPast j) head ps :=
  ⟨hw.nodup, hw.alive, hw.links⟩

/-- When `bufsize - 1` exceeds the size of the string buffer of the removed element and the
memory after that buffer cannot be read, the `memcpy` of `q_remove_head` (resp.
`q_remove_tail`) faults. -/
theorem q_remove_fault {h : Heap} {head : Ptr} (x : Ptr) (ps : List Ptr) (buf : List Nat)
    (bufsize : Nat) (h1 : 1 ≤ bufsize) (hlt : bufsize < 2 ^ 64)
    (hgt : (h.value x).length < bufsize - 1) (hj : h.past x = none) :
    (WF h head (x :: ps) → q_remove_head h (some head) (some buf) bufsize = none) ∧
    (WF h head (ps ++ [x]) → q_remove_tail h (some head) (some buf) bufsize = none) := by
  constructor
  · intro hw
    obtain ⟨h2, -, -, -, -, hrun⟩ := q_remove_head_eq x ps hw (some buf) bufsize
    simp only [size_sub_one bufsize h1 hlt] at hrun
    rw [getMemory_fault _ (hw.alive x (by simp)) hgt hj] at hrun
    exact hrun
  · intro hw
    obtain ⟨h2, -, -, -, -, hrun⟩ := q_remove_tail_eq x ps hw (some buf) bufsize
    simp only [size_sub_one bufsize h1 hlt] at hrun
    rw [getMemory_fault _ (hw.alive x (by simp)) hgt hj] at hrun
    exact hrun

/-- When `bufsize - 1` exceeds the size of the string buffer of the removed element and the
memory after that buffer can be read, the `memcpy` of `q_remove_head` (resp. `q_remove_tail`)
reads the bytes `j` that lie after the buffer and copies them into the caller's buffer. -/
theorem q_remove_over {h : Heap} {head : Ptr} (x : Ptr) (ps : List Ptr) (buf : List Nat)
    (bufsize : Nat) (j : Nat → Nat) (h1 : 1 ≤ bufsize) (hb : bufsize ≤ buf.length)
    (hlt : bufsize < 2 ^ 64) (hgt : (h.value x).length ≤ bufsize - 1)
    (hj : h.past x = some j) :
    (WF h head (x :: ps) → ∃ h2, q_remove_head h (some head) (some buf) bufsize =
      some ⟨h2, some x, some (h.value x ++
        (List.range (bufsize - 1 - (h.value x).length)).map j ++
        0 :: buf.drop bufsize)⟩) ∧
    (WF h head (ps ++ [x]) → ∃ h2, q_remove_tail h (some head) (some buf) bufsize =
      some ⟨h2, some x, some (h.value x ++
        (List.range (bufsize - 1 - (h.value x).length)).map j ++
        0 :: buf.drop bufsize)⟩) := by
  have hml : (h.value x ++ (List.range (bufsize - 1 - (h.value x).length)).map
      j).length = bufsize - 1 := by
    simp only [List.length_append, List.length_map, List.length_range]
    omega
  obtain ⟨e1, e2, -⟩ := copy_returns buf (h.value x ++
    (List.range (bufsize - 1 - (h.value x).length)).map j) (bufsize - 1) (by omega)
    (by omega)
  rw [List.take_of_length_le (by omega)] at e1 e2
  have e3 : bufsize - 1 + 1 = bufsize := by omega
  rw [e3] at e2
  constructor
  · intro hw
    obtain ⟨h2, -, -, -, -, hrun⟩ := q_remove_head_eq x ps hw (some buf) bufsize
    simp only [size_sub_one bufsize h1 hlt] at hrun
    rw [getMemory_past _ j (hw.alive x (by simp)) hj, Option.some_bind, e1, Option.some_bind,
      e2, Option.some_bind] at hrun
    exact ⟨h2, hrun⟩
  · intro hw
    obtain ⟨h2, -, -, -, -, hrun⟩ := q_remove_tail_eq x ps hw (some buf) bufsize
    simp only [size_sub_one bufsize h1 hlt] at hrun
    rw [getMemory_past _ j (hw.alive x (by simp)) hj, Option.some_bind, e1, Option.some_bind,
      e2, Option.some_bind] at hrun
    exact ⟨h2, hrun⟩

/-- C16 at a failing input: the queue holds `ab` and `c`.  `q_remove_tail` with a buffer of
capacity 5 runs `memcpy(sp, node->value, 4)` on the two bytes of `c`, and `q_remove_head` with
a buffer of capacity 6 runs `memcpy(sp, node->value, 5)` on the three bytes of `ab`: neither
copy can be made from the string buffer, both read two bytes past the NUL terminator and past
the end of the buffer.  When the memory there cannot be read the call faults (the heap
`strict`); when it holds the bytes `j` the call returns and these bytes, which are not the
element's, end up in the caller's buffer.  With capacity `len + 2` the terminator is the last
byte read and nothing outside the buffer is touched. -/
theorem q_remove_copy_reads_past_nul (j : Ptr → Nat → Nat) :
    WF (queueOf [[97, 98], [99]]) 0 [1, 2] ∧
    (queueOf [[97, 98], [99]]).value 1 = [97, 98, 0] ∧
    (queueOf [[97, 98], [99]]).value 2 = [99, 0] ∧
    memcpy (List.replicate 5 garbage) [99, 0] 4 = none ∧
    memcpy (List.replicate 6 garbage) [97, 98, 0] 5 = none ∧
    (q_remove_tail (queueOf [[97, 98], [99]]).strict (some 0)
      (some (List.replicate 5 garbage)) 5).isNone = true ∧
    (q_remove_head (queueOf [[97, 98], [99]]).strict (some 0)
      (some (List.replicate 6 garbage)) 6).isNone = true ∧
    (q_remove_tail (queueOf [[97, 98], [99]]).strict (some 0)
      (some (List.replicate 3 garbage)) 3).map (fun r => (r.node, r.sp.map cstr)) =
        some (some 2, some [99]) ∧
    (q_remove_head (queueOf [[97, 98], [99]]).strict (some 0)
      (some (List.replicate 4 garbage)) 4).map (fun r => (r.node, r.sp.map cstr)) =
        some (some 1, some [97, 98]) ∧
    getMemory ((queueOf [[97, 98], [99]]).setPast j) (some 2) (size_sub 5 1) =
      some [99, 0, j 2 0, j 2 1] ∧
    getMemory ((queueOf [[97, 98], [99]]).setPast j) (some 1) (size_sub 6 1) =
      some [97, 98, 0, j 1 0, j 1 1] ∧
    (q_remove_tail ((queueOf [[97, 98], [99]]).setPast j) (some 0)
      (some (List.replicate 5 garbage)) 5).map (fun r => (r.node, r.sp)) =
        some (some 2, some [99, 0, j 2 0, j 2 1, 0]) ∧
    (q_remove_head ((queueOf [[97, 98], [99]]).setPast j) (some 0)
      (some (List.replicate 6 garbage)) 6).map (fun r => (r.node, r.sp)) =
        some (some 1, some [97, 98, 0, j 1 0, j 1 1, 0]) ∧
    (q_remove_tail ((queueOf [[97, 98], [99]]).setPast j) (some 0)
      (some (List.replicate 3 garbage)) 3).map (fun r => (r.node, r.sp)) =
        some (some 2, some [99, 0, 0]) ∧
    (q_remove_head ((queueOf [[97, 98], [99]]).setPast j) (some 0)
      (some (List.replicate 4 garbage)) 4).map (fun r => (r.node, r.sp)) =
        some (some 1, some [97, 98, 0, 0]) :=
  ⟨by decide, by decide, by decide, by decide, by decide, by decide, by decide, by decide,
    by decide, rfl, rfl, rfl, rfl, rfl, rfl⟩

/-! ## The queue refines the abstract list -/

theorem values_update (h : Heap) (ps : List Ptr) (p : Ptr) (buf : List Nat) (val : Ptr → List Nat)
    (hv : val = Function.update h.value p buf) (hp : p ∉ ps) :
    ps.map (fun q => cstr (val q)) = values h ps := by
  subst hv
  refine List.map_congr_left (fun q hq => ?_)
  have : q ≠ p := fun e => hp (e ▸ hq)
  simp [Function.update_noteq this]

theorem Shape.insert {h h2 : Heap} {ps : List Ptr} (hsh : Shape h ps) (p : Ptr) (s : List Nat)
    (hv : h2.value = Function.update h.value p (cstr s ++ [0])) :
    ∀ q, q ∈ p :: ps → h2.value q = cstr (h2.value q) ++ [0] := by
  intro q hq
  rw [hv]
  by_cases e : q = p
  · subst e
    simp [cstr_append_nul _ (cstr_no_nul s)]
  · simp only [Function.update_noteq e]
    exact hsh q ((List.mem_cons.1 hq).resolve_left e)

theorem take_min_length (v : List Nat) (n : Nat) : v.take (min v.length n) = v.take n := by
  by_cases h : n ≤ v.length
  · rw [Nat.min_eq_right h]
  · rw [Nat.min_eq_left (by omega), List.take_of_length_le (Nat.le_refl _),
      List.take_of_length_le (by omega)]

theorem strlen_of_shape (v : List Nat) (hv : v = cstr v ++ [0]) :
    strlen v = some (cstr v).length := by
  have := strlen_append_nul (cstr v) (cstr_no_nul v)
  rw [← hv] at this
  exact this

theorem strOk_isSome (s : List Nat) (hs : strOk s = true) : (strlen s).isSome = true := by
  unfold strOk at hs
  cases hl : strlen s with
  | none => rw [hl] at hs; exact absurd hs Bool.false_ne_true
  | some n => rfl

theorem absCopy_none (sp : Option (List Nat)) (bufsize : Nat) :
    absCopy sp bufsize none = sp.map cstr := by
  cases sp <;> rfl

/-- The outcome of a removal that returns the element `x` of a well-formed queue, as the
abstract list reports it: the string is read from the returned element, which is live. -/
theorem removed_out {h h2 : Heap} (x : Ptr) (sp : Option (List Nat)) (bufsize : Nat)
    (run : Option Removed)
    (hrun : run = match sp with
      | none => some ⟨h2, some x, none⟩
      | some buf =>
        (getMemory h (some x) (size_sub bufsize 1)).bind (fun m =>
          (memcpy buf m (size_sub bufsize 1)).bind (fun b1 =>
            (bufSet b1 (size_sub bufsize 1) 0).bind (fun b2 =>
              some ⟨h2, some x, some b2⟩))))
    (hsh : h.value x = cstr (h.value x) ++ [0]) (hv : h2.value = h.value)
    (hax : h2.alive x = true) (ha : h.alive x = true) (hok : spOk sp bufsize = true)
    (hread : sp.isSome = true → (h.past x).isSome = true) :
    run.bind (fun r => (removedOut r).bind (fun out => some (r.heap, out))) =
      some (h2, Out.removed (some (cstr (h.value x)))
        (absCopy sp bufsize (some (cstr (h.value x))))) := by
  cases sp with
  | none =>
    subst hrun
    simp [removedOut, absCopy, getValue_alive hax, hv]
  | some buf =>
    simp only [spOk, decide_eq_true_eq] at hok
    obtain ⟨h1, hb, hlt⟩ := hok
    obtain ⟨j, hj⟩ := getMemory_served (bufsize - 1) ha (fun _ => hread rfl)
    obtain ⟨b2, hm, -, hc⟩ := copy_memory buf (h.value x) _ (bufsize - 1) j
      (strlen_of_shape _ hsh) (by omega)
    simp only [size_sub_one bufsize h1 hlt] at hrun
    rw [hj, Option.some_bind, ← Option.bind_assoc, hm, Option.some_bind] at hrun
    subst hrun
    simp [removedOut, absCopy, getValue_alive hax, hv, hc, take_min_length]

/-- One call on a well-formed queue does what the same call does on the list of its strings. -/
theorem withBuf_isSome_head (sp : Option (List Nat)) (n : Nat) (hs : sp.isSome = true) :
    withBuf (Op.removeHead sp n) = true := by
  cases sp with
  | none => exact absurd hs (by simp)
  | some _ => rfl

theorem withBuf_isSome_tail (sp : Option (List Nat)) (n : Nat) (hs : sp.isSome = true) :
    withBuf (Op.removeTail sp n) = true := by
  cases sp with
  | none => exact absurd hs (by simp)
  | some _ => rfl

theorem q_insert_past {h h2 : Heap} {head : Ptr} (s : List Nat) (p : Ptr) (b : Bool)
    (hp : h.alive p = false) (hs : (strlen s).isSome = true) :
    (q_insert_head h (some head) s (some p) true = some (h2, b) → h2.past = h.past) ∧
    (q_insert_tail h (some head) s (some p) true = some (h2, b) → h2.past = h.past) := by
  obtain ⟨n, hn⟩ := Option.isSome_iff_exists.1 hs
  constructor
  · intro e
    simp only [q_insert_head, q_insert_alloc_ok h s p n hp hn, Option.bind_eq_bind,
      Option.some_bind, Option.pure_def, Option.bind_eq_some] at e
    obtain ⟨h3, e3, e4⟩ := e
    have e5 : h3 = h2 := (Prod.mk.inj (Option.some.inj e4)).1
    rw [← e5, list_add_past e3]
    rfl
  · intro e
    simp only [q_insert_tail, q_insert_alloc_ok h s p n hp hn, Option.bind_eq_bind,
      Option.some_bind, Option.pure_def, Option.bind_eq_some] at e
    obtain ⟨h3, e3, e4⟩ := e
    have e5 : h3 = h2 := (Prod.mk.inj (Option.some.inj e4)).1
    rw [← e5, list_add_tail_past e3]
    rfl

theorem stepOp_spec {h : Heap} {head : Ptr} {ps : List Ptr} (hw : WF h head ps)
    (hsh : Shape h ps) (op : Op) (hfresh : ∀ r ∈ allocs [op], h.alive r = false)
    (hok : opOk op = true) (hread : withBuf op = true → ∀ p, (h.past p).isSome = true) :
    ∃ h2 ps2, stepOp h head op = some (h2, (absStep (values h ps) op).2) ∧ WF h2 head ps2 ∧
      Shape h2 ps2 ∧ values h2 ps2 = (absStep (values h ps) op).1 ∧
      (∀ q, h2.alive q = true → h.alive q = true ∨ q ∈ allocs [op]) ∧ h2.past = h.past := by
  cases op with
  | insertHead s r =>
    have hr : h.alive r = false := hfresh r (by simp [allocs])
    obtain ⟨h2, hrun, hw2, hv, ha⟩ := q_insert_head_spec hw s r hr (strOk_isSome s hok)
    have hrp : r ∉ ps := fun m => (hw.alloc r [] hr).2 (List.mem_cons_of_mem _ m)
    refine ⟨h2, r :: ps, by simp [stepOp, hrun, absStep], hw2, hsh.insert r s hv, ?_, ?_,
      (q_insert_past s r true hr (strOk_isSome s hok)).1 hrun⟩
    · simp only [values, absStep, List.map_cons]
      rw [values_update h ps r _ h2.value hv hrp, hv]
      simp [cstr_append_nul _ (cstr_no_nul s), values]
    · intro q hq
      rw [ha] at hq
      by_cases e : q = r
      · right; simp [allocs, e]
      · left; simpa [Function.update_noteq e] using hq
  | insertTail s r =>
    have hr : h.alive r = false := hfresh r (by simp [allocs])
    obtain ⟨h2, hrun, hw2, hv, ha⟩ := q_insert_tail_spec hw s r hr (strOk_isSome s hok)
    have hrp : r ∉ ps := fun m => (hw.alloc r [] hr).2 (List.mem_cons_of_mem _ m)
    refine ⟨h2, ps ++ [r], by simp [stepOp, hrun, absStep], hw2, ?_, ?_, ?_,
      (q_insert_past s r true hr (strOk_isSome s hok)).2 hrun⟩
    · intro q hq
      exact hsh.insert r s hv q (by
        simp only [List.mem_append, List.mem_singleton, List.mem_cons] at hq ⊢; tauto)
    · simp only [values, absStep, List.map_append, List.map_cons, List.map_nil]
      rw [values_update h ps r _ h2.value hv hrp, hv]
      simp [cstr_append_nul _ (cstr_no_nul s), values]
    · intro q hq
      rw [ha] at hq
      by_cases e : q = r
      · right; simp [allocs, e]
      · left; simpa [Function.update_noteq e] using hq
  | removeHead sp bufsize =>
    cases ps with
    | nil =>
      refine ⟨h, [], ?_, hw, hsh, by simp [values, absStep], fun q hq => Or.inl hq, rfl⟩
      simp [stepOp, (q_remove_empty hw sp bufsize).1, absStep, values, removedOut,
        absCopy_none]
    | cons x ps =>
      obtain ⟨h2, hd, hw2, ha, hv, hrun⟩ := q_remove_head_eq x ps hw sp bufsize
      have hout := removed_out x sp bufsize _ hrun (hsh x (by simp)) hv
        (by rw [ha]; exact hw.alive x (by simp)) (hw.alive x (by simp)) hok
        (fun hs => hread (withBuf_isSome_head sp bufsize hs) x)
      refine ⟨h2, ps, ?_, hw2, ?_, by simp [values, absStep, hv], fun q hq => Or.inl (ha ▸ hq),
        list_del_past hd⟩
      · simpa [stepOp, absStep, values] using hout
      · intro q hq
        rw [hv]
        exact hsh q (List.mem_cons_of_mem _ hq)
  | removeTail sp bufsize =>
    rcases List.eq_nil_or_concat ps with hnil | ⟨l, x, hps⟩
    · subst hnil
      refine ⟨h, [], ?_, hw, hsh, by simp [values, absStep], fun q hq => Or.inl hq, rfl⟩
      simp [stepOp, (q_remove_empty hw sp bufsize).2, absStep, values, removedOut,
        absCopy_none]
    · rw [List.concat_eq_append] at hps
      subst hps
      obtain ⟨h2, hd, hw2, ha, hv, hrun⟩ := q_remove_tail_eq x l hw sp bufsize
      have hout := removed_out x sp bufsize _ hrun (hsh x (by simp)) hv
        (by rw [ha]; exact hw.alive x (by simp)) (hw.alive x (by simp)) hok
        (fun hs => hread (withBuf_isSome_tail sp bufsize hs) x)
      refine ⟨h2, l, ?_, hw2, ?_, by simp [values, absStep, hv], fun q hq => Or.inl (ha ▸ hq),
        list_del_past hd⟩
      · simpa [stepOp, absStep, values] using hout
      · intro q hq
        rw [hv]
        exact hsh q (by simp [hq])

theorem allocs_cons (op : Op) (ops : List Op) : allocs (op :: ops) = allocs [op] ++ allocs ops := by
  cases op <;> simp [allocs]

/-- A sequence of calls on a well-formed queue does what the same sequence does on the list of
its strings, provided the allocator answers with fresh blocks, the arguments of every call are
as the interface asks, and the memory after the string buffers can be read when a removal is
given an output buffer. -/
theorem runOps_spec {head : Ptr} : ∀ (ops : List Op) (h : Heap) (ps : List Ptr),
    WF h head ps → Shape h ps → (allocs ops).Nodup → (∀ r ∈ allocs ops, h.alive r = false) →
    (∀ op ∈ ops, opOk op = true) →
    (∀ op ∈ ops, withBuf op = true → ∀ p, (h.past p).isSome = true) →
    ∃ h2 ps2, runOps h head ops = some (h2, (absRun (values h ps) ops).2) ∧ WF h2 head ps2 ∧
      values h2 ps2 = (absRun (values h ps) ops).1
  | [], h, ps, hw, _, _, _, _, _ => ⟨h, ps, rfl, hw, rfl⟩
  | op :: ops, h, ps, hw, hsh, hnd, hfresh, hok, hread => by
    rw [allocs_cons] at hnd hfresh
    obtain ⟨h1, ps1, hstep, hw1, hsh1, hv1, ha1, hp1⟩ := stepOp_spec hw hsh op
      (fun r hr => hfresh r (List.mem_append_left _ hr)) (hok op (by simp))
      (hread op (by simp))
    have hdis := List.nodup_append.1 hnd
    obtain ⟨h2, ps2, hrun, hw2, hv2⟩ := runOps_spec ops h1 ps1 hw1 hsh1 hdis.2.1
      (fun r hr => by
        cases e : h1.alive r with
        | false => rfl
        | true =>
          rcases ha1 r e with h0 | m
          · rw [hfresh r (List.mem_append_right _ hr)] at h0
            exact absurd h0 Bool.false_ne_true
          · exact absurd hr (fun hr2 => hdis.2.2 m hr2))
      (fun o ho => hok o (List.mem_cons_of_mem _ ho))
      (fun o ho hb => by rw [hp1]; exact hread o (List.mem_cons_of_mem _ ho) hb)
    rw [hv1] at hrun hv2
    exact ⟨h2, ps2, by simp [runOps, hstep, hrun, absRun], hw2, by simp [absRun, hv2]⟩

theorem absStep_length (l : List (List Nat)) (op : Op) :
    (absStep l op).1.length + removals [(absStep l op).2] = l.length + insertions [op] := by
  cases op with
  | insertHead s r => simp [absStep, removals, insertions]
  | insertTail s r => simp [absStep, removals, insertions]
  | removeHead sp n => cases l <;> simp [absStep, removals, insertions]
  | removeTail sp n =>
    rcases List.eq_nil_or_concat l with hnil | ⟨l2, x, hl⟩
    · subst hnil; simp [absStep, removals, insertions]
    · subst hl
      simp [absStep, removals, insertions]

theorem removals_cons (o : Out) (outs : List Out) :
    removals (o :: outs) = removals [o] + removals outs := by
  cases o with
  | inserted b => simp [removals]
  | removed s b => cases s <;> simp [removals]; omega

theorem insertions_cons (op : Op) (ops : List Op) :
    insertions (op :: ops) = insertions [op] + insertions ops := by
  cases op <;> simp [insertions] <;> omega

/-- The length of the abstract list is the number of insertions minus the number of removals
that returned an element. -/
theorem absRun_length : ∀ (ops : List Op) (l : List (List Nat)),
    (absRun l ops).1.length + removals (absRun l ops).2 = l.length + insertions ops
  | [], l => by simp [absRun, removals, insertions]
  | op :: ops, l => by
    have h1 := absStep_length l op
    have h2 := absRun_length ops (absStep l op).1
    simp only [absRun]
    rw [removals_cons, insertions_cons]
    omega

theorem insertions_le : ∀ ops : List Op, insertions ops ≤ ops.length
  | [] => Nat.le_refl _
  | op :: ops => by
    have := insertions_le ops
    cases op <;> simp [insertions] <;> omega

theorem q_new_past (h : Heap) (p : Ptr) (hp : h.alive p = false) (h2 : Heap)
    (r : Option Ptr) (e : q_new h (some p) = some (h2, r)) : h2.past = h.past := by
  have ha : (h.alloc p []).alive p = true := by simp [Heap.alloc]
  have e2 : q_new h (some p) =
      some (((h.alloc p []).setN p (some p)).setP p (some p), some p) := by
    simp [q_new, malloc, hp, INIT_LIST_HEAD, setNext, setPrev, Heap.alloc, Heap.setN,
      Heap.setP]
  rw [e2] at e
  rw [← (Prod.mk.inj (Option.some.inj e)).1]
  rfl

/-- C7: starting from a new empty queue (made by `q_new` on any heap), every finite sequence
of `q_insert_head` / `q_insert_tail` calls (both allocations succeeding, the allocator answering
with fresh blocks) and `q_remove_head` / `q_remove_tail` calls (with or without an output
buffer, of any capacity) returns what the same sequence returns on the abstract list and leaves
a well-formed queue whose forward traversal holds the strings of that list; the string a
removal reports is read from the element it returns; `q_size` is the length of the list, that
is the number of insertions minus the number of removals that returned an element.  The
arguments are as the interface asks (`opOk`): an inserted string is NUL-terminated with a
length that fits `int`, an output buffer has at least `bufsize >= 1` bytes.  When a removal
is given an output buffer, its copy may run past the string buffer: the memory there holds any
bytes but can be read (the call would fault otherwise). -/
theorem queue_refines_list (g : Heap) (head : Ptr) (ops : List Op) (fuel : Nat)
    (hnd : (head :: allocs ops).Nodup) (hfresh : ∀ r ∈ head :: allocs ops, g.alive r = false)
    (hok : ∀ op ∈ ops, opOk op = true)
    (hread : ∀ op ∈ ops, withBuf op = true → ∀ p, (g.past p).isSome = true)
    (hf : ops.length < fuel) :
    ∃ h0 h outs ps, q_new g (some head) = some (h0, some head) ∧
      runOps h0 head ops = some (h, outs) ∧ WF h head ps ∧ forward fuel h head = some ps ∧
      values h ps = (absRun [] ops).1 ∧ outs = (absRun [] ops).2 ∧
      q_size fuel h (some head) = some (absRun [] ops).1.length ∧
      (absRun [] ops).1.length + removals outs = insertions ops := by
  obtain ⟨h0, hnew, hw0, ha0⟩ := q_new_spec g head (hfresh head (by simp))
  obtain ⟨h, ps, hrun, hw, hv⟩ := runOps_spec ops h0 [] hw0 (fun p hp => by simp at hp)
    (List.nodup_cons.1 hnd).2
    (fun r hr => by
      have : r ≠ head := fun e => (List.nodup_cons.1 hnd).1 (e ▸ hr)
      rw [ha0, Function.update_noteq this]
      exact hfresh r (List.mem_cons_of_mem _ hr))
    hok
    (fun o ho hb => by
      rw [q_new_past g head (hfresh head (by simp)) h0 _ hnew]
      exact hread o ho hb)
  have hlen := absRun_length ops []
  have hil := insertions_le ops
  have hv0 : values h0 [] = [] := rfl
  rw [hv0] at hrun hv
  have hpl : ps.length = (absRun [] ops).1.length := by
    rw [← hv]; simp [values]
  simp only [List.length_nil, Nat.zero_add] at hlen
  refine ⟨h0, h, _, ps, hnew, hrun, hw, hw.forward (by omega), hv, rfl, ?_, hlen⟩
  rw [← hpl]
  exact q_size_spec hw (by omega)

theorem queue_refines_list_witness :
    (0 :: allocs demoOps).Nodup ∧ (∀ r ∈ 0 :: allocs demoOps, Heap.empty.alive r = false) ∧
    (∀ op ∈ demoOps, opOk op = true) ∧
    (∀ op ∈ demoOps, withBuf op = true → ∀ p, (Heap.empty.past p).isSome = true) ∧
    demoOps.length < 8 ∧
    ∃ h0 h outs ps, q_new Heap.empty (some 0) = some (h0, some 0) ∧
      runOps h0 0 demoOps = some (h, outs) ∧ WF h 0 ps ∧ forward 8 h 0 = some ps ∧
      values h ps = (absRun [] demoOps).1 ∧ outs = (absRun [] demoOps).2 ∧
      q_size 8 h (some 0) = some (absRun [] demoOps).1.length ∧
      (absRun [] demoOps).1.length + removals outs = insertions demoOps :=
  ⟨by decide, by decide, by decide, fun _ _ _ _ => rfl, by decide,
    queue_refines_list Heap.empty 0 demoOps 8 (by decide) (by decide) (by decide)
      (fun _ _ _ _ => rfl) (by decide)⟩

/-- The example run evaluated: after the three insertions the queue reads `a b cde` and has
size 3; `removeTail` into a 2-byte buffer returns `cde` and the buffer reads `c`;
`removeHead` without buffer returns `a`; `removeHead` into a ten-byte buffer with
`bufsize = 7` returns `b`, read as `b`; `removeHead` on the empty queue returns no element and
leaves the buffer as it was. -/
theorem queue_example :
    ((q_new Heap.empty (some 0)).bind (fun r =>
      (runOps r.1 0 (demoOps.take 3)).bind (fun a =>
      (runOps a.1 0 (demoOps.drop 3)).bind (fun b =>
      (forward 8 a.1 0).bind (fun ps => (forward 8 b.1 0).bind (fun qs =>
      (q_size 8 a.1 (some 0)).map (fun n =>
        (values a.1 ps, n, b.2, values b.1 qs)))))))) =
      some ([[97], [98], [99, 100, 101]], 3,
        [Out.removed (some [99, 100, 101]) (some [99]), Out.removed (some [97]) none,
          Out.removed (some [98]) (some [98]), Out.removed none (some [9, 9])], []) := by
  decide

/-! ## Well-formedness as an invariant: the theorem -/

theorem remove_copy_some (buf val : List Nat) (bufsize : Nat) (g : Heap) (x : Ptr)
    (r : Removed)
    (hr : ((memcpy buf val (size_sub bufsize 1)).bind (fun b1 =>
        (bufSet b1 (size_sub bufsize 1) 0).bind (fun b2 =>
          some (⟨g, some x, some b2⟩ : Removed)))) = some r) : r.heap = g := by
  cases hm : memcpy buf val (size_sub bufsize 1) with
  | none => simp [hm] at hr
  | some b1 =>
    rw [hm, Option.some_bind] at hr
    cases hb : bufSet b1 (size_sub bufsize 1) 0 with
    | none => simp [hb] at hr
    | some b2 =>
      rw [hb, Option.some_bind] at hr
      have := Option.some.inj hr
      rw [← this]

theorem remove_read_some (h g : Heap) (x : Ptr) (buf : List Nat) (bufsize : Nat)
    (r : Removed)
    (hr : (getMemory h (some x) (size_sub bufsize 1)).bind (fun m =>
        (memcpy buf m (size_sub bufsize 1)).bind (fun b1 =>
          (bufSet b1 (size_sub bufsize 1) 0).bind (fun b2 =>
            some (⟨g, some x, some b2⟩ : Removed)))) = some r) : r.heap = g := by
  cases hm : getMemory h (some x) (size_sub bufsize 1) with
  | none => simp [hm] at hr
  | some m =>
    rw [hm, Option.some_bind] at hr
    exact remove_copy_some buf m bufsize g x r hr

/-- The copy of a removal that can be made (`copyOk`) returns, whatever the string buffer it
reads from. -/
theorem remove_copy_returns (h g : Heap) (x : Ptr) (buf : List Nat) (bufsize : Nat)
    (ha : h.alive x = true) (hok : copyOk h (some x) (some buf) bufsize = true) :
    ∃ b2, (getMemory h (some x) (size_sub bufsize 1)).bind (fun m =>
        (memcpy buf m (size_sub bufsize 1)).bind (fun b1 =>
          (bufSet b1 (size_sub bufsize 1) 0).bind (fun b2 =>
            some (⟨g, some x, some b2⟩ : Removed)))) = some ⟨g, some x, some b2⟩ := by
  simp only [copyOk, spOk, Bool.and_eq_true, Bool.or_eq_true, decide_eq_true_eq] at hok
  obtain ⟨⟨h1, hb, hlt⟩, hread⟩ := hok
  obtain ⟨j, hj⟩ := getMemory_served (bufsize - 1) ha (fun hlt2 => by
    rcases hread with hle | hs
    · omega
    · exact hs)
  obtain ⟨e1, e2, -⟩ := copy_returns buf
    (h.value x ++ (List.range (bufsize - 1 - (h.value x).length)).map j)
    (bufsize - 1) (by omega)
    (by simp only [List.length_append, List.length_map, List.length_range]; omega)
  rw [size_sub_one bufsize h1 hlt, hj, Option.some_bind, e1, Option.some_bind, e2,
    Option.some_bind]
  exact ⟨_, rfl⟩

theorem q_remove_head_wf {h : Heap} {head : Ptr} {ps : List Ptr} (hw : WF h head ps)
    (sp : Option (List Nat)) (bufsize : Nat) :
    (∀ r, q_remove_head h (some head) sp bufsize = some r → ∃ ps2, WF r.heap head ps2) ∧
    (copyOk h ps.head? sp bufsize = true →
      ∃ r, q_remove_head h (some head) sp bufsize = some r) := by
  cases ps with
  | nil =>
    have := (q_remove_empty hw sp bufsize).1
    refine ⟨fun r hr => ⟨[], ?_⟩, fun _ => ⟨_, this⟩⟩
    rw [this] at hr
    rw [← Option.some.inj hr]; exact hw
  | cons x ps =>
    obtain ⟨h2, -, hw2, -, -, hrun⟩ := q_remove_head_eq x ps hw sp bufsize
    cases sp with
    | none =>
      refine ⟨fun r hr => ⟨ps, ?_⟩, fun _ => ⟨_, hrun⟩⟩
      rw [hrun] at hr
      rw [← Option.some.inj hr]; exact hw2
    | some buf =>
      simp only at hrun
      refine ⟨fun r hr => ⟨ps, ?_⟩, fun hok => ?_⟩
      · rw [hrun] at hr
        rw [remove_read_some h h2 x buf bufsize r hr]; exact hw2
      · obtain ⟨b2, hb2⟩ := remove_copy_returns h h2 x buf bufsize (hw.alive x (by simp))
          (by simpa using hok)
        exact ⟨_, hrun.trans hb2⟩

theorem q_remove_tail_wf {h : Heap} {head : Ptr} {ps : List Ptr} (hw : WF h head ps)
    (sp : Option (List Nat)) (bufsize : Nat) :
    (∀ r, q_remove_tail h (some head) sp bufsize = some r → ∃ ps2, WF r.heap head ps2) ∧
    (copyOk h ps.getLast? sp bufsize = true →
      ∃ r, q_remove_tail h (some head) sp bufsize = some r) := by
  rcases List.eq_nil_or_concat ps with hnil | ⟨l, x, hps⟩
  · subst hnil
    have := (q_remove_empty hw sp bufsize).2
    refine ⟨fun r hr => ⟨[], ?_⟩, fun _ => ⟨_, this⟩⟩
    rw [this] at hr
    rw [← Option.some.inj hr]; exact hw
  · rw [List.concat_eq_append] at hps
    subst hps
    obtain ⟨h2, -, hw2, -, -, hrun⟩ := q_remove_tail_eq x l hw sp bufsize
    cases sp with
    | none =>
      refine ⟨fun r hr => ⟨l, ?_⟩, fun _ => ⟨_, hrun⟩⟩
      rw [hrun] at hr
      rw [← Option.some.inj hr]; exact hw2
    | some buf =>
      simp only at hrun
      refine ⟨fun r hr => ⟨l, ?_⟩, fun hok => ?_⟩
      · rw [hrun] at hr
        rw [remove_read_some h h2 x buf bufsize r hr]; exact hw2
      · obtain ⟨b2, hb2⟩ := remove_copy_returns h h2 x buf bufsize (hw.alive x (by simp))
          (by simpa using hok)
        exact ⟨_, hrun.trans hb2⟩

/-- C12: well-formedness is an invariant of every mutating operation.  From a well-formed
queue of NUL-terminated strings (circular through the sentinel, every node `n` with
`n.next.prev == n` and `n.prev.next == n`), each of `q_insert_head`, `q_insert_tail` (whatever
the allocator answers), `q_remove_head`, `q_remove_tail` (without an output buffer, on an empty
queue, or with a buffer of at least `bufsize >= 1` bytes, of any capacity, provided a read past
the string of the removed element does not fault: `copyOk`), `q_delete_mid`, `q_delete_dup`,
`q_swap`, `q_reverse` and `q_sort` returns and leaves a valid queue: well formed, every node
consistently linked, the backward traversal the mirror image of the forward one.  Moreover
every return of a removal, whatever its arguments, leaves a valid queue. -/
theorem wf_invariant (fuel : Nat) (h : Heap) (head : Ptr) (ps : List Ptr)
    (hw : WF h head ps) (hst : Strs h ps) (hf : ps.length < fuel) :
    Valid h head ∧
    (∀ s r ok, (strlen s).isSome = true → (∀ p, r = some p → h.alive p = false) →
      (∃ h2 b, q_insert_head h (some head) s r ok = some (h2, b) ∧ Valid h2 head) ∧
      (∃ h2 b, q_insert_tail h (some head) s r ok = some (h2, b) ∧ Valid h2 head)) ∧
    (∀ sp bufsize, copyOk h ps.head? sp bufsize = true →
      ∃ r, q_remove_head h (some head) sp bufsize = some r ∧ Valid r.heap head) ∧
    (∀ sp bufsize, copyOk h ps.getLast? sp bufsize = true →
      ∃ r, q_remove_tail h (some head) sp bufsize = some r ∧ Valid r.heap head) ∧
    (∃ h2 b, q_delete_mid fuel h (some head) = some (h2, b) ∧ Valid h2 head) ∧
    (∃ h2 b, q_delete_dup fuel h (some head) = some (h2, b) ∧ Valid h2 head) ∧
    (∃ h2, q_swap fuel h (some head) = some h2 ∧ Valid h2 head) ∧
    (∃ h2, q_reverse fuel h (some head) = some h2 ∧ Valid h2 head) ∧
    (∃ h2, q_sort fuel h (some head) = some h2 ∧ Valid h2 head) ∧
    (∀ sp bufsize r, q_remove_head h (some head) sp bufsize = some r → Valid r.heap head) ∧
    (∀ sp bufsize r, q_remove_tail h (some head) sp bufsize = some r → Valid r.heap head) := by
  refine ⟨hw.valid, fun s r ok hs hr => ?_, fun sp bufsize hok => ?_,
    fun sp bufsize hok => ?_, ?_, ?_, ?_, ?_, ?_, fun sp bufsize r hr => ?_,
    fun sp bufsize r hr => ?_⟩
  · obtain ⟨⟨h2, b, ps2, e2, w2⟩, ⟨h3, c, ps3, e3, w3⟩⟩ := q_insert_wf hw s hs r hr ok
    exact ⟨⟨h2, b, e2, w2.valid⟩, ⟨h3, c, e3, w3.valid⟩⟩
  · obtain ⟨p1, p2⟩ := q_remove_head_wf hw sp bufsize
    obtain ⟨r, hr⟩ := p2 hok
    obtain ⟨ps2, w2⟩ := p1 r hr
    exact ⟨r, hr, w2.valid⟩
  · obtain ⟨p1, p2⟩ := q_remove_tail_wf hw sp bufsize
    obtain ⟨r, hr⟩ := p2 hok
    obtain ⟨ps2, w2⟩ := p1 r hr
    exact ⟨r, hr, w2.valid⟩
  · obtain ⟨h2, b, ps2, e2, w2⟩ := q_delete_mid_wf fuel h head ps hw hf
    exact ⟨h2, b, e2, w2.valid⟩
  · obtain ⟨h2, e2, w2, -⟩ := q_delete_dup_spec fuel h head ps hw hst hf
    exact ⟨h2, true, e2, w2.valid⟩
  · obtain ⟨h2, e2, w2, -⟩ := q_swap_wf fuel h head ps hw hf
    exact ⟨h2, e2, w2.valid⟩
  · obtain ⟨h2, e2, w2, -⟩ := q_reverse_wf fuel h head ps hw hf
    exact ⟨h2, e2, w2.valid⟩
  · obtain ⟨h2, e2, w2, -⟩ := q_sort_spec fuel h head ps hw hst hf
    exact ⟨h2, e2, w2.valid⟩
  · obtain ⟨ps2, w2⟩ := (q_remove_head_wf hw sp bufsize).1 r hr
    exact w2.valid
  · obtain ⟨ps2, w2⟩ := (q_remove_tail_wf hw sp bufsize).1 r hr
    exact w2.valid

theorem wf_invariant_witness :
    WF (queueOf [[98], [97], [97], [99]]) 0 [1, 2, 3, 4] ∧
    Strs (queueOf [[98], [97], [97], [99]]) [1, 2, 3, 4] ∧
    ([1, 2, 3, 4] : List Ptr).length < 5 ∧
    Valid (queueOf [[98], [97], [97], [99]]) 0 ∧
    ((∃ h2 b, q_insert_head (queueOf [[98], [97], [97], [99]]) (some 0) [100, 0] (some 9)
        true = some (h2, b) ∧ Valid h2 0) ∧
      (∃ h2 b, q_insert_tail (queueOf [[98], [97], [97], [99]]) (some 0) [100, 0] (some 9)
        true = some (h2, b) ∧ Valid h2 0)) ∧
    (∃ r, q_remove_head (queueOf [[98], [97], [97], [99]]) (some 0)
      (some (List.replicate 10 garbage)) 10 = some r ∧ Valid r.heap 0) ∧
    (∃ r, q_remove_tail (queueOf [[98], [97], [97], [99]]) (some 0)
      (some (List.replicate 10 garbage)) 10 = some r ∧ Valid r.heap 0) ∧
    (∃ h2 b, q_delete_mid 5 (queueOf [[98], [97], [97], [99]]) (some 0) = some (h2, b) ∧
      Valid h2 0) ∧
    (∃ h2 b, q_delete_dup 5 (queueOf [[98], [97], [97], [99]]) (some 0) = some (h2, b) ∧
      Valid h2 0) ∧
    (∃ h2, q_swap 5 (queueOf [[98], [97], [97], [99]]) (some 0) = some h2 ∧ Valid h2 0) ∧
    (∃ h2, q_reverse 5 (queueOf [[98], [97], [97], [99]]) (some 0) = some h2 ∧ Valid h2 0) ∧
    (∃ h2, q_sort 5 (queueOf [[98], [97], [97], [99]]) (some 0) = some h2 ∧ Valid h2 0) :=
  have t := wf_invariant 5 (queueOf [[98], [97], [97], [99]]) 0 [1, 2, 3, 4] (by decide)
    (by decide) (by decide)
  ⟨by decide, by decide, by decide, t.1, t.2.1 [100, 0] (some 9) true (by decide) (by decide),
    t.2.2.1 (some (List.replicate 10 garbage)) 10 (by decide),
    t.2.2.2.1 (some (List.replicate 10 garbage)) 10 (by decide), t.2.2.2.2.1,
    t.2.2.2.2.2.1, t.2.2.2.2.2.2.1, t.2.2.2.2.2.2.2.1, t.2.2.2.2.2.2.2.2.1⟩

/-! ## The round trip through the queue -/

theorem allocs_fifo : ∀ (xs : List (List Nat)) (rs : List Ptr) (n : Nat),
    rs.length = xs.length → allocs (fifoInserts xs rs ++ fifoRemoves n) = rs
  | [], [], n, _ => by
    induction n with
    | zero => rfl
    | succ n ih =>
      simp only [fifoInserts, fifoRemoves, List.nil_append, List.replicate_succ, allocs] at ih ⊢
      exact ih
  | [], _ :: _, _, h => by simp at h
  | _ :: _, [], _, h => by simp at h
  | x :: xs, r :: rs, n, h => by
    exact congrArg (List.cons r) (allocs_fifo xs rs n (by simpa using h))

theorem strOk_append_nul (x : List Nat) (h0 : (0 : Nat) ∉ x) (hl : x.length + 1 < 2 ^ 31) :
    strOk (x ++ [0]) = true := by
  unfold strOk
  rw [strlen_append_nul x h0]
  exact decide_eq_true hl

theorem opOk_fifo : ∀ (xs : List (List Nat)) (rs : List Ptr) (n : Nat),
    (∀ x ∈ xs, (0 : Nat) ∉ x ∧ x.length + 1 < 2 ^ 31) →
    ∀ op ∈ fifoInserts xs rs ++ fifoRemoves n, opOk op = true
  | [], rs, n, _, op, hop => by
    have e : fifoInserts [] rs = [] := by cases rs <;> rfl
    rw [e, List.nil_append] at hop
    rw [List.eq_of_mem_replicate hop]
    rfl
  | x :: xs, [], n, _, op, hop => by
    simp only [fifoInserts, List.nil_append] at hop
    rw [List.eq_of_mem_replicate hop]
    rfl
  | x :: xs, r :: rs, n, hx, op, hop => by
    have hop2 : op = Op.insertTail (x ++ [0]) r ∨ op ∈ fifoInserts xs rs ++ fifoRemoves n :=
      List.mem_cons.1 hop
    rcases hop2 with e | hm
    · rw [e]
      exact strOk_append_nul x (hx x (by simp)).1 (hx x (by simp)).2
    · exact opOk_fifo xs rs n (fun y hy => hx y (List.mem_cons_of_mem _ hy)) op hm

theorem withBuf_fifo : ∀ (xs : List (List Nat)) (rs : List Ptr) (n : Nat),
    ∀ op ∈ fifoInserts xs rs ++ fifoRemoves n, withBuf op = false
  | [], rs, n, op, hop => by
    have e : fifoInserts [] rs = [] := by cases rs <;> rfl
    rw [e, List.nil_append] at hop
    rw [List.eq_of_mem_replicate hop]
    rfl
  | x :: xs, [], n, op, hop => by
    simp only [fifoInserts, List.nil_append] at hop
    rw [List.eq_of_mem_replicate hop]
    rfl
  | x :: xs, r :: rs, n, op, hop => by
    have hop2 : op = Op.insertTail (x ++ [0]) r ∨ op ∈ fifoInserts xs rs ++ fifoRemoves n :=
      List.mem_cons.1 hop
    rcases hop2 with e | hm
    · rw [e]
      rfl
    · exact withBuf_fifo xs rs n op hm

theorem absRun_removes : ∀ (l : List (List Nat)),
    absRun l (fifoRemoves l.length) = ([], l.map (fun x => Out.removed (some x) none))
  | [] => rfl
  | x :: l => by
    simp only [List.length_cons, fifoRemoves, List.replicate_succ, absRun, absStep,
      List.tail_cons, List.head?_cons, absCopy, List.map_cons]
    have ih := absRun_removes l
    simp only [fifoRemoves] at ih
    rw [ih]

theorem absRun_inserts : ∀ (xs : List (List Nat)) (rs : List Ptr) (ops : List Op)
    (l : List (List Nat)), rs.length = xs.length → (∀ x ∈ xs, (0 : Nat) ∉ x) →
    absRun l (fifoInserts xs rs ++ ops) =
      ((absRun (l ++ xs) ops).1,
        List.replicate xs.length (Out.inserted true) ++ (absRun (l ++ xs) ops).2)
  | [], [], ops, l => by
    intro _ _
    simp [fifoInserts]
  | [], _ :: _, _, _ => by
    intro h
    simp at h
  | _ :: _, [], _, _ => by
    intro h
    simp at h
  | x :: xs, r :: rs, ops, l => by
    intro h hx
    have ih := absRun_inserts xs rs ops (l ++ [x]) (by simpa using h)
      (fun y hy => hx y (List.mem_cons_of_mem _ hy))
    have e : (fifoInserts xs rs).append ops = fifoInserts xs rs ++ ops := rfl
    simp only [fifoInserts, List.cons_append, absRun, absStep, List.length_cons,
      List.replicate_succ, cstr_append_nul x (hx x (by simp))]
    rw [e, ih]
    simp

/-- C15: the FIFO round trip.  For every list `xs` of strings (bytes other than NUL, of a
length that fits `int`), a new queue made by `q_new`, then `q_insert_tail` of the members of
`xs` in order (the allocations succeed, with fresh blocks), then `|xs|` calls of
`q_remove_head`: every insertion returns `true`, the removals return elements whose strings,
read from the returned elements, are the members of `xs` in the same order, and the queue is
left empty. -/
theorem fifo_round_trip (h : Heap) (p : Ptr) (xs : List (List Nat)) (rs : List Ptr)
    (hp : h.alive p = false) (hx : ∀ x ∈ xs, (0 : Nat) ∉ x ∧ x.length + 1 < 2 ^ 31)
    (hlen : rs.length = xs.length) (hnd : (p :: rs).Nodup)
    (hfresh : ∀ r ∈ rs, h.alive r = false) :
    ∃ h1 h2, q_new h (some p) = some (h1, some p) ∧
      runOps h1 p (fifoInserts xs rs ++ fifoRemoves xs.length) =
        some (h2, List.replicate xs.length (Out.inserted true) ++
          xs.map (fun x => Out.removed (some x) none)) ∧
      WF h2 p [] ∧ forward 1 h2 p = some [] ∧ q_size 1 h2 (some p) = some 0 := by
  obtain ⟨h1, hnew, hw1, ha1⟩ := q_new_spec h p hp
  have hpr : p ∉ rs := (List.nodup_cons.1 hnd).1
  obtain ⟨h2, ps2, hrun, hw2, hv2⟩ := runOps_spec (fifoInserts xs rs ++ fifoRemoves xs.length)
    h1 [] hw1 (fun _ hq => by simp at hq)
    (by rw [allocs_fifo xs rs _ hlen]; exact (List.nodup_cons.1 hnd).2)
    (fun r hr => by
      rw [allocs_fifo xs rs _ hlen] at hr
      have : r ≠ p := fun e => hpr (e ▸ hr)
      rw [ha1, Function.update_noteq this]
      exact hfresh r hr)
    (opOk_fifo xs rs _ hx)
    (fun o ho hb => by
      rw [withBuf_fifo xs rs _ o ho] at hb
      exact absurd hb Bool.false_ne_true)
  have habs : absRun (values h1 []) (fifoInserts xs rs ++ fifoRemoves xs.length) =
      ([], List.replicate xs.length (Out.inserted true) ++
        xs.map (fun x => Out.removed (some x) none)) := by
    rw [absRun_inserts xs rs _ _ hlen (fun x hm => (hx x hm).1)]
    simp only [values, List.map_nil, List.nil_append]
    rw [absRun_removes xs]
  rw [habs] at hrun hv2
  have hps2 : ps2 = [] := by
    simpa [values] using hv2
  subst hps2
  exact ⟨h1, h2, hnew, hrun, hw2, hw2.forward (by simp), q_size_spec hw2 (by simp)⟩

theorem fifo_round_trip_witness :
    Heap.empty.alive 0 = false ∧
    (∀ x ∈ [[97], [98], [99]], (0 : Nat) ∉ x ∧ x.length + 1 < 2 ^ 31) ∧
    ([1, 2, 3] : List Ptr).length = [[97], [98], [99]].length ∧
    ((0 : Ptr) :: [1, 2, 3]).Nodup ∧ (∀ r ∈ ([1, 2, 3] : List Ptr), Heap.empty.alive r = false) ∧
    ∃ h1 h2, q_new Heap.empty (some 0) = some (h1, some 0) ∧
      runOps h1 0 (fifoInserts [[97], [98], [99]] [1, 2, 3] ++ fifoRemoves 3) =
        some (h2, List.replicate 3 (Out.inserted true) ++
          [[97], [98], [99]].map (fun x => Out.removed (some x) none)) ∧
      WF h2 0 [] ∧ forward 1 h2 0 = some [] ∧ q_size 1 h2 (some 0) = some 0 :=
  ⟨by decide, by decide, by decide, by decide, by decide,
    fifo_round_trip Heap.empty 0 [[97], [98], [99]] [1, 2, 3] (by decide) (by decide)
      (by decide) (by decide) (by decide)⟩

end LabQueue
